import Mathlib

/-!
# Verification development for `pkg/version`

A shallow embedding of `pkg/version/version.go` and `pkg/version/command.go`.

* Go strings are byte sequences (`GoString`); a string literal of the source is
  written `str "..."`, its UTF-8 encoding.
* The six package-level variables are the fields of `State`; every function of the
  source that reads or writes them takes (and returns) the state explicitly.
* What the source writes to `os.Stdout` is returned as a `GoString`.
* The functions of the Go standard library that the source calls (`strings`,
  `path`, `regexp`, `time`, `fmt`) are embedded by executable definitions that
  follow the library's algorithms.
-/

namespace Version

/-! ## Go strings -/

/-- A Go string: an immutable sequence of bytes, each byte kept as a natural number. -/
abbrev GoString := List Nat

/-- The UTF-8 encoding of one code point (`utf8.EncodeRune`). -/
def encodeRune (r : Nat) : GoString :=
  if r < 0x80 then [r]
  else if r < 0x800 then [0xC0 + r / 64, 0x80 + r % 64]
  else if r < 0x10000 then [0xE0 + r / 4096, 0x80 + r / 64 % 64, 0x80 + r % 64]
  else [0xF0 + r / 262144, 0x80 + r / 4096 % 64, 0x80 + r / 64 % 64, 0x80 + r % 64]

/-- The UTF-8 bytes of a list of characters. -/
def utf8 : List Char → GoString
  | [] => []
  | c :: t => encodeRune c.toNat ++ utf8 t

/-- A string literal of the source, as the bytes Go stores for it. -/
def str (s : String) : GoString := utf8 s.data

/-! ## `strings` and `path` -/

/-- The code points for which `unicode.IsSpace` holds: the Latin-1 spaces
`'\t' '\n' '\v' '\f' '\r' ' ' U+0085 U+00A0` and the `White_Space` table. -/
def spaceRunes : List Nat :=
  [0x09, 0x0A, 0x0B, 0x0C, 0x0D, 0x20, 0x85, 0xA0, 0x1680,
   0x2000, 0x2001, 0x2002, 0x2003, 0x2004, 0x2005, 0x2006, 0x2007, 0x2008, 0x2009, 0x200A,
   0x2028, 0x2029, 0x202F, 0x205F, 0x3000]

/-- The byte sequences that decode (`utf8.DecodeRuneInString`,
`utf8.DecodeLastRuneInString`) to a white-space rune: a rune is decoded from its
shortest-form encoding only, anything else decodes to `utf8.RuneError`. -/
def spaceEncodings : List GoString := spaceRunes.map encodeRune

/-- The encoding of the white-space rune `s` starts with, if it starts with one. -/
def leadingSpace (s : GoString) : Option GoString :=
  spaceEncodings.find? (fun e => e.isPrefixOf s)

/-- The encoding of the white-space rune `s` ends with, if it ends with one. -/
def trailingSpace (s : GoString) : Option GoString :=
  spaceEncodings.find? (fun e => e.isSuffixOf s)

/-- The loop of `strings.TrimLeftFunc(s, unicode.IsSpace)`: drop leading white-space
runes one at a time. -/
def trimLeftLoop : Nat → GoString → GoString
  | 0, s => s
  | n + 1, s =>
    match leadingSpace s with
    | some e => trimLeftLoop n (s.drop e.length)
    | none => s

/-- The loop of `strings.TrimRightFunc(s, unicode.IsSpace)`: drop trailing white-space
runes one at a time. -/
def trimRightLoop : Nat → GoString → GoString
  | 0, s => s
  | n + 1, s =>
    match trailingSpace s with
    | some e => trimRightLoop n (s.take (s.length - e.length))
    | none => s

/-- Leading white space removed; every round drops at least one byte, so
`s.length` rounds are enough. -/
def TrimLeftSpace (s : GoString) : GoString := trimLeftLoop s.length s

/-- Trailing white space removed. -/
def TrimRightSpace (s : GoString) : GoString := trimRightLoop s.length s

/-- Go `strings.TrimSpace`: all leading and trailing Unicode white space removed. -/
def TrimSpace (s : GoString) : GoString := TrimRightSpace (TrimLeftSpace s)

/-- Go `strings.HasSuffix`:
`len(s) >= len(suffix) && s[len(s)-len(suffix):] == suffix`. -/
def HasSuffix (s suffix : GoString) : Bool :=
  decide (suffix.length ≤ s.length) && (s.drop (s.length - suffix.length) == suffix)

/-- Go `strings.Split(s, sep)` for a one-byte separator `sep`: the substrings between
the occurrences of `sep`, one more than there are occurrences. -/
def Split (s : GoString) (sep : Nat) : List GoString :=
  match s with
  | [] => [[]]
  | c :: t =>
    if c = sep then [] :: Split t sep
    else
      match Split t sep with
      | [] => [[c]]
      | h :: r => (c :: h) :: r

/-- The byte `'/'`. -/
def slash : Nat := 47

/-- Go `path.Base`: the last element of the path, trailing slashes removed first;
`"."` for the empty path and `"/"` for a path of slashes only. -/
def Base (path : GoString) : GoString :=
  if path = [] then str "."
  else
    -- Strip trailing slashes.
    let path := (path.reverse.dropWhile (fun c => c == slash)).reverse
    -- Find the last element.
    let path := (path.reverse.takeWhile (fun c => c != slash)).reverse
    -- If empty now, it had only slashes.
    if path = [] then str "/" else path

/-! ## `time`

`time.Time` is kept as the Unix time in seconds together with the nanosecond
part; the location is not kept, because the only use the source makes of a parsed
time is `t.In(cst)`, which replaces it. The 64-bit arithmetic of the library is
written with explicit wrap-around. -/

/-- Conversion to `uint64`. -/
def wrapUint64 (x : Int) : Nat := (x % 18446744073709551616).toNat

/-- Conversion to `int64` (also the result of wrapping `int64` arithmetic). -/
def wrapInt64 (x : Int) : Int :=
  (x + 9223372036854775808) % 18446744073709551616 - 9223372036854775808

/-- Constant `secondsPerDay` of package `time`. -/
def secondsPerDay : Nat := 86400

/-- Constant `absoluteZeroYear` of package `time`: the year of the absolute epoch. -/
def absoluteZeroYear : Int := -292277022399

/-- Constant `unixToInternal` of package `time`. -/
def unixToInternal : Int :=
  (1969 * 365 + 1969 / 4 - 1969 / 100 + 1969 / 400) * 86400

/-- Constant `internalToAbsolute` of package `time`. -/
def internalToAbsolute : Int := 9223371966579724800

/-- Table `daysBefore` of package `time`: days in a non-leap year before each month. -/
def daysBefore : List Nat :=
  [0, 31, 59, 90, 120, 151, 181, 212, 243, 273, 304, 334, 365]

/-- Function `isLeap` of package `time`. -/
def isLeap (year : Int) : Bool :=
  year % 4 == 0 && (year % 100 != 0 || year % 400 == 0)

/-- Function `daysIn` of package `time`: the number of days of month `m` in `year`. -/
def daysIn (m : Nat) (year : Int) : Nat :=
  if m = 2 && isLeap year then 29
  else daysBefore.getD m 0 - daysBefore.getD (m - 1) 0

/-- Function `daysSinceEpoch` of package `time`: days from the absolute epoch to the
start of `year`. -/
def daysSinceEpoch (year : Int) : Nat :=
  let y := wrapUint64 (year - absoluteZeroYear)
  -- Add in days from 400-year cycles.
  let n := y / 400
  let y := y - 400 * n
  let d := 146097 * n
  -- Add in 100-year cycles.
  let n := y / 100
  let y := y - 100 * n
  let d := d + 36524 * n
  -- Add in 4-year cycles.
  let n := y / 4
  let y := y - 4 * n
  let d := d + 1461 * n
  -- Add in non-leap years.
  d + 365 * y

/-- Go `time.Date(year, month, day, hour, min, sec, nsec, time.UTC)`, as Unix seconds,
for arguments that are in range (`1 ≤ month ≤ 12`, `hour < 24`, `min < 60`,
`sec < 60`), where the normalisation that `Date` starts with changes nothing.
`time.Parse` only calls it with such arguments. -/
def Date (year : Int) (month day hour min sec : Nat) : Int :=
  -- Compute days since the absolute epoch.
  let d := daysSinceEpoch year
  -- Add in days before this month.
  let d := d + daysBefore.getD (month - 1) 0
  let d := if isLeap year && decide (3 ≤ month) then d + 1 else d
  -- Add in days before today.
  let d := d + (day - 1)
  -- Add in time elapsed today.
  let abs := wrapUint64 ((d * secondsPerDay + (hour * 3600 + min * 60 + sec) : Nat) : Int)
  wrapInt64 (wrapInt64 abs + (-internalToAbsolute + -unixToInternal))

/-- Function `absDate` of package `time`: year, month and day of an absolute time. -/
def absDate (abs : Nat) : Int × Nat × Nat :=
  -- Split into time and day.
  let d := abs / secondsPerDay
  -- Account for 400 year cycles.
  let n := d / 146097
  let y := 400 * n
  let d := d - 146097 * n
  -- Cut off 100-year cycles; the last cycle has one extra leap year.
  let n := d / 36524
  let n := n - n / 4
  let y := y + 100 * n
  let d := d - 36524 * n
  -- Cut off 4-year cycles.
  let n := d / 1461
  let y := y + 4 * n
  let d := d - 1461 * n
  -- Cut off years within a 4-year cycle; the last year is a leap year.
  let n := d / 365
  let n := n - n / 4
  let y := y + n
  let d := d - 365 * n
  let year := wrapInt64 (wrapInt64 y + absoluteZeroYear)
  let yday := d
  if isLeap year && decide (yday = 31 + 29 - 1) then
    -- Leap day.
    (year, 2, 29)
  else
    -- After leap day; pretend it wasn't there.
    let day := if isLeap year && decide (yday > 31 + 29 - 1) then yday - 1 else yday
    -- Estimate month on assumption that every month has 31 days.
    let month := day / 31
    let end_ := daysBefore.getD (month + 1) 0
    if day ≥ end_ then (year, month + 2, day - end_ + 1)
    else (year, month + 1, day - daysBefore.getD month 0 + 1)

/-- Function `absClock` of package `time`: hour, minute and second of an absolute
time. -/
def absClock (abs : Nat) : Nat × Nat × Nat :=
  let sec := abs % secondsPerDay
  let hour := sec / 3600
  let sec := sec - hour * 3600
  let min := sec / 60
  let sec := sec - min * 60
  (hour, min, sec)

/-- The decimal digits of `u`, most significant first, in front of `acc`. -/
def digitsLoop : Nat → Nat → GoString → GoString
  | 0, _, acc => acc
  | fuel + 1, u, acc =>
    if u < 10 then (48 + u) :: acc
    else digitsLoop fuel (u / 10) ((48 + u % 10) :: acc)

/-- Function `appendInt` of package `time` (on the empty buffer): the decimal form
of `x`, zero-padded to `width` digits, with a leading `-` when `x` is negative. -/
def appendInt (x : Int) (width : Nat) : GoString :=
  let u := x.natAbs
  let digits := digitsLoop (u + 1) u []
  (if x < 0 then str "-" else []) ++ List.replicate (width - digits.length) 48 ++ digits

/-- A `time.Time`: Unix seconds and nanoseconds within the second. -/
structure Time where
  unixSec : Int
  nsec : Nat
deriving DecidableEq, Repr

/-- The source's `t.In(cst).Format("2006-01-02 15:04:05 MST")` with
`cst := time.FixedZone("CST", 8*60*60)`: the layout is year, month, day, hour,
minute and second as zero-padded numbers, then the zone abbreviation. -/
def formatInCST (t : Time) : GoString :=
  let offset : Int := 8 * 60 * 60
  let abs := wrapUint64 (t.unixSec + offset + (unixToInternal + internalToAbsolute))
  let date := absDate abs -- year, month, day
  let clock := absClock abs -- hour, min, sec
  appendInt date.1 4 ++ str "-" ++ appendInt date.2.1 2 ++ str "-" ++ appendInt date.2.2 2
    ++ str " " ++ appendInt clock.1 2 ++ str ":" ++ appendInt clock.2.1 2 ++ str ":"
    ++ appendInt clock.2.2 2 ++ str " " ++ str "CST"

/-- Function `isDigit` of package `time`: is there a decimal digit at index `i`? -/
def isDigit (s : GoString) (i : Nat) : Bool :=
  if s.length ≤ i then false
  else decide (48 ≤ s.getD i 0) && decide (s.getD i 0 ≤ 57)

/-- Function `commaOrPeriod` of package `time`. -/
def commaOrPeriod (b : Nat) : Bool := b == 46 || b == 44

/-- Function `getnum` of package `time`: a one- or two-digit number at the start of
`s` (exactly two digits when `fixed`), and the rest of `s`. -/
def getnum (s : GoString) (fixed : Bool) : Option (Nat × GoString) :=
  if !isDigit s 0 then none
  else if !isDigit s 1 then
    if fixed then none else some (s.getD 0 0 - 48, s.drop 1)
  else some ((s.getD 0 0 - 48) * 10 + (s.getD 1 0 - 48), s.drop 2)

/-- Function `leadingInt` of package `time`: the number written by the leading
digits of `s` (continuing from `x`) and the rest of `s`; `none` on overflow. -/
def leadingInt : GoString → Nat → Option (Nat × GoString)
  | [], x => some (x, [])
  | c :: t, x =>
    if c < 48 || c > 57 then some (x, c :: t)
    else if x > 9223372036854775808 / 10 then none
    else if x * 10 + c - 48 > 9223372036854775808 then none
    else leadingInt t (x * 10 + c - 48)

/-- Function `atoi` of package `time`: an optionally signed decimal number that
fills the whole of `s`. -/
def atoi (s : GoString) : Option Int :=
  let neg := decide (s.head? = some 45)
  let s := if s.head? = some 45 ∨ s.head? = some 43 then s.drop 1 else s
  match leadingInt s 0 with
  | some (q, []) => some (if neg then -(q : Int) else (q : Int))
  | _ => none

/-- Function `skip` of package `time` for a layout prefix without blanks: `value`
has to start with `pfx`, which is removed. -/
def skip (value pfx : GoString) : Option GoString :=
  if pfx.isPrefixOf value then some (value.drop pfx.length) else none

/-- The number of bytes of a fractional second at the start of `value` (separator
included): the loop `n := 2; for ; n < len(value) && isDigit(value, n); n++`. -/
def fracLen (value : GoString) : Nat :=
  2 + ((value.drop 2).takeWhile (fun c => decide (48 ≤ c) && decide (c ≤ 57))).length

/-- Function `parseNanoseconds` of package `time`: the nanoseconds written by the
fraction `value[:nbytes]`, at most nine digits being read. -/
def parseNanoseconds (value : GoString) (nbytes : Nat) : Option Nat :=
  if !commaOrPeriod (value.getD 0 0) then none
  else
    let nbytes := if nbytes > 10 then 10 else nbytes
    match atoi ((value.take nbytes).drop 1) with
    | none => none
    | some ns => if ns < 0 then none else some (ns.toNat * 10 ^ (10 - nbytes))

/-- The numeric zone of layout element `Z07:00`: sign, two-digit hour, `:` and
two-digit minute; returns the offset in seconds and the rest of the input. -/
def parseColonTZ (value : GoString) : Option (Int × GoString) :=
  if value.length < 6 then none
  else if value.getD 3 0 ≠ 58 then none
  else
    match getnum ((value.take 3).drop 1) true with
    | none => none
    | some (hr, _) =>
      match getnum ((value.take 6).drop 4) true with
      | none => none
      | some (mm, _) =>
        -- The range test uses > rather than >=.
        if hr > 24 then none
        else if mm > 60 then none
        else
          let zoneOffset : Int := (((hr * 60 + mm) * 60 + 0 : Nat) : Int)
          if value.getD 0 0 = 43 then some (zoneOffset, value.drop 6)
          else if value.getD 0 0 = 45 then some (-zoneOffset, value.drop 6)
          else none

/-- What `time.Parse` has read from its input: the civil fields and the zone offset
in seconds (`0` for `Z`). -/
structure Parsed where
  year : Int
  month : Nat
  day : Nat
  hour : Nat
  min : Nat
  sec : Nat
  nsec : Nat
  zoneOffset : Int
deriving DecidableEq, Repr

/-- The loop of function `parse` of package `time`, run on the layout
`time.RFC3339 = "2006-01-02T15:04:05Z07:00"`: one step for each layout element,
with its literal prefix skipped first. Every error of the library is `none`. -/
def parseLayout (value : GoString) : Option Parsed :=
  -- "2006": exactly four digits
  if value.length < 4 || !isDigit value 0 then none else
  match atoi (value.take 4) with
  | none => none
  | some year =>
  -- "-01": two digits
  match skip (value.drop 4) (str "-") with
  | none => none
  | some value =>
  match getnum value true with
  | none => none
  | some (month, value) =>
  if month ≤ 0 || 12 < month then none else
  -- "-02": two digits; the day is validated after the loop
  match skip value (str "-") with
  | none => none
  | some value =>
  match getnum value true with
  | none => none
  | some (day, value) =>
  -- "T15": one or two digits
  match skip value (str "T") with
  | none => none
  | some value =>
  match getnum value false with
  | none => none
  | some (hour, value) =>
  if 24 ≤ hour then none else
  -- ":04": two digits
  match skip value (str ":") with
  | none => none
  | some value =>
  match getnum value true with
  | none => none
  | some (min, value) =>
  if 60 ≤ min then none else
  -- ":05": two digits, and a fractional second although the layout has none
  match skip value (str ":") with
  | none => none
  | some value =>
  match getnum value true with
  | none => none
  | some (sec, value) =>
  if 60 ≤ sec then none else
  match (if decide (value.length ≥ 2) && commaOrPeriod (value.getD 0 0) && isDigit value 1
         then (parseNanoseconds value (fracLen value)).map
                (fun ns => (ns, value.drop (fracLen value)))
         else some (0, value)) with
  | none => none
  | some (nsec, value) =>
  -- "Z07:00": the letter Z or a numeric zone
  match (if value.head? = some 90 then some ((0 : Int), value.drop 1)
         else parseColonTZ value) with
  | none => none
  | some (zoneOffset, value) =>
  -- end of the layout: no text may be left
  if value.length ≠ 0 then none
  else some ⟨year, month, day, hour, min, sec, nsec, zoneOffset⟩

/-- Go `time.Parse(time.RFC3339, value)`. The library first tries the strict
function `parseRFC3339` and falls back on the layout-driven `parse`; `parse`
accepts every input the strict function accepts, with the same result, so the
outcome is that of `parse`. `none` stands for a non-nil error. -/
def timeParseRFC3339 (value : GoString) : Option Time :=
  match parseLayout value with
  | none => none
  | some p =>
    -- Validate the day of the month.
    if p.day < 1 || p.day > daysIn p.month p.year then none
    else
      some ⟨Date p.year p.month p.day p.hour p.min p.sec - p.zoneOffset, p.nsec⟩

/-! ## `regexp`

The fragment of the regular-expression syntax that the package uses: the
beginning-of-text anchor, classes of ASCII characters, concatenation and counted
repetition. In this fragment an expression matches in at most one way at a
position, so the matcher needs no backtracking. -/

/-- A compiled regular expression. -/
inductive Regexp where
  | beginText : Regexp
  | charClass (ranges : List (Nat × Nat)) : Regexp
  | concat (a b : Regexp) : Regexp
  | repeatN (r : Regexp) (n : Nat) : Regexp

/-- Run the one-step matcher `f` exactly `n` times in a row. -/
def iterMatch (f : Nat → Option Nat) : Nat → Nat → Option Nat
  | 0, pos => some pos
  | n + 1, pos =>
    match f pos with
    | none => none
    | some p => iterMatch f n p

/-- Does `c` lie in one of the ranges of a character class? -/
def inClass (ranges : List (Nat × Nat)) (c : Nat) : Bool :=
  ranges.any (fun r => decide (r.1 ≤ c) && decide (c ≤ r.2))

/-- The end of the match of the expression that starts at byte `pos` of `src`. -/
def Regexp.matchAt : Regexp → GoString → Nat → Option Nat
  | .beginText, _, pos => if pos = 0 then some pos else none
  | .charClass ranges, src, pos =>
    if decide (pos < src.length) && inClass ranges (src.getD pos 0) then some (pos + 1)
    else none
  | .concat a b, src, pos =>
    match a.matchAt src pos with
    | none => none
    | some p => b.matchAt src p
  | .repeatN r n, src, pos => iterMatch (r.matchAt src) n pos

/-- The leftmost match at or after `pos`: start and end. -/
def Regexp.findFrom (re : Regexp) (src : GoString) : Nat → Nat → Option (Nat × Nat)
  | 0, _ => none
  | fuel + 1, pos =>
    match re.matchAt src pos with
    | some e => some (pos, e)
    | none => if pos < src.length then re.findFrom src fuel (pos + 1) else none

/-- The loop of method `replaceAll` of `regexp.Regexp`: copy the text before each
match, insert the replacement, continue behind the match (at least one byte
further on). -/
def Regexp.replaceAllLoop (re : Regexp) (src repl : GoString) :
    Nat → Nat → Nat → GoString → GoString
  | 0, _, lastMatchEnd, buf => buf ++ src.drop lastMatchEnd
  | fuel + 1, searchPos, lastMatchEnd, buf =>
    if searchPos > src.length then buf ++ src.drop lastMatchEnd
    else
      match re.findFrom src (src.length + 1 - searchPos) searchPos with
      | none => buf ++ src.drop lastMatchEnd
      | some (a0, a1) =>
        -- Copy the unmatched characters before this match.
        let buf := buf ++ (src.take a0).drop lastMatchEnd
        -- Insert the replacement, but not for an empty match right after a match.
        let buf := if decide (a1 > lastMatchEnd) || decide (a0 = 0) then buf ++ repl else buf
        -- Advance past this match; always advance at least one character.
        let searchPos := if searchPos + 1 > a1 then searchPos + 1 else a1
        re.replaceAllLoop src repl fuel searchPos a1 buf

/-- Go `re.ReplaceAllString(src, repl)` for a replacement without `$`. -/
def Regexp.ReplaceAllString (re : Regexp) (src repl : GoString) : GoString :=
  re.replaceAllLoop src repl (src.length + 2) 0 0 []

/-! ## `pkg/version/version.go` -/

/-- Constant `unknown`: the value of a field that has not been set. -/
def unknown : GoString := str "Unknown"

/-- The package-level variables `AppRawName`, `AppProject`, `AppVersion`,
`GitCommit`, `BuildTime` and `Developer`. -/
structure State where
  AppRawName : GoString
  AppProject : GoString
  AppVersion : GoString
  GitCommit : GoString
  BuildTime : GoString
  Developer : GoString
deriving DecidableEq, Repr

/-- The initial value of the package-level variables when nothing is injected. -/
def State.initial : State := ⟨unknown, unknown, unknown, unknown, unknown, unknown⟩

/-- Function `isKnown`: is the value set (not empty, not blank, not `"Unknown"`)? -/
def isKnown (v : GoString) : Bool :=
  let v := TrimSpace v
  v != [] && v != unknown

/-- Variable `datePrefix`: the regular expression `^[0-9-]{7}`. -/
def datePrefix : Regexp :=
  .concat .beginText (.repeatN (.charClass [(48, 57), (45, 45)]) 7)

/-- A `debug.Module`, as far as the package reads it. -/
structure Module where
  Path : GoString
  Version : GoString
deriving DecidableEq, Repr

/-- A `debug.BuildSetting`. -/
structure BuildSetting where
  Key : GoString
  Value : GoString
deriving DecidableEq, Repr

/-- A `debug.BuildInfo`, as far as the package reads it. -/
structure BuildInfo where
  Main : Module
  Settings : List BuildSetting
deriving DecidableEq, Repr

/-- Function `formatBuildTime`: a VCS time in RFC3339 form converted to UTC+8; the
input itself when it cannot be parsed. -/
def formatBuildTime (vcsTime : GoString) : GoString :=
  match timeParseRFC3339 vcsTime with
  | none => vcsTime
  | some t => formatInCST t

/-- The body of the loop over `info.Settings` in `initFromBuildInfo`: the `switch`
on `setting.Key`. -/
def applySetting (st : State) (setting : BuildSetting) : State :=
  if setting.Key = str "vcs.revision" then
    if !isKnown st.GitCommit && setting.Value != [] then
      if setting.Value.length > 7 then { st with GitCommit := setting.Value.take 7 }
      else { st with GitCommit := setting.Value }
    else st
  else if setting.Key = str "vcs.time" then
    if !isKnown st.BuildTime && setting.Value != [] then
      { st with BuildTime := formatBuildTime setting.Value }
    else st
  else if setting.Key = str "vcs.modified" then
    if setting.Value == str "true" && isKnown st.GitCommit
        && !HasSuffix st.GitCommit (str "-dirty") then
      { st with GitCommit := st.GitCommit ++ str "-dirty" }
    else st
  else st

/-- First block of `initFromBuildInfo`: project name and developer from the module
path. -/
def fromModulePath (info : BuildInfo) (st : State) : State :=
  if info.Main.Path != [] then
    let parts := Split info.Main.Path slash
    let st :=
      if !isKnown st.AppProject then { st with AppProject := Base info.Main.Path }
      else st
    if !isKnown st.Developer && decide (parts.length ≥ 2) then
      { st with Developer := str "http://" ++ parts.getD 0 [] ++ str "/" ++ parts.getD 1 [] }
    else st
  else st

/-- Second block of `initFromBuildInfo`: application version from the module
version. -/
def fromModuleVersion (info : BuildInfo) (st : State) : State :=
  if !isKnown st.AppVersion && info.Main.Version != []
      && info.Main.Version != str "(devel)" then
    { st with AppVersion := info.Main.Version }
  else st

/-- Last block of `initFromBuildInfo`: `AppRawName` from `AppProject`, the date
prefix removed. -/
def fromProject (st : State) : State :=
  if !isKnown st.AppRawName && isKnown st.AppProject then
    { st with AppRawName := datePrefix.ReplaceAllString st.AppProject [] }
  else st

/-- Function `initFromBuildInfo`; the argument `info` is the result of
`debug.ReadBuildInfo()`, `none` when it reports `!ok`. The four blocks of the body
run in the order of the source, the third being the loop over `info.Settings`. -/
def initFromBuildInfo (info : Option BuildInfo) (st : State) : State :=
  match info with
  | none => st
  | some info =>
    fromProject
      (info.Settings.foldl applySetting (fromModuleVersion info (fromModulePath info st)))

/-- Function `PrintBuildInfo`: the text written to standard output; `goVersion` is
the value of `runtime.Version()`. -/
def PrintBuildInfo (goVersion : GoString) (st : State) : GoString :=
  str "AppRawName:   " ++ st.AppRawName ++ str "\n"
    ++ (str "AppVersion:   " ++ st.AppVersion ++ str "\n")
    ++ (str "Go Version:   " ++ goVersion ++ str "\n")
    ++ (str "Git Commit:   " ++ st.GitCommit ++ str "\n")
    ++ (str "Build Time:   " ++ st.BuildTime ++ str "\n")
    ++ (str "AppProject:   " ++ st.AppProject ++ str "\n")
    ++ (str "Developer :   " ++ st.Developer ++ str "\n")

/-- Function `PrintVersionJSON`: the text written to standard output, the format
string with each `%s` replaced by the bytes of the field. -/
def PrintVersionJSON (st : State) : GoString :=
  str "\x7b\n  \"appRawName\": \"" ++ st.AppRawName
    ++ str "\",\n  \"appProject\": \"" ++ st.AppProject
    ++ str "\",\n  \"appVersion\": \"" ++ st.AppVersion
    ++ str "\",\n  \"gitCommit\": \"" ++ st.GitCommit
    ++ str "\",\n  \"buildTime\": \"" ++ st.BuildTime
    ++ str "\",\n  \"developer\": \"" ++ st.Developer
    ++ str "\"\n\x7d\n"

/-- Function `GetVersion`: `AppVersion` if known, else `dev-<GitCommit>` if the
commit is known, else `"Unknown"`. -/
def GetVersion (st : State) : GoString :=
  if isKnown st.AppVersion then st.AppVersion
  else if isKnown st.GitCommit then str "dev-" ++ st.GitCommit
  else unknown

/-- Function `GetBuildInfo`. -/
def GetBuildInfo (st : State) : GoString :=
  str "版本: " ++ st.AppVersion ++ str ", 提交: " ++ st.GitCommit
    ++ str ", 构建时间: " ++ st.BuildTime

/-! ## `pkg/version/command.go` -/

/-- A Go `error` value. -/
abbrev GoError := GoString

/-- Function `action`: the text written to standard output and the returned error.
`c` stands for `c.Bool`, the value of a boolean flag of the command line. -/
def action (c : GoString → Bool) (goVersion : GoString) (st : State) :
    GoString × Option GoError :=
  let out :=
    if c (str "json") then PrintVersionJSON st
    else if c (str "short") then GetVersion st ++ str "\n"
    else PrintBuildInfo goVersion st
  (out, none)

/-! ## `encoding/json`, as the test `TestPrintVersionJSON` uses it

`json.Unmarshal(output, &result)` with `result` a `map[string]string`: the input
has to be one JSON object all of whose values are strings or `null` (or the
literal `null` itself). -/

/-- JSON white space removed from the front. -/
def jsonSkipWS (s : GoString) : GoString :=
  s.dropWhile (fun c => c == 32 || c == 9 || c == 13 || c == 10)

/-- The value of a hexadecimal digit. -/
def hexVal (c : Nat) : Option Nat :=
  if 48 ≤ c ∧ c ≤ 57 then some (c - 48)
  else if 97 ≤ c ∧ c ≤ 102 then some (c - 87)
  else if 65 ≤ c ∧ c ≤ 70 then some (c - 55)
  else none

/-- Function `getu4`: the code unit written by four hexadecimal digits after
`\u`. -/
def getu4 (s : GoString) : Option Nat :=
  match s with
  | 92 :: 117 :: a :: b :: c :: d :: _ =>
    match hexVal a, hexVal b, hexVal c, hexVal d with
    | some a, some b, some c, some d => some (((a * 16 + b) * 16 + c) * 16 + d)
    | _, _, _, _ => none
  | _ => none

/-- Is `b` a UTF-8 continuation byte within the bounds `lo` and `hi`? -/
def inRange (lo hi b : Nat) : Bool := decide (lo ≤ b) && decide (b ≤ hi)

/-- The size that `utf8.DecodeRune` reports for the bytes at the start of `s` when
they are a well-formed encoding of more than one byte (tables `first` and
`acceptRanges` of package `utf8`); `none` when it reports `RuneError` with size 1. -/
def decodeRuneSize (s : GoString) : Option Nat :=
  match s with
  | s0 :: s1 :: rest =>
    if inRange 0xC2 0xDF s0 then
      if inRange 0x80 0xBF s1 then some 2 else none
    else if inRange 0xE0 0xEF s0 then
      let lo := if s0 = 0xE0 then 0xA0 else 0x80
      let hi := if s0 = 0xED then 0x9F else 0xBF
      match rest with
      | s2 :: _ => if inRange lo hi s1 && inRange 0x80 0xBF s2 then some 3 else none
      | [] => none
    else if inRange 0xF0 0xF4 s0 then
      let lo := if s0 = 0xF0 then 0x90 else 0x80
      let hi := if s0 = 0xF4 then 0x8F else 0xBF
      match rest with
      | s2 :: s3 :: _ =>
        if inRange lo hi s1 && inRange 0x80 0xBF s2 && inRange 0x80 0xBF s3 then some 4
        else none
      | _ => none
    else none
  | _ => none

/-- The bytes of a JSON string literal, read from behind its opening quote up to
the closing quote, escapes decoded; returns them with the rest of the input.
Control characters and unknown escapes are errors. A well-formed UTF-8 sequence is
copied; a byte from `0x80` on that starts none is replaced by U+FFFD. -/
def jsonStringLoop : Nat → GoString → GoString → Option (GoString × GoString)
  | 0, _, _ => none
  | fuel + 1, s, acc =>
    match s with
    | [] => none
    | c :: rest =>
      if c = 34 then some (acc, rest)
      else if c = 92 then
        match rest with
        | [] => none
        | e :: rest2 =>
          if e = 34 ∨ e = 92 ∨ e = 47 then jsonStringLoop fuel rest2 (acc ++ [e])
          else if e = 98 then jsonStringLoop fuel rest2 (acc ++ [8])
          else if e = 102 then jsonStringLoop fuel rest2 (acc ++ [12])
          else if e = 110 then jsonStringLoop fuel rest2 (acc ++ [10])
          else if e = 114 then jsonStringLoop fuel rest2 (acc ++ [13])
          else if e = 116 then jsonStringLoop fuel rest2 (acc ++ [9])
          else if e = 117 then
            match getu4 s with
            | none => none
            | some rr =>
              if 0xD800 ≤ rr ∧ rr < 0xE000 then
                match getu4 (s.drop 6) with
                | some rr1 =>
                  if rr < 0xDC00 ∧ 0xDC00 ≤ rr1 ∧ rr1 < 0xE000 then
                    -- A valid surrogate pair; consume both.
                    jsonStringLoop fuel (s.drop 12)
                      (acc ++ encodeRune ((rr - 0xD800) * 1024 + (rr1 - 0xDC00) + 0x10000))
                  else jsonStringLoop fuel (s.drop 6) (acc ++ encodeRune 0xFFFD)
                | none => jsonStringLoop fuel (s.drop 6) (acc ++ encodeRune 0xFFFD)
              else jsonStringLoop fuel (s.drop 6) (acc ++ encodeRune rr)
          else none
      else if c < 32 then none
      else if c < 0x80 then jsonStringLoop fuel rest (acc ++ [c])
      else
        -- Coerce to well-formed UTF-8.
        match decodeRuneSize s with
        | some size => jsonStringLoop fuel (s.drop size) (acc ++ s.take size)
        | none => jsonStringLoop fuel rest (acc ++ encodeRune 0xFFFD)

/-- A member value that can be stored in a `map[string]string`: a string literal,
or `null`, which leaves the empty string; returns the value with the rest of the
input. Any other value makes `json.Unmarshal` return an error. -/
def jsonValue (s : GoString) : Option (GoString × GoString) :=
  match s with
  | 34 :: rest => jsonStringLoop rest.length rest []
  | 110 :: 117 :: 108 :: 108 :: rest => some ([], rest)
  | _ => none

/-- The members of a JSON object, read from in front of a key up to the end of the
input. -/
def jsonMembers : Nat → GoString → List (GoString × GoString) →
    Option (List (GoString × GoString))
  | 0, _, _ => none
  | fuel + 1, s, acc =>
    match s with
    | 34 :: rest =>
      match jsonStringLoop rest.length rest [] with
      | none => none
      | some (key, rest) =>
        match jsonSkipWS rest with
        | 58 :: rest =>
          match jsonValue (jsonSkipWS rest) with
          | none => none
          | some (val, rest) =>
            match jsonSkipWS rest with
            | 44 :: rest => jsonMembers fuel (jsonSkipWS rest) (acc ++ [(key, val)])
            | 125 :: rest =>
              if jsonSkipWS rest = [] then some (acc ++ [(key, val)]) else none
            | _ => none
        | _ => none
    | _ => none

/-- The members of the JSON object that `s` is, in the order of the text; `none`
when `json.Unmarshal` into a `map[string]string` returns an error. The literal
`null` leaves the map without entries. -/
def jsonUnmarshal (s : GoString) : Option (List (GoString × GoString)) :=
  match jsonSkipWS s with
  | 123 :: rest =>
    match jsonSkipWS rest with
    | 125 :: rest => if jsonSkipWS rest = [] then some [] else none
    | rest => jsonMembers s.length rest []
  | 110 :: 117 :: 108 :: 108 :: rest => if jsonSkipWS rest = [] then some [] else none
  | _ => none

/-- The map entry `result[key]` after unmarshalling: the last member with that key,
the empty string when there is none. -/
def jsonLookup (members : List (GoString × GoString)) (key : GoString) : GoString :=
  match members.reverse.find? (fun m => m.1 == key) with
  | some m => m.2
  | none => []

/-! ## Notions used to state the properties -/

/-- The string `"-dirty"`. -/
def dirty : GoString := str "-dirty"

/-- Is the setting `vcs.modified` with the value `"true"`? -/
def isModifiedTrue (s : BuildSetting) : Bool :=
  s.Key == str "vcs.modified" && s.Value == str "true"

/-- Does the build info hold a setting `vcs.modified` with the value `"true"`? -/
def hasModifiedTrue (info : Option BuildInfo) : Bool :=
  match info with
  | none => false
  | some info => info.Settings.any isModifiedTrue

/-- A byte that occurs in no encoding of a white-space rune. -/
def notSpaceByte (b : Nat) : Bool := spaceEncodings.all (fun e => !e.contains b)

/-- Month and day of the day `yday` (counted from 0) of a year: the last part of
`absDate`. -/
def monthDay (leap : Bool) (yday : Nat) : Nat × Nat :=
  if leap && decide (yday = 31 + 29 - 1) then (2, 29)
  else
    let day := if leap && decide (yday > 31 + 29 - 1) then yday - 1 else yday
    let month := day / 31
    let end_ := daysBefore.getD (month + 1) 0
    if day ≥ end_ then (month + 2, day - end_ + 1)
    else (month + 1, day - daysBefore.getD month 0 + 1)

/-- The fields of a date and time of day that exist in the calendar. -/
def validCivil (year : Int) (month day hour min sec : Nat) : Prop :=
  1 ≤ month ∧ month ≤ 12 ∧ 1 ≤ day ∧ day ≤ daysIn month year
    ∧ hour < 24 ∧ min < 60 ∧ sec < 60

/-- A number below 100 written with exactly two decimal digits. -/
def twoDigits (n : Nat) : GoString := [48 + n / 10, 48 + n % 10]

/-- The state of the test `TestPrintVersionJSON`. -/
def testState : State :=
  ⟨str "myapp", str "251207-myapp", str "v1.0.0", str "abc1234",
   str "2024-12-07 18:30:00 CST", str "http://github.com/testuser"⟩

/-- A build info as the Go tool chain records it for a module built from a modified
work tree. -/
def sampleInfo : BuildInfo :=
  ⟨⟨str "github.com/lwmacct/251207-go-pkg-version", str "(devel)"⟩,
   [⟨str "vcs", str "git"⟩,
    ⟨str "vcs.revision", str "0123456789abcdef0123456789abcdef01234567"⟩,
    ⟨str "vcs.time", str "2024-12-07T10:30:00Z"⟩,
    ⟨str "vcs.modified", str "true"⟩]⟩

/-- A decimal digit or a hyphen: the class `[0-9-]`. -/
def isDateByte (c : Nat) : Bool := (decide (48 ≤ c) && decide (c ≤ 57)) || c == 45

/-- Has `s` at least 7 bytes, the first 7 of them digits or hyphens? -/
def hasDatePrefix (s : GoString) : Bool :=
  decide (7 ≤ s.length) && (s.take 7).all isDateByte

/-- A number below 10000 written with exactly four decimal digits. -/
def fourDigits (n : Nat) : GoString :=
  [48 + n / 1000, 48 + n / 100 % 10, 48 + n / 10 % 10, 48 + n % 10]

/-- The year that `absDate` computes, counted from the absolute epoch, and the day
within the year. -/
def absYearDay (abs : Nat) : Nat × Nat :=
  let d := abs / secondsPerDay
  let n := d / 146097
  let y := 400 * n
  let d := d - 146097 * n
  let n := d / 36524
  let n := n - n / 4
  let y := y + 100 * n
  let d := d - 36524 * n
  let n := d / 1461
  let y := y + 4 * n
  let d := d - 1461 * n
  let n := d / 365
  let n := n - n / 4
  let y := y + n
  let d := d - 365 * n
  (y, d)

/-- Is the key of the setting `vcs.revision`? -/
def isRevisionKey (s : BuildSetting) : Bool := s.Key == str "vcs.revision"

/-- Is the key of the setting `vcs.time`? -/
def isTimeKey (s : BuildSetting) : Bool := s.Key == str "vcs.time"

/-- Is the key of the setting `vcs.modified`? -/
def isModifiedKey (s : BuildSetting) : Bool := s.Key == str "vcs.modified"

/-- Is the key one of the two that the loop uses for `GitCommit`? -/
def isCommitKey (s : BuildSetting) : Bool := isRevisionKey s || isModifiedKey s

/-- Is the key one of the three that the loop of `initFromBuildInfo` knows? -/
def isRecognized (s : BuildSetting) : Bool :=
  isRevisionKey s || isTimeKey s || isModifiedKey s

/-- The short form of a revision: its first 7 bytes, or all of it when it has no
more than 7. -/
def truncRevision (v : GoString) : GoString := if v.length > 7 then v.take 7 else v

/-- What one round of the loop does to `GitCommit`. -/
def stepCommit (c : GoString) (s : BuildSetting) : GoString :=
  if s.Key = str "vcs.revision" then
    if !isKnown c && s.Value != [] then truncRevision s.Value else c
  else if s.Key = str "vcs.modified" then
    if s.Value == str "true" && isKnown c && !HasSuffix c dirty then c ++ dirty else c
  else c

/-- What one round of the loop does to `BuildTime`. -/
def stepBuildTime (bt : GoString) (s : BuildSetting) : GoString :=
  if s.Key = str "vcs.time" then
    if !isKnown bt && s.Value != [] then formatBuildTime s.Value else bt
  else bt

/-- What the first block of `initFromBuildInfo` does to `AppProject`. -/
def resolveProject (info : BuildInfo) (x : GoString) : GoString :=
  if info.Main.Path != [] && !isKnown x then Base info.Main.Path else x

/-- What the first block of `initFromBuildInfo` does to `Developer`. -/
def resolveDeveloper (info : BuildInfo) (x : GoString) : GoString :=
  if info.Main.Path != [] && !isKnown x && decide ((Split info.Main.Path slash).length ≥ 2) then
    str "http://" ++ (Split info.Main.Path slash).getD 0 [] ++ str "/"
      ++ (Split info.Main.Path slash).getD 1 []
  else x

/-- What the second block of `initFromBuildInfo` does to `AppVersion`. -/
def resolveVersion (info : BuildInfo) (x : GoString) : GoString :=
  if !isKnown x && info.Main.Version != [] && info.Main.Version != str "(devel)" then
    info.Main.Version
  else x

/-- What the last block of `initFromBuildInfo` does to `AppRawName`, given the
resolved project. -/
def resolveRawName (project x : GoString) : GoString :=
  if !isKnown x && isKnown project then datePrefix.ReplaceAllString project [] else x

/-- A value that is known or is exactly the sentinel `"Unknown"`. -/
def wellFormed (v : GoString) : Prop := isKnown v = true ∨ v = unknown

/-- A state in which nothing is set. -/
def unknownState : State := State.initial

/-- The settings of a modified work tree in the order of the tool chain: revision
before modified. -/
def revisionFirst : List BuildSetting :=
  [⟨str "vcs.revision", str "0123456789abcdef"⟩, ⟨str "vcs.modified", str "true"⟩]

/-- The same settings with modified before revision. -/
def modifiedFirst : List BuildSetting :=
  [⟨str "vcs.modified", str "true"⟩, ⟨str "vcs.revision", str "0123456789abcdef"⟩]

/-- The zone of a timestamp: `Z`, or a sign with the hours and minutes of the
offset from UTC. -/
inductive Zone where
  | utc
  | offset (negative : Bool) (hours minutes : Nat)
deriving DecidableEq, Repr

/-- The text of a zone: `Z`, `+hh:mm` or `-hh:mm`. -/
def Zone.text : Zone → GoString
  | .utc => str "Z"
  | .offset negative hours minutes =>
    (if negative then str "-" else str "+") ++ twoDigits hours ++ str ":" ++ twoDigits minutes

/-- The seconds by which the local time of a zone is ahead of UTC. -/
def Zone.seconds : Zone → Int
  | .utc => 0
  | .offset negative hours minutes =>
    if negative then -(((hours * 60 + minutes) * 60 : Nat) : Int)
    else (((hours * 60 + minutes) * 60 : Nat) : Int)

/-- The zones that `time.Parse` reads: RFC 3339 has hours up to 23 and minutes up to
59, the library also takes the hour 24 and the minute 60. -/
def Zone.valid : Zone → Prop
  | .utc => True
  | .offset _ hours minutes => hours ≤ 24 ∧ minutes ≤ 60

/-- A decimal digit. -/
def isDigitByte (c : Nat) : Bool := decide (48 ≤ c) && decide (c ≤ 57)

/-- The bytes of a fractional second: none at all, or a period (the library also
takes a comma) and at least one digit. -/
def isFraction (frac : GoString) : Bool :=
  match frac with
  | [] => true
  | c :: ds => commaOrPeriod c && !ds.isEmpty && ds.all isDigitByte

/-- A timestamp of RFC 3339, with the variations that `time.Parse` reads for the
layout `time.RFC3339`: the civil fields of the local time, whether the hour is
written with one digit only, the bytes of the fractional second and the zone. -/
structure Stamp where
  year : Nat
  month : Nat
  day : Nat
  hour : Nat
  shortHour : Bool
  min : Nat
  sec : Nat
  frac : GoString
  zone : Zone
deriving DecidableEq, Repr

/-- The text of a timestamp: `yyyy-mm-ddThh:mm:ss`, the fractional second and the
zone. -/
def Stamp.text (st : Stamp) : GoString :=
  fourDigits st.year ++ str "-" ++ twoDigits st.month ++ str "-" ++ twoDigits st.day
    ++ str "T" ++ (if st.shortHour then [48 + st.hour] else twoDigits st.hour)
    ++ str ":" ++ twoDigits st.min ++ str ":" ++ twoDigits st.sec
    ++ st.frac ++ st.zone.text

/-- The timestamps that exist: a year of four digits, a date of the calendar, a time
of day, a one-digit hour only when it is below 10, and a fraction and a zone as
described. -/
def Stamp.valid (st : Stamp) : Prop :=
  st.year ≤ 9999 ∧ validCivil st.year st.month st.day st.hour st.min st.sec
    ∧ (st.shortHour = true → st.hour < 10) ∧ isFraction st.frac = true ∧ st.zone.valid

/-- The instant that a timestamp denotes, in Unix seconds: its local time read as
UTC, less the offset of its zone. -/
def Stamp.unixSec (st : Stamp) : Int :=
  Date st.year st.month st.day st.hour st.min st.sec - st.zone.seconds

/-- The timestamp `2024-12-07T10:30:00Z` of `TestFormatBuildTime`. -/
def stampZ : Stamp := ⟨2024, 12, 7, 10, false, 30, 0, [], .utc⟩

/-- The timestamp `2024-01-15T08:00:00+00:00` of `TestFormatBuildTime`. -/
def stampOffset : Stamp := ⟨2024, 1, 15, 8, false, 0, 0, [], .offset false 0 0⟩

/-! ## Lemmas on strings -/

theorem HasSuffix_append_self (c suf : GoString) : HasSuffix (c ++ suf) suf = true := by
  simp [HasSuffix]

theorem HasSuffix_append_left (p s suf : GoString) (h : HasSuffix s suf = true) :
    HasSuffix (p ++ s) suf = true := by
  simp only [HasSuffix, Bool.and_eq_true, decide_eq_true_eq, beq_iff_eq] at h ⊢
  obtain ⟨h1, h2⟩ := h
  refine ⟨by simp; omega, ?_⟩
  have e : (p ++ s).length - suf.length = p.length + (s.length - suf.length) := by
    simp; omega
  rw [e, List.drop_append, h2]

theorem spaceEncodings_ne_nil : ∀ e ∈ spaceEncodings, e ≠ [] := by decide

theorem not_mem_of_notSpaceByte {b : Nat} (hb : notSpaceByte b = true) {e : GoString}
    (hmem : e ∈ spaceEncodings) : b ∉ e := by
  have := (List.all_eq_true.mp hb) e hmem
  simpa using this

theorem trimLeftLoop_getLast (b : Nat) (hb : notSpaceByte b = true) :
    ∀ (n : Nat) (s : GoString), s.getLast? = some b → (trimLeftLoop n s).getLast? = some b := by
  intro n
  induction n with
  | zero => intro s h; simpa [trimLeftLoop] using h
  | succ n ih =>
    intro s h
    unfold trimLeftLoop
    cases hls : leadingSpace s with
    | none => simpa using h
    | some e =>
      simp only
      apply ih
      have hmem : e ∈ spaceEncodings := List.mem_of_find?_eq_some hls
      have hpre : e.isPrefixOf s = true := by
        have := List.find?_some hls
        simpa using this
      rw [List.isPrefixOf_iff_prefix] at hpre
      obtain ⟨t, rfl⟩ := hpre
      rw [List.drop_left]
      cases t with
      | nil =>
        exfalso
        rw [List.append_nil] at h
        exact not_mem_of_notSpaceByte hb hmem (List.mem_of_getLast?_eq_some h)
      | cons a t =>
        rw [List.getLast?_append_of_ne_nil _ (by simp)] at h
        exact h

theorem trailingSpace_none (b : Nat) (hb : notSpaceByte b = true) (s : GoString)
    (h : s.getLast? = some b) : trailingSpace s = none := by
  unfold trailingSpace
  rw [List.find?_eq_none]
  intro e hmem hsuf
  have hsuf : e.isSuffixOf s = true := by simpa using hsuf
  rw [List.isSuffixOf_iff_suffix] at hsuf
  obtain ⟨t, rfl⟩ := hsuf
  rw [List.getLast?_append_of_ne_nil _ (spaceEncodings_ne_nil e hmem)] at h
  exact not_mem_of_notSpaceByte hb hmem (List.mem_of_getLast?_eq_some h)

/-- Trimming keeps the last byte of a string when that byte belongs to no white
space. -/
theorem TrimSpace_getLast (b : Nat) (hb : notSpaceByte b = true) (s : GoString)
    (h : s.getLast? = some b) : (TrimSpace s).getLast? = some b := by
  have h1 : (TrimLeftSpace s).getLast? = some b := trimLeftLoop_getLast b hb _ _ h
  unfold TrimSpace TrimRightSpace
  generalize TrimLeftSpace s = u at h1
  cases hn : u.length with
  | zero => simpa [trimRightLoop] using h1
  | succ n =>
    unfold trimRightLoop
    rw [trailingSpace_none b hb u h1]
    exact h1

/-- A commit with the suffix `-dirty` is a known value, whatever stands in front. -/
theorem isKnown_append_dirty (c : GoString) : isKnown (c ++ dirty) = true := by
  have h : (c ++ dirty).getLast? = some 121 := by
    rw [List.getLast?_append_of_ne_nil _ (by decide)]
    decide
  have h2 := TrimSpace_getLast 121 (by decide) _ h
  unfold isKnown
  generalize TrimSpace (c ++ dirty) = u at h2
  simp only [Bool.and_eq_true, bne_iff_ne, ne_eq]
  constructor
  · rintro rfl; simp at h2
  · rintro rfl; revert h2; decide

/-! ## The loop over the settings -/

theorem applySetting_frame (st : State) (s : BuildSetting) :
    (applySetting st s).AppRawName = st.AppRawName
      ∧ (applySetting st s).AppProject = st.AppProject
      ∧ (applySetting st s).AppVersion = st.AppVersion
      ∧ (applySetting st s).Developer = st.Developer := by
  unfold applySetting
  split_ifs <;> simp

theorem foldl_applySetting_frame (l : List BuildSetting) :
    ∀ st : State, (l.foldl applySetting st).AppRawName = st.AppRawName
      ∧ (l.foldl applySetting st).AppProject = st.AppProject
      ∧ (l.foldl applySetting st).AppVersion = st.AppVersion
      ∧ (l.foldl applySetting st).Developer = st.Developer := by
  induction l with
  | nil => intro st; simp
  | cons s l ih =>
    intro st
    obtain ⟨h1, h2, h3, h4⟩ := ih (applySetting st s)
    obtain ⟨g1, g2, g3, g4⟩ := applySetting_frame st s
    simp only [List.foldl_cons]
    exact ⟨h1.trans g1, h2.trans g2, h3.trans g3, h4.trans g4⟩

theorem applySetting_BuildTime_known (st : State) (s : BuildSetting)
    (h : isKnown st.BuildTime = true) : (applySetting st s).BuildTime = st.BuildTime := by
  unfold applySetting
  split_ifs <;> simp_all

theorem foldl_applySetting_BuildTime_known (l : List BuildSetting) :
    ∀ st : State, isKnown st.BuildTime = true →
      (l.foldl applySetting st).BuildTime = st.BuildTime := by
  induction l with
  | nil => intro st _; rfl
  | cons s l ih =>
    intro st h
    have e := applySetting_BuildTime_known st s h
    simp only [List.foldl_cons]
    rw [ih (applySetting st s) (by rw [e]; exact h), e]

theorem applySetting_GitCommit_known (st : State) (s : BuildSetting)
    (h : isKnown st.GitCommit = true) :
    (applySetting st s).GitCommit =
      if isModifiedTrue s && !HasSuffix st.GitCommit dirty then st.GitCommit ++ dirty
      else st.GitCommit := by
  have n1 : ¬ str "vcs.revision" = str "vcs.modified" := by decide
  have n2 : ¬ str "vcs.time" = str "vcs.modified" := by decide
  have n3 : ¬ str "vcs.time" = str "vcs.revision" := by decide
  have n4 : ¬ str "vcs.modified" = str "vcs.revision" := by decide
  have n5 : ¬ str "vcs.modified" = str "vcs.time" := by decide
  unfold applySetting isModifiedTrue
  by_cases k1 : s.Key = str "vcs.revision"
  · simp [k1, h, n1]
  · by_cases k2 : s.Key = str "vcs.time"
    · have b2 : (str "vcs.time" == str "vcs.modified") = false := by decide
      simp only [k2, n2, n3, b2, if_true, if_false, Bool.false_and]
      split_ifs <;> simp_all
    · by_cases k3 : s.Key = str "vcs.modified"
      · simp only [k3, n4, n5, if_true, if_false, h, dirty, beq_self_eq_true, Bool.true_and,
          Bool.and_true]
        split_ifs <;> simp
      · simp [k1, k2, k3]

/-- The commit after the loop over the settings, when it was known before. -/
theorem foldl_applySetting_GitCommit_known (l : List BuildSetting) :
    ∀ st : State, isKnown st.GitCommit = true →
      (l.foldl applySetting st).GitCommit =
        if l.any isModifiedTrue && !HasSuffix st.GitCommit dirty then st.GitCommit ++ dirty
        else st.GitCommit := by
  induction l with
  | nil => intro st _; simp
  | cons s l ih =>
    intro st h
    have e := applySetting_GitCommit_known st s h
    simp only [List.foldl_cons, List.any_cons]
    by_cases c : (isModifiedTrue s && !HasSuffix st.GitCommit dirty) = true
    · rw [if_pos c] at e
      have hk : isKnown (applySetting st s).GitCommit = true := by
        rw [e]; exact isKnown_append_dirty _
      rw [ih _ hk, e]
      simp only [Bool.and_eq_true, Bool.not_eq_true'] at c
      simp [HasSuffix_append_self, c.1, c.2]
    · rw [if_neg c] at e
      have hk : isKnown (applySetting st s).GitCommit = true := by rw [e]; exact h
      rw [ih _ hk, e]
      simp only [Bool.and_eq_true, Bool.not_eq_true', not_and, Bool.not_eq_false] at c
      by_cases m : isModifiedTrue s = true
      · simp [m, c m]
      · simp [m]

/-! ## The blocks of `initFromBuildInfo` -/

theorem fromModulePath_frame (info : BuildInfo) (st : State) :
    (fromModulePath info st).AppRawName = st.AppRawName
      ∧ (fromModulePath info st).AppVersion = st.AppVersion
      ∧ (fromModulePath info st).GitCommit = st.GitCommit
      ∧ (fromModulePath info st).BuildTime = st.BuildTime := by
  unfold fromModulePath
  dsimp only
  split_ifs <;> simp

theorem fromModulePath_AppProject_known (info : BuildInfo) (st : State)
    (h : isKnown st.AppProject = true) :
    (fromModulePath info st).AppProject = st.AppProject := by
  unfold fromModulePath
  dsimp only
  split_ifs <;> simp_all

theorem fromModulePath_Developer_known (info : BuildInfo) (st : State)
    (h : isKnown st.Developer = true) :
    (fromModulePath info st).Developer = st.Developer := by
  unfold fromModulePath
  dsimp only
  split_ifs <;> simp_all

theorem fromModuleVersion_frame (info : BuildInfo) (st : State) :
    (fromModuleVersion info st).AppRawName = st.AppRawName
      ∧ (fromModuleVersion info st).AppProject = st.AppProject
      ∧ (fromModuleVersion info st).GitCommit = st.GitCommit
      ∧ (fromModuleVersion info st).BuildTime = st.BuildTime
      ∧ (fromModuleVersion info st).Developer = st.Developer := by
  unfold fromModuleVersion
  split_ifs <;> simp

theorem fromModuleVersion_AppVersion_known (info : BuildInfo) (st : State)
    (h : isKnown st.AppVersion = true) :
    (fromModuleVersion info st).AppVersion = st.AppVersion := by
  unfold fromModuleVersion
  split_ifs <;> simp_all

theorem fromProject_frame (st : State) :
    (fromProject st).AppProject = st.AppProject
      ∧ (fromProject st).AppVersion = st.AppVersion
      ∧ (fromProject st).GitCommit = st.GitCommit
      ∧ (fromProject st).BuildTime = st.BuildTime
      ∧ (fromProject st).Developer = st.Developer := by
  unfold fromProject
  split_ifs <;> simp

theorem fromProject_AppRawName_known (st : State) (h : isKnown st.AppRawName = true) :
    (fromProject st).AppRawName = st.AppRawName := by
  unfold fromProject
  split_ifs <;> simp_all

/-! ## C1 -/

/-- C1, as the code has it: a run of `initFromBuildInfo` leaves `AppRawName`,
`AppProject`, `AppVersion`, `BuildTime` and `Developer` as they are when they are
known; a known `GitCommit` is left as it is too, except that `-dirty` is appended
to it when the settings hold `vcs.modified` with the value `"true"` and the commit
does not end in `-dirty` yet. -/
theorem initFromBuildInfo_known_fields (info : Option BuildInfo) (st : State) :
    (isKnown st.AppRawName = true → (initFromBuildInfo info st).AppRawName = st.AppRawName)
      ∧ (isKnown st.AppProject = true →
          (initFromBuildInfo info st).AppProject = st.AppProject)
      ∧ (isKnown st.AppVersion = true →
          (initFromBuildInfo info st).AppVersion = st.AppVersion)
      ∧ (isKnown st.BuildTime = true → (initFromBuildInfo info st).BuildTime = st.BuildTime)
      ∧ (isKnown st.Developer = true → (initFromBuildInfo info st).Developer = st.Developer)
      ∧ (isKnown st.GitCommit = true →
          (initFromBuildInfo info st).GitCommit =
            if hasModifiedTrue info && !HasSuffix st.GitCommit dirty then st.GitCommit ++ dirty
            else st.GitCommit) := by
  cases info with
  | none => simp [initFromBuildInfo, hasModifiedTrue]
  | some info =>
    simp only [initFromBuildInfo, hasModifiedTrue]
    obtain ⟨p1, p2, p3, p4⟩ := fromModulePath_frame info st
    obtain ⟨v1, v2, v3, v4, v5⟩ := fromModuleVersion_frame info (fromModulePath info st)
    obtain ⟨s1, s2, s3, s4⟩ :=
      foldl_applySetting_frame info.Settings (fromModuleVersion info (fromModulePath info st))
    obtain ⟨r2, r3, r4, r5, r6⟩ :=
      fromProject_frame
        (info.Settings.foldl applySetting (fromModuleVersion info (fromModulePath info st)))
    refine ⟨?_, ?_, ?_, ?_, ?_, ?_⟩
    · intro h
      rw [fromProject_AppRawName_known _ (by rw [s1, v1, p1]; exact h), s1, v1, p1]
    · intro h
      rw [r2, s2, v2, fromModulePath_AppProject_known info st h]
    · intro h
      rw [r3, s3, fromModuleVersion_AppVersion_known _ _ (by rw [p2]; exact h), p2]
    · intro h
      rw [r5, foldl_applySetting_BuildTime_known _ _ (by rw [v4, p4]; exact h), v4, p4]
    · intro h
      rw [r6, s4, v5, fromModulePath_Developer_known info st h]
    · intro h
      rw [r4, foldl_applySetting_GitCommit_known _ _ (by rw [v3, p3]; exact h), v3, p3]

/-- C1, witness: all six fields known, a build info with `vcs.modified=true`. -/
theorem initFromBuildInfo_known_fields_witness :
    (initFromBuildInfo (some sampleInfo) testState).AppRawName = testState.AppRawName
      ∧ (initFromBuildInfo (some sampleInfo) testState).AppProject = testState.AppProject
      ∧ (initFromBuildInfo (some sampleInfo) testState).AppVersion = testState.AppVersion
      ∧ (initFromBuildInfo (some sampleInfo) testState).BuildTime = testState.BuildTime
      ∧ (initFromBuildInfo (some sampleInfo) testState).Developer = testState.Developer
      ∧ (initFromBuildInfo (some sampleInfo) testState).GitCommit = str "abc1234-dirty" := by
  have h := initFromBuildInfo_known_fields (some sampleInfo) testState
  refine ⟨h.1 (by decide), h.2.1 (by decide), h.2.2.1 (by decide), h.2.2.2.1 (by decide),
    h.2.2.2.2.1 (by decide), ?_⟩
  rw [h.2.2.2.2.2 (by decide)]
  decide

/-- C1, counterexample: `GitCommit` is known (`"abc1234"`) before the run and has
another value (`"abc1234-dirty"`) after it. -/
theorem initFromBuildInfo_changes_known_commit :
    isKnown testState.GitCommit = true
      ∧ (initFromBuildInfo (some sampleInfo) testState).GitCommit = str "abc1234-dirty"
      ∧ (initFromBuildInfo (some sampleInfo) testState).GitCommit ≠ testState.GitCommit := by
  decide

/-! ## C2, C3, C4: `GetVersion` -/

/-- C2: when `AppVersion` is known, `GetVersion` returns `AppVersion` itself,
whatever `GitCommit` is. -/
theorem GetVersion_of_known_version (st : State) (h : isKnown st.AppVersion = true) :
    GetVersion st = st.AppVersion := by
  simp [GetVersion, h]

/-- C2, witness: version `" v1.2.3 "` (returned with its blanks) and an unknown
commit. -/
theorem GetVersion_of_known_version_witness :
    GetVersion ⟨unknown, unknown, str " v1.2.3 ", unknown, unknown, unknown⟩
      = str " v1.2.3 " :=
  GetVersion_of_known_version ⟨unknown, unknown, str " v1.2.3 ", unknown, unknown, unknown⟩
    (by decide)

/-- C3: when `AppVersion` is unknown and `GitCommit` is known, `GetVersion` returns
`"dev-"` followed by `GitCommit`; a commit that ends in `-dirty` gives a result that
ends in `-dirty`. -/
theorem GetVersion_of_known_commit (st : State) (hv : isKnown st.AppVersion = false)
    (hc : isKnown st.GitCommit = true) :
    GetVersion st = str "dev-" ++ st.GitCommit
      ∧ (HasSuffix st.GitCommit (str "-dirty") = true →
          HasSuffix (GetVersion st) (str "-dirty") = true) := by
  have e : GetVersion st = str "dev-" ++ st.GitCommit := by simp [GetVersion, hv, hc]
  refine ⟨e, fun hs => ?_⟩
  rw [e]
  exact HasSuffix_append_left _ _ _ hs

/-- C3, witness: the commit `"abc1234-dirty"` gives `"dev-abc1234-dirty"`. -/
theorem GetVersion_of_known_commit_witness :
    GetVersion ⟨unknown, unknown, unknown, str "abc1234-dirty", unknown, unknown⟩
        = str "dev-abc1234-dirty"
      ∧ HasSuffix (GetVersion ⟨unknown, unknown, unknown, str "abc1234-dirty", unknown, unknown⟩)
          (str "-dirty") = true := by
  have h := GetVersion_of_known_commit
    ⟨unknown, unknown, unknown, str "abc1234-dirty", unknown, unknown⟩ (by decide) (by decide)
  exact ⟨h.1.trans (by decide), h.2 (by decide)⟩

/-- C4: when `AppVersion` and `GitCommit` are both unknown (trimmed of white space
they are empty or `"Unknown"`), `GetVersion` returns `"Unknown"`. -/
theorem GetVersion_of_unknown (st : State)
    (hv : TrimSpace st.AppVersion = [] ∨ TrimSpace st.AppVersion = str "Unknown")
    (hc : TrimSpace st.GitCommit = [] ∨ TrimSpace st.GitCommit = str "Unknown") :
    GetVersion st = str "Unknown" := by
  have kv : isKnown st.AppVersion = false := by
    unfold isKnown
    rcases hv with h | h <;> simp [h, unknown]
  have kc : isKnown st.GitCommit = false := by
    unfold isKnown
    rcases hc with h | h <;> simp [h, unknown]
  simp [GetVersion, kv, kc, unknown]

/-- C4, witness: a blank version and the commit `" Unknown\n"`. -/
theorem GetVersion_of_unknown_witness :
    GetVersion ⟨unknown, unknown, str " \t", str " Unknown\n", unknown, unknown⟩
      = str "Unknown" :=
  GetVersion_of_unknown ⟨unknown, unknown, str " \t", str " Unknown\n", unknown, unknown⟩
    (Or.inl (by decide)) (Or.inr (by decide))

/-! ## C5: the rule for `vcs.modified` -/

/-- C5: running the `vcs.modified` case of the loop of `initFromBuildInfo` with the
value `"true"` a second time changes nothing, and one run leaves the commit as it
was or appends `-dirty` to it once. -/
theorem applySetting_modified_idempotent (st : State) :
    applySetting (applySetting st ⟨str "vcs.modified", str "true"⟩)
        ⟨str "vcs.modified", str "true"⟩
      = applySetting st ⟨str "vcs.modified", str "true"⟩
      ∧ ((applySetting st ⟨str "vcs.modified", str "true"⟩).GitCommit = st.GitCommit
          ∨ (applySetting st ⟨str "vcs.modified", str "true"⟩).GitCommit
              = st.GitCommit ++ str "-dirty") := by
  have n4 : ¬ str "vcs.modified" = str "vcs.revision" := by decide
  have n5 : ¬ str "vcs.modified" = str "vcs.time" := by decide
  have e : ∀ s : State, applySetting s ⟨str "vcs.modified", str "true"⟩ =
      if isKnown s.GitCommit && !HasSuffix s.GitCommit (str "-dirty") then
        { s with GitCommit := s.GitCommit ++ str "-dirty" }
      else s := by
    intro s
    simp [applySetting, n4, n5]
  rw [e st]
  by_cases c : (isKnown st.GitCommit && !HasSuffix st.GitCommit (str "-dirty")) = true
  · rw [if_pos c, e]
    simp [HasSuffix_append_self]
  · rw [if_neg c, e, if_neg c]
    simp

/-! ## C6: the date prefix -/

theorem iterMatch_charClass (ranges : List (Nat × Nat)) (s : GoString) :
    ∀ (n p : Nat), p ≤ s.length →
      iterMatch ((Regexp.charClass ranges).matchAt s) n p =
        if decide (n ≤ (s.drop p).length) && ((s.drop p).take n).all (inClass ranges)
        then some (p + n) else none := by
  intro n
  induction n with
  | zero => intro p _; simp [iterMatch]
  | succ n ih =>
    intro p hp
    rw [iterMatch]
    by_cases hlt : p < s.length
    · have hd : s.drop p = s[p] :: s.drop (p + 1) := List.drop_eq_getElem_cons hlt
      have hg : s.getD p 0 = s[p] := by simp [List.getD_eq_getElem?_getD, hlt]
      by_cases hc : inClass ranges s[p] = true
      · have e : (Regexp.charClass ranges).matchAt s p = some (p + 1) := by
          simp only [Regexp.matchAt, hg]
          simp [hlt, hc]
        rw [e]
        simp only
        rw [ih (p + 1) (by omega), hd]
        simp only [List.length_cons, List.take_succ_cons, List.all_cons, hc, Bool.true_and,
          Nat.add_le_add_iff_right]
        have : p + 1 + n = p + (n + 1) := by omega
        rw [this]
      · have e : (Regexp.charClass ranges).matchAt s p = none := by
          simp only [Regexp.matchAt, hg]
          simp [hc]
        have hf : inClass ranges s[p] = false := by simpa using hc
        rw [e]
        simp only
        rw [if_neg]
        rw [hd, List.take_succ_cons, List.all_cons, hf]
        simp
    · have e : (Regexp.charClass ranges).matchAt s p = none := by
        simp [Regexp.matchAt, hlt]
      have hd : s.drop p = [] := List.drop_eq_nil_of_le (by omega)
      rw [e, hd]
      simp

theorem inClass_datePrefix (c : Nat) : inClass [(48, 57), (45, 45)] c = isDateByte c := by
  simp only [inClass, isDateByte, List.any_cons, List.any_nil, Bool.or_false]
  congr 1
  rw [Bool.eq_iff_iff]
  simp
  omega

theorem matchAt_datePrefix_zero (s : GoString) :
    datePrefix.matchAt s 0 = if hasDatePrefix s then some 7 else none := by
  have e : datePrefix.matchAt s 0 =
      iterMatch ((Regexp.charClass [(48, 57), (45, 45)]).matchAt s) 7 0 := rfl
  rw [e, iterMatch_charClass _ _ _ _ (Nat.zero_le _)]
  have : inClass [(48, 57), (45, 45)] = isDateByte := funext inClass_datePrefix
  simp [hasDatePrefix, this]

theorem matchAt_datePrefix_pos (s : GoString) (pos : Nat) (h : pos ≠ 0) :
    datePrefix.matchAt s pos = none := by
  simp [datePrefix, Regexp.matchAt, h]

theorem findFrom_datePrefix_pos (s : GoString) :
    ∀ (fuel pos : Nat), pos ≠ 0 → datePrefix.findFrom s fuel pos = none := by
  intro fuel
  induction fuel with
  | zero => intro pos _; rfl
  | succ n ih =>
    intro pos h
    rw [Regexp.findFrom, matchAt_datePrefix_pos s pos h]
    simp only
    split_ifs
    · exact ih (pos + 1) (by omega)
    · rfl

/-- The result of removing the date prefix, for every string. -/
theorem datePrefix_ReplaceAllString_eq (s : GoString) :
    datePrefix.ReplaceAllString s [] = if hasDatePrefix s then s.drop 7 else s := by
  unfold Regexp.ReplaceAllString
  rw [Regexp.replaceAllLoop]
  simp only [Nat.not_lt_zero, if_false, Nat.sub_zero]
  rw [Regexp.findFrom, matchAt_datePrefix_zero]
  by_cases h : hasDatePrefix s = true
  · have e7 : (if 0 + 1 > 7 then 0 + 1 else 7) = 7 := by decide
    simp only [h, if_true]
    rw [Regexp.replaceAllLoop]
    simp only [e7, findFrom_datePrefix_pos s _ 7 (by omega)]
    simp
  · simp only [h, if_false]
    rw [findFrom_datePrefix_pos s _ 1 (by omega)]
    simp

/-- C6: `datePrefix.ReplaceAllString(s, "")` removes the first 7 bytes of `s` when
`s` has at least 7 bytes and each of the first 7 is a digit or a hyphen, and
returns `s` itself otherwise; the four examples of the test. -/
theorem datePrefix_strip :
    (∀ s : GoString, datePrefix.ReplaceAllString s [] =
        if decide (7 ≤ s.length) && (s.take 7).all isDateByte then s.drop 7 else s)
      ∧ datePrefix.ReplaceAllString (str "251207-myapp") [] = str "myapp"
      ∧ datePrefix.ReplaceAllString (str "myapp") [] = str "myapp"
      ∧ datePrefix.ReplaceAllString (str "251207-") [] = str ""
      ∧ datePrefix.ReplaceAllString (str "25120-myapp") [] = str "25120-myapp" := by
  refine ⟨fun s => ?_, ?_, ?_, ?_, ?_⟩
  · exact datePrefix_ReplaceAllString_eq s
  all_goals (rw [datePrefix_ReplaceAllString_eq]; decide)

/-! ## C7: the calendar -/

/-- The arithmetic of the year cycles in `absDate`, and `daysSinceEpoch` read on
its result. -/
theorem year_cycles (d n400 d1 n100 n100' d2 n4 d3 n1 n1' yday y : Nat)
    (e1 : n400 = d / 146097) (e2 : d1 = d - 146097 * n400) (e3 : n100 = d1 / 36524)
    (e4 : n100' = n100 - n100 / 4) (e5 : d2 = d1 - 36524 * n100') (e6 : n4 = d2 / 1461)
    (e7 : d3 = d2 - 1461 * n4) (e8 : n1 = d3 / 365) (e9 : n1' = n1 - n1 / 4)
    (e10 : yday = d3 - 365 * n1') (e11 : y = 400 * n400 + 100 * n100' + 4 * n4 + n1') :
    y / 400 = n400 ∧ (y - 400 * (y / 400)) / 100 = n100'
      ∧ (y - 400 * (y / 400) - 100 * ((y - 400 * (y / 400)) / 100)) / 4 = n4
      ∧ (y - 400 * (y / 400) - 100 * ((y - 400 * (y / 400)) / 100)
            - 4 * ((y - 400 * (y / 400) - 100 * ((y - 400 * (y / 400)) / 100)) / 4)) = n1'
      ∧ 146097 * n400 + 36524 * n100' + 1461 * n4 + 365 * n1' + yday = d
      ∧ (yday < 365 ∨ (yday = 365 ∧ y % 4 = 3 ∧ (y % 100 ≠ 99 ∨ y % 400 = 399))) := by
  have a1 : d = 146097 * n400 + d1 ∧ d1 < 146097 := by omega
  have a2 : n100 ≤ 4 := by omega
  have a3 : n100' ≤ 3 ∧ d1 = 36524 * n100' + d2 ∧ d2 ≤ 36524 ∧ (n100' < 3 → d2 < 36524) := by
    omega
  have b1 : n4 ≤ 24 ∧ d2 = 1461 * n4 + d3 ∧ d3 < 1461 ∧ (n100' < 3 → n4 = 24 → d3 < 1460) := by
    omega
  have c1 : n1 ≤ 4 := by omega
  have c2 : n1' ≤ 3 ∧ d3 = 365 * n1' + yday ∧ yday ≤ 365 ∧ (n1' < 3 → yday < 365)
      ∧ (yday = 365 → d3 = 1460) := by omega
  clear e1 e2 e3 e4 e5 e6 e7 e8 e9 e10
  have r1 : y / 400 = n400 := by omega
  have r2 : (y - 400 * (y / 400)) / 100 = n100' := by rw [r1]; omega
  have r3 : (y - 400 * (y / 400) - 100 * ((y - 400 * (y / 400)) / 100)) / 4 = n4 := by
    rw [r2, r1]; omega
  refine ⟨r1, r2, r3, ?_, ?_, ?_⟩
  · rw [r3, r2, r1]; omega
  · omega
  · omega

set_option maxRecDepth 100000 in
/-- The table lookup of `absDate`: month and day are those of day `yday` of the
year. -/
theorem monthDay_spec : ∀ leap : Bool, ∀ yday < 366, yday < 365 + (if leap then 1 else 0) →
    1 ≤ (monthDay leap yday).1 ∧ (monthDay leap yday).1 ≤ 12 ∧ 1 ≤ (monthDay leap yday).2
    ∧ (monthDay leap yday).2 ≤ (if decide ((monthDay leap yday).1 = 2) && leap then 29
        else daysBefore.getD (monthDay leap yday).1 0
          - daysBefore.getD ((monthDay leap yday).1 - 1) 0)
    ∧ daysBefore.getD ((monthDay leap yday).1 - 1) 0
        + (if leap && decide (3 ≤ (monthDay leap yday).1) then 1 else 0)
        + ((monthDay leap yday).2 - 1) = yday := by
  decide

theorem absDate_eq (abs : Nat) :
    absDate abs =
      (wrapInt64 (wrapInt64 (absYearDay abs).1 + absoluteZeroYear),
        (monthDay (isLeap (wrapInt64 (wrapInt64 (absYearDay abs).1 + absoluteZeroYear)))
          (absYearDay abs).2).1,
        (monthDay (isLeap (wrapInt64 (wrapInt64 (absYearDay abs).1 + absoluteZeroYear)))
          (absYearDay abs).2).2) := by
  unfold absDate monthDay absYearDay
  dsimp only
  split_ifs <;> rfl

theorem absYearDay_spec (abs : Nat) :
    146097 * ((absYearDay abs).1 / 400)
        + 36524 * (((absYearDay abs).1 - 400 * ((absYearDay abs).1 / 400)) / 100)
        + 1461 * (((absYearDay abs).1 - 400 * ((absYearDay abs).1 / 400)
            - 100 * (((absYearDay abs).1 - 400 * ((absYearDay abs).1 / 400)) / 100)) / 4)
        + 365 * ((absYearDay abs).1 - 400 * ((absYearDay abs).1 / 400)
            - 100 * (((absYearDay abs).1 - 400 * ((absYearDay abs).1 / 400)) / 100)
            - 4 * (((absYearDay abs).1 - 400 * ((absYearDay abs).1 / 400)
                - 100 * (((absYearDay abs).1 - 400 * ((absYearDay abs).1 / 400)) / 100)) / 4))
        + (absYearDay abs).2 = abs / 86400
      ∧ ((absYearDay abs).2 < 365 ∨ ((absYearDay abs).2 = 365 ∧ (absYearDay abs).1 % 4 = 3
          ∧ ((absYearDay abs).1 % 100 ≠ 99 ∨ (absYearDay abs).1 % 400 = 399)))
      ∧ (absYearDay abs).1 < 400 * (abs / 86400 / 146097) + 400 := by
  simp only [absYearDay, secondsPerDay]
  generalize abs / 86400 = d
  generalize e1 : d / 146097 = n400
  generalize e2 : d - 146097 * n400 = d1
  generalize e3 : d1 / 36524 = n100
  generalize e4 : n100 - n100 / 4 = n100'
  generalize e5 : d1 - 36524 * n100' = d2
  generalize e6 : d2 / 1461 = n4
  generalize e7 : d2 - 1461 * n4 = d3
  generalize e8 : d3 / 365 = n1
  generalize e9 : n1 - n1 / 4 = n1'
  generalize e10 : d3 - 365 * n1' = yday
  generalize e11 : 400 * n400 + 100 * n100' + 4 * n4 + n1' = y
  obtain ⟨r1, r2, r3, r4, r5, r6⟩ :=
    year_cycles d n400 d1 n100 n100' d2 n4 d3 n1 n1' yday y
      e1.symm e2.symm e3.symm e4.symm e5.symm e6.symm e7.symm e8.symm e9.symm e10.symm e11.symm
  refine ⟨?_, r6, ?_⟩
  · rw [r4, r3, r2, r1]; exact r5
  · omega

theorem daysBefore_getD_le (i : Nat) : daysBefore.getD i 0 ≤ 365 := by
  unfold daysBefore
  rcases i with _ | _ | _ | _ | _ | _ | _ | _ | _ | _ | _ | _ | _ | i <;> simp

theorem isLeap_absolute (y : Nat) :
    isLeap ((y : Int) + absoluteZeroYear)
      = (decide (y % 4 = 3) && (decide (y % 100 ≠ 99) || decide (y % 400 = 399))) := by
  unfold isLeap absoluteZeroYear
  rw [Bool.eq_iff_iff]
  simp only [Bool.and_eq_true, Bool.or_eq_true, beq_iff_eq, bne_iff_ne, decide_eq_true_eq, ne_eq]
  omega

theorem absClock_spec (abs : Nat) :
    (absClock abs).1 < 24 ∧ (absClock abs).2.1 < 60 ∧ (absClock abs).2.2 < 60
      ∧ (absClock abs).1 * 3600 + (absClock abs).2.1 * 60 + (absClock abs).2.2 = abs % 86400 := by
  simp only [absClock, secondsPerDay]
  omega

theorem daysSinceEpoch_absolute (y : Nat) (hy : y < 9223372036854775808) :
    daysSinceEpoch ((y : Int) + absoluteZeroYear) =
      146097 * (y / 400) + 36524 * ((y - 400 * (y / 400)) / 100)
        + 1461 * ((y - 400 * (y / 400) - 100 * ((y - 400 * (y / 400)) / 100)) / 4)
        + 365 * (y - 400 * (y / 400) - 100 * ((y - 400 * (y / 400)) / 100)
            - 4 * ((y - 400 * (y / 400) - 100 * ((y - 400 * (y / 400)) / 100)) / 4)) := by
  have e : wrapUint64 ((y : Int) + absoluteZeroYear - absoluteZeroYear) = y := by
    unfold wrapUint64
    omega
  simp only [daysSinceEpoch, e]

theorem wrapInt64_year (y : Nat) (hy : y < 9223372036854775808) :
    wrapInt64 (wrapInt64 (y : Int) + absoluteZeroYear) = (y : Int) + absoluteZeroYear := by
  unfold wrapInt64 absoluteZeroYear
  omega

theorem year_bound (abs y : Nat) (h : abs < 18446744065570097408)
    (hy : y < 400 * (abs / 86400 / 146097) + 400) : y < 9223372036854775808 := by
  omega

theorem unixToInternal_eq : unixToInternal = 62135596800 := by decide

theorem wrap_abs (abs : Nat) (h : abs < 18446744065570097408) :
    wrapInt64 (wrapInt64 ((wrapUint64 (abs : Int) : Nat) : Int)
        + (-internalToAbsolute + -unixToInternal))
      = (abs : Int) - (unixToInternal + internalToAbsolute) := by
  rw [unixToInternal_eq]
  unfold wrapInt64 wrapUint64 internalToAbsolute
  omega

theorem date_arith (abs S dB adj D hh mm ss yday : Nat) (r5 : S + yday = abs / 86400)
    (m5 : dB + adj + (D - 1) = yday) (c4 : hh * 3600 + mm * 60 + ss = abs % 86400) :
    (S + dB + adj + (D - 1)) * 86400 + (hh * 3600 + mm * 60 + ss) = abs := by
  omega

/-- `Date` undoes `absDate` and `absClock`. -/
theorem Date_absDate (abs : Nat) (h : abs < 18446744065570097408) :
    validCivil (absDate abs).1 (absDate abs).2.1 (absDate abs).2.2
        (absClock abs).1 (absClock abs).2.1 (absClock abs).2.2
      ∧ Date (absDate abs).1 (absDate abs).2.1 (absDate abs).2.2
          (absClock abs).1 (absClock abs).2.1 (absClock abs).2.2
        = (abs : Int) - (unixToInternal + internalToAbsolute) := by
  rw [absDate_eq]
  obtain ⟨r5, r6, hy⟩ := absYearDay_spec abs
  obtain ⟨c1, c2, c3, c4⟩ := absClock_spec abs
  generalize (absClock abs).1 = hh at *
  generalize (absClock abs).2.1 = mm at *
  generalize (absClock abs).2.2 = ss at *
  generalize (absYearDay abs).1 = y at *
  generalize (absYearDay abs).2 = yday at *
  have hy2 := year_bound abs y h hy
  rw [wrapInt64_year y hy2]
  have hds := daysSinceEpoch_absolute y hy2
  have hleap := isLeap_absolute y
  unfold Date validCivil daysIn
  dsimp only
  rw [← hds] at r5
  generalize daysSinceEpoch ((y : Int) + absoluteZeroYear) = S at *
  generalize isLeap ((y : Int) + absoluteZeroYear) = leap at *
  have hyd : yday < 365 + (if leap then 1 else 0) := by
    rcases r6 with h1 | ⟨h1, h2, h3⟩
    · omega
    · have : leap = true := by
        rw [hleap]; simp only [Bool.and_eq_true, Bool.or_eq_true, decide_eq_true_eq, ne_eq]
        exact ⟨h2, h3⟩
      simp [this, h1]
  clear r6 hleap hy hy2 hds
  obtain ⟨m1, m2, m3, m4, m5⟩ := monthDay_spec leap yday (by split_ifs at hyd <;> omega) hyd
  generalize (monthDay leap yday).1 = M at *
  generalize (monthDay leap yday).2 = D at *
  constructor
  · exact ⟨m1, m2, m3, m4, c1, c2, c3⟩
  · have key := date_arith abs S (daysBefore.getD (M - 1) 0)
      (if (leap && decide (3 ≤ M)) = true then 1 else 0) D hh mm ss yday r5 m5 c4
    have e : (if (leap && decide (3 ≤ M)) = true then S + daysBefore.getD (M - 1) 0 + 1
          else S + daysBefore.getD (M - 1) 0)
        = S + daysBefore.getD (M - 1) 0 + (if (leap && decide (3 ≤ M)) = true then 1 else 0) := by
      split_ifs <;> rfl
    rw [e, show secondsPerDay = 86400 from rfl, key]
    exact wrap_abs abs h

theorem daysSinceEpoch_bounds (year : Int) (hy0 : 0 ≤ year) (hy1 : year ≤ 9999) :
    106751990353566 ≤ daysSinceEpoch year ∧ daysSinceEpoch year ≤ 106751994005626 := by
  unfold daysSinceEpoch wrapUint64 absoluteZeroYear
  dsimp only
  omega

theorem Date_bounds (year : Int) (month day hour min sec : Nat) (hy0 : 0 ≤ year)
    (hy1 : year ≤ 9999) (hd : day ≤ 99) (hh : hour < 24) (hm : min < 60) (hs : sec < 60) :
    -100000000000 ≤ Date year month day hour min sec
      ∧ Date year month day hour min sec ≤ 1000000000000 := by
  have hb := daysBefore_getD_le (month - 1)
  have hS := daysSinceEpoch_bounds year hy0 hy1
  unfold Date
  dsimp only
  generalize daysBefore.getD (month - 1) 0 = dB at *
  have e : ∀ S : Nat, (if (isLeap year && decide (3 ≤ month)) = true then S + dB + 1 else S + dB)
      = S + dB + (if (isLeap year && decide (3 ≤ month)) = true then 1 else 0) := by
    intro S; split_ifs <;> rfl
  rw [e]
  have ha : (if (isLeap year && decide (3 ≤ month)) = true then 1 else 0) ≤ 1 := by
    split_ifs <;> omega
  generalize (if (isLeap year && decide (3 ≤ month)) = true then 1 else 0) = adj at *
  generalize daysSinceEpoch year = S at *
  have hA : 9223371966548102400 ≤ (S + dB + adj + (day - 1)) * secondsPerDay
        + (hour * 3600 + min * 60 + sec)
      ∧ (S + dB + adj + (day - 1)) * secondsPerDay + (hour * 3600 + min * 60 + sec)
        ≤ 9223372300000000000 := by
    unfold secondsPerDay
    omega
  generalize (S + dB + adj + (day - 1)) * secondsPerDay + (hour * 3600 + min * 60 + sec) = A at *
  rw [wrap_abs A (by omega), unixToInternal_eq]
  unfold internalToAbsolute
  omega

/-! ## C7: what `time.Parse` returns -/

theorem isDigit_bound (s : GoString) (i : Nat) (h : isDigit s i = true) :
    48 ≤ s.getD i 0 ∧ s.getD i 0 ≤ 57 := by
  unfold isDigit at h
  split_ifs at h
  simpa using h

theorem getnum_le (s : GoString) (fixed : Bool) (n : Nat) (rest : GoString)
    (h : getnum s fixed = some (n, rest)) : n ≤ 99 := by
  unfold getnum at h
  by_cases h0 : isDigit s 0 = true
  · have b0 := isDigit_bound s 0 h0
    by_cases h1 : isDigit s 1 = true
    · have b1 := isDigit_bound s 1 h1
      simp only [h0, h1, Bool.not_true, Bool.false_eq_true, if_false, Option.some.injEq,
        Prod.mk.injEq] at h
      omega
    · simp only [h0, h1, Bool.not_true, Bool.false_eq_true, if_false, Bool.not_false,
        if_true] at h
      split_ifs at h
      simp only [Option.some.injEq, Prod.mk.injEq] at h
      omega
  · simp [h0] at h

theorem leadingInt_bound : ∀ (l : GoString) (x q : Nat) (rest : GoString),
    leadingInt l x = some (q, rest) → q + 1 ≤ (x + 1) * 10 ^ l.length := by
  intro l
  induction l with
  | nil =>
    intro x q rest h
    simp only [leadingInt, Option.some.injEq, Prod.mk.injEq] at h
    simp [← h.1]
  | cons c t ih =>
    intro x q rest h
    rw [leadingInt] at h
    have hp : 1 ≤ 10 ^ t.length := Nat.one_le_pow _ _ (by omega)
    split_ifs at h with h1 h2 h3
    · simp only [Option.some.injEq, Prod.mk.injEq] at h
      rw [← h.1, List.length_cons, pow_succ]
      nlinarith
    · have := ih _ _ _ h
      simp only [Bool.or_eq_true, decide_eq_true_eq, not_or, not_lt] at h1
      have h4 : x * 10 + c - 48 + 1 ≤ (x + 1) * 10 := by omega
      calc q + 1 ≤ (x * 10 + c - 48 + 1) * 10 ^ t.length := this
        _ ≤ ((x + 1) * 10) * 10 ^ t.length := Nat.mul_le_mul_right _ h4
        _ = (x + 1) * 10 ^ (c :: t).length := by rw [List.length_cons, pow_succ]; ring

theorem atoi_year_bound (value : GoString) (year : Int) (hd : isDigit value 0 = true)
    (h : atoi (value.take 4) = some year) : 0 ≤ year ∧ year ≤ 9999 := by
  have b0 := isDigit_bound value 0 hd
  unfold atoi at h
  have hlen : value ≠ [] := by
    rintro rfl
    simp [isDigit] at hd
  obtain ⟨c, t, rfl⟩ := List.exists_cons_of_ne_nil hlen
  have hc : 48 ≤ c ∧ c ≤ 57 := by simpa using b0
  have e1 : ((c :: t).take 4).head? = some c := by simp
  have n1 : ¬ (some c = some 45) := by simp; omega
  have n2 : ¬ (some c = some 43) := by simp; omega
  simp only [e1, n1, n2, or_self, if_false, decide_False] at h
  split at h
  · rename_i q hq
    have hb := leadingInt_bound _ _ _ _ hq
    have hl : ((c :: t).take 4).length ≤ 4 := by simp
    have : 10 ^ ((c :: t).take 4).length ≤ 10 ^ 4 := Nat.pow_le_pow_right (by omega) hl
    simp only [Bool.false_eq_true, if_false, Option.some.injEq] at h
    omega
  · simp at h

theorem parseColonTZ_bound (value rest : GoString) (off : Int)
    (h : parseColonTZ value = some (off, rest)) : -90000 ≤ off ∧ off ≤ 90000 := by
  unfold parseColonTZ at h
  repeat' split at h
  all_goals first
    | (simp only [Option.some.injEq, Prod.mk.injEq] at h; omega)
    | (simp at h)

theorem parseLayout_bounds (value : GoString) (p : Parsed) (h : parseLayout value = some p) :
    0 ≤ p.year ∧ p.year ≤ 9999 ∧ p.day ≤ 99 ∧ p.hour < 24 ∧ p.min < 60 ∧ p.sec < 60
      ∧ -90000 ≤ p.zoneOffset ∧ p.zoneOffset ≤ 90000 := by
  unfold parseLayout at h
  split at h
  · simp at h
  rename_i c0
  split at h
  · simp at h
  rename_i year hyear
  split at h
  · simp at h
  rename_i v1 hv1
  split at h
  · simp at h
  rename_i month v2 hmonth
  split at h
  · simp at h
  rename_i cmonth
  split at h
  · simp at h
  rename_i v3 hv3
  split at h
  · simp at h
  rename_i day v4 hday
  split at h
  · simp at h
  rename_i v5 hv5
  split at h
  · simp at h
  rename_i hour v6 hhour
  split at h
  · simp at h
  rename_i chour
  split at h
  · simp at h
  rename_i v7 hv7
  split at h
  · simp at h
  rename_i min v8 hmin
  split at h
  · simp at h
  rename_i cmin
  split at h
  · simp at h
  rename_i v9 hv9
  split at h
  · simp at h
  rename_i sec v10 hsec
  split at h
  · simp at h
  rename_i csec
  split at h
  · simp at h
  rename_i nsec v11 hnsec
  split at h
  · simp at h
  rename_i zoneOffset v12 hzone
  split at h
  · simp at h
  simp only [Option.some.injEq] at h
  subst h
  have hd0 : isDigit value 0 = true := by
    simp only [Bool.or_eq_true, decide_eq_true_eq, Bool.not_eq_true', not_or, not_lt,
      Bool.not_eq_false] at c0
    exact c0.2
  obtain ⟨y0, y1⟩ := atoi_year_bound value year hd0 hyear
  have dle := getnum_le _ _ _ _ hday
  have hz : -90000 ≤ zoneOffset ∧ zoneOffset ≤ 90000 := by
    split at hzone
    · simp only [Option.some.injEq, Prod.mk.injEq] at hzone
      omega
    · exact parseColonTZ_bound _ _ _ hzone
  dsimp only
  omega

/-! ## C7: the text that `Format` writes -/

theorem digitsLoop_succ (fuel u : Nat) (acc : GoString) :
    digitsLoop (fuel + 1) u acc =
      if u < 10 then (48 + u) :: acc else digitsLoop fuel (u / 10) ((48 + u % 10) :: acc) := rfl

theorem digitsLoop_four (fuel u : Nat) (hf : 4 ≤ fuel) (hu : u < 10000) :
    List.replicate (4 - (digitsLoop fuel u []).length) 48 ++ digitsLoop fuel u []
      = fourDigits u := by
  obtain ⟨f, rfl⟩ : ∃ f, fuel = f + 4 := ⟨fuel - 4, by omega⟩
  unfold fourDigits
  simp only [digitsLoop_succ]
  have e0 : u / 10 / 10 / 10 = u / 1000 := by omega
  have e1 : u / 10 / 10 = u / 100 := by omega
  by_cases h1 : u < 10
  · have a1 : u / 1000 = 0 := by omega
    have a2 : u / 100 % 10 = 0 := by omega
    have a3 : u / 10 % 10 = 0 := by omega
    have a4 : u % 10 = u := by omega
    simp [h1, a1, a2, a3, a4, List.replicate]
  · by_cases h2 : u / 10 < 10
    · have a1 : u / 1000 = 0 := by omega
      have a2 : u / 100 % 10 = 0 := by omega
      have a3 : u / 10 % 10 = u / 10 := by omega
      simp [h1, h2, a1, a2, a3, List.replicate]
    · by_cases h3 : u / 10 / 10 < 10
      · have a1 : u / 1000 = 0 := by omega
        have a2 : u / 100 % 10 = u / 10 / 10 := by omega
        simp [h1, h2, h3, a1, a2, List.replicate]
      · have h4 : u / 1000 < 10 := by omega
        have a2 : u / 100 % 10 = u / 10 / 10 % 10 := by omega
        simp [h1, h2, h3, h4, e0, a2, List.replicate]

theorem appendInt_four (Y : Int) (h0 : 0 ≤ Y) (h1 : Y ≤ 9999) :
    appendInt Y 4 = fourDigits Y.toNat := by
  obtain ⟨u, rfl⟩ := Int.eq_ofNat_of_zero_le h0
  have hu : u < 10000 := by omega
  unfold appendInt
  have hneg : ¬ ((u : Int) < 0) := by omega
  simp only [Int.natAbs_ofNat, hneg, if_false, List.nil_append, Int.toNat_ofNat]
  by_cases h4 : 4 ≤ u + 1
  · exact digitsLoop_four (u + 1) u h4 hu
  · have : u < 3 := by omega
    interval_cases u <;> decide

theorem appendInt_two : ∀ n < 100, appendInt ((n : Nat) : Int) 2 = twoDigits n := by
  decide

/-- What `Format` writes for a parsed time: when `time.Parse(time.RFC3339, s)`
succeeds with the time `t`, `formatBuildTime s` is the date and time of day that
denote the instant `t` plus 8 hours, written with zero-padded fields and ` CST`. -/
theorem formatBuildTime_of_parsed (s : GoString) (t : Time)
    (h : timeParseRFC3339 s = some t) :
    ∃ (Y : Int) (M D hh mm ss : Nat),
      validCivil Y M D hh mm ss
        ∧ Date Y M D hh mm ss = t.unixSec + 8 * 60 * 60
        ∧ formatBuildTime s =
            appendInt Y 4 ++ str "-" ++ twoDigits M ++ str "-" ++ twoDigits D ++ str " "
              ++ twoDigits hh ++ str ":" ++ twoDigits mm ++ str ":" ++ twoDigits ss
              ++ str " CST"
        ∧ (0 ≤ Y → Y ≤ 9999 → appendInt Y 4 = fourDigits Y.toNat) := by
  have hb : -100000090000 ≤ t.unixSec ∧ t.unixSec ≤ 1000000090000 := by
    unfold timeParseRFC3339 at h
    split at h
    · simp at h
    rename_i p hp
    split at h
    · simp at h
    simp only [Option.some.injEq] at h
    subst h
    obtain ⟨b1, b2, b3, b4, b5, b6, b7, b8⟩ := parseLayout_bounds s p hp
    obtain ⟨d1, d2⟩ := Date_bounds p.year p.month p.day p.hour p.min p.sec b1 b2 b3 b4 b5 b6
    dsimp only
    omega
  have hfmt : formatBuildTime s = formatInCST t := by
    unfold formatBuildTime
    rw [h]
  have habs : ((wrapUint64 (t.unixSec + 8 * 60 * 60 + (unixToInternal + internalToAbsolute))
        : Nat) : Int) = t.unixSec + 8 * 60 * 60 + (unixToInternal + internalToAbsolute)
      ∧ wrapUint64 (t.unixSec + 8 * 60 * 60 + (unixToInternal + internalToAbsolute))
        < 18446744065570097408 := by
    rw [unixToInternal_eq]
    unfold wrapUint64 internalToAbsolute
    omega
  rw [hfmt]
  have hcst : formatInCST t =
      appendInt (absDate (wrapUint64
            (t.unixSec + 8 * 60 * 60 + (unixToInternal + internalToAbsolute)))).1 4 ++ str "-"
        ++ appendInt (absDate (wrapUint64
            (t.unixSec + 8 * 60 * 60 + (unixToInternal + internalToAbsolute)))).2.1 2 ++ str "-"
        ++ appendInt (absDate (wrapUint64
            (t.unixSec + 8 * 60 * 60 + (unixToInternal + internalToAbsolute)))).2.2 2 ++ str " "
        ++ appendInt (absClock (wrapUint64
            (t.unixSec + 8 * 60 * 60 + (unixToInternal + internalToAbsolute)))).1 2 ++ str ":"
        ++ appendInt (absClock (wrapUint64
            (t.unixSec + 8 * 60 * 60 + (unixToInternal + internalToAbsolute)))).2.1 2 ++ str ":"
        ++ appendInt (absClock (wrapUint64
            (t.unixSec + 8 * 60 * 60 + (unixToInternal + internalToAbsolute)))).2.2 2 ++ str " "
        ++ str "CST" := rfl
  rw [hcst]
  generalize wrapUint64 (t.unixSec + 8 * 60 * 60 + (unixToInternal + internalToAbsolute))
    = abs at habs ⊢
  obtain ⟨hv, hD⟩ := Date_absDate abs habs.2
  rw [habs.1] at hD
  refine ⟨(absDate abs).1, (absDate abs).2.1, (absDate abs).2.2,
    (absClock abs).1, (absClock abs).2.1, (absClock abs).2.2, hv, by rw [hD]; ring, ?_,
    appendInt_four _⟩
  obtain ⟨v1, v2, v3, v4, v5, v6, v7⟩ := hv
  have hD31 : (absDate abs).2.2 ≤ 31 := by
    have : daysIn (absDate abs).2.1 (absDate abs).1 ≤ 31 := by
      unfold daysIn daysBefore
      generalize (absDate abs).2.1 = M at *
      split_ifs
      · omega
      · interval_cases M <;> simp
    omega
  rw [appendInt_two _ (by omega), appendInt_two _ (by omega), appendInt_two _ (by omega),
    appendInt_two _ (by omega), appendInt_two _ (by omega)]
  simp [List.append_assoc]
  decide

/-! ## C7: the texts that `time.Parse` reads -/

theorem twoDigits_of_digits (a b : Nat) (ha : 48 ≤ a ∧ a ≤ 57) (hb : 48 ≤ b ∧ b ≤ 57) :
    twoDigits ((a - 48) * 10 + (b - 48)) = [a, b] := by
  unfold twoDigits
  have e1 : 48 + ((a - 48) * 10 + (b - 48)) / 10 = a := by omega
  have e2 : 48 + ((a - 48) * 10 + (b - 48)) % 10 = b := by omega
  rw [e1, e2]

theorem getnum_fixed_inv (s : GoString) (n : Nat) (rest : GoString)
    (h : getnum s true = some (n, rest)) : s = twoDigits n ++ rest := by
  unfold getnum at h
  by_cases h0 : isDigit s 0 = true
  · have b0 := isDigit_bound s 0 h0
    by_cases h1 : isDigit s 1 = true
    · have b1 := isDigit_bound s 1 h1
      simp only [h0, h1, Bool.not_true, Bool.false_eq_true, if_false, Option.some.injEq,
        Prod.mk.injEq] at h
      match s, h0, h1, b0, b1, h with
      | [], h0, _, _, _, _ => simp [isDigit] at h0
      | [_], _, h1, _, _, _ => simp [isDigit] at h1
      | a :: b :: t, _, _, b0, b1, h =>
        simp only [List.getD_cons_zero, List.getD_cons_succ, List.drop_succ_cons,
          List.drop_zero] at b0 b1 h
        rw [← h.1, ← h.2, twoDigits_of_digits a b b0 b1]
        rfl
    · simp [h0, h1] at h
  · simp [h0] at h

theorem getnum_free_inv (s : GoString) (n : Nat) (rest : GoString)
    (h : getnum s false = some (n, rest)) :
    s = twoDigits n ++ rest ∨ (s = (48 + n) :: rest ∧ n < 10) := by
  by_cases h1 : isDigit s 1 = true
  · left
    apply getnum_fixed_inv
    unfold getnum at h ⊢
    simpa [h1] using h
  · right
    unfold getnum at h
    by_cases h0 : isDigit s 0 = true
    · have b0 := isDigit_bound s 0 h0
      simp only [h0, h1, Bool.not_true, Bool.false_eq_true, if_false, Bool.not_false,
        if_true, Option.some.injEq, Prod.mk.injEq] at h
      match s, h0, b0, h with
      | [], h0, _, _ => simp [isDigit] at h0
      | a :: t, _, b0, h =>
        simp only [List.getD_cons_zero, List.drop_succ_cons, List.drop_zero] at b0 h
        obtain ⟨e1, e2⟩ := h
        subst e2
        have e : 48 + n = a := by omega
        exact ⟨by rw [e], by omega⟩
    · simp [h0] at h

theorem skip_byte_inv (value rest : GoString) (c : Nat)
    (h : skip value [c] = some rest) : value = c :: rest := by
  unfold skip at h
  match value, h with
  | [], h => simp at h
  | a :: t, h =>
    simp only [List.isPrefixOf, Bool.and_eq_true, beq_iff_eq] at h
    split_ifs at h with hc
    simp only [List.length_singleton, List.drop_succ_cons, List.drop_zero,
      Option.some.injEq] at h
    rw [← hc.1, h]

theorem leadingInt_digit (c : Nat) (t : GoString) (x : Nat) (hc : 48 ≤ c ∧ c ≤ 57)
    (hx : x ≤ 100000000000000000) :
    leadingInt (c :: t) x = leadingInt t (x * 10 + c - 48) := by
  rw [leadingInt]
  have h1 : (decide (c < 48) || decide (c > 57)) = false := by
    simp only [Bool.or_eq_false_iff, decide_eq_false_iff_not]
    omega
  rw [h1]
  simp only [Bool.false_eq_true, if_false]
  rw [if_neg (by omega), if_neg (by omega)]

theorem leadingInt_all_digits : ∀ (l : GoString) (x q : Nat),
    leadingInt l x = some (q, []) → ∀ c ∈ l, 48 ≤ c ∧ c ≤ 57 := by
  intro l
  induction l with
  | nil => intro x q _ c hc; simp at hc
  | cons a t ih =>
    intro x q h c hc
    rw [leadingInt] at h
    split_ifs at h with h1 h2 h3
    · simp at h
    · simp only [Bool.or_eq_true, decide_eq_true_eq, not_or, not_lt] at h1
      rcases List.mem_cons.1 hc with rfl | hc
      · omega
      · exact ih _ _ h c hc

theorem fourDigits_of_digits (a b c d : Nat) (ha : 48 ≤ a ∧ a ≤ 57) (hb : 48 ≤ b ∧ b ≤ 57)
    (hc : 48 ≤ c ∧ c ≤ 57) (hd : 48 ≤ d ∧ d ≤ 57) :
    fourDigits ((((0 * 10 + a - 48) * 10 + b - 48) * 10 + c - 48) * 10 + d - 48)
      = [a, b, c, d] := by
  unfold fourDigits
  obtain ⟨a, rfl⟩ : ∃ k, a = 48 + k := ⟨a - 48, by omega⟩
  obtain ⟨b, rfl⟩ : ∃ k, b = 48 + k := ⟨b - 48, by omega⟩
  obtain ⟨c, rfl⟩ : ∃ k, c = 48 + k := ⟨c - 48, by omega⟩
  obtain ⟨d, rfl⟩ : ∃ k, d = 48 + k := ⟨d - 48, by omega⟩
  have e : (((0 * 10 + (48 + a) - 48) * 10 + (48 + b) - 48) * 10 + (48 + c) - 48) * 10
      + (48 + d) - 48 = a * 1000 + b * 100 + c * 10 + d := by omega
  rw [e]
  have e1 : (a * 1000 + b * 100 + c * 10 + d) / 1000 = a := by omega
  have e2 : (a * 1000 + b * 100 + c * 10 + d) / 100 % 10 = b := by omega
  have e3 : (a * 1000 + b * 100 + c * 10 + d) / 10 % 10 = c := by omega
  have e4 : (a * 1000 + b * 100 + c * 10 + d) % 10 = d := by omega
  rw [e1, e2, e3, e4]

theorem atoi_year_inv (value : GoString) (year : Int) (hl : 4 ≤ value.length)
    (hd : isDigit value 0 = true) (h : atoi (value.take 4) = some year) :
    ∃ y : Nat, y ≤ 9999 ∧ year = (y : Int) ∧ value = fourDigits y ++ value.drop 4 := by
  obtain ⟨y0, y1⟩ := atoi_year_bound value year hd h
  match value, hl, hd, h with
  | a :: b :: c :: d :: t, _, hd, h =>
    have ha : 48 ≤ a ∧ a ≤ 57 := by simpa using isDigit_bound _ 0 hd
    unfold atoi at h
    have e1 : ((a :: b :: c :: d :: t).take 4).head? = some a := by simp
    have n1 : ¬ (some a = some 45) := by simp; omega
    have n2 : ¬ (some a = some 43) := by simp; omega
    simp only [e1, n1, n2, or_self, if_false, decide_False] at h
    split at h
    · rename_i q hq
      simp only [Bool.false_eq_true, if_false, Option.some.injEq] at h
      have hall := leadingInt_all_digits _ _ _ hq
      have e2 : (a :: b :: c :: d :: t).take 4 = [a, b, c, d] := by simp
      rw [e2] at hq hall
      have hb := hall b (by simp)
      have hc := hall c (by simp)
      have hd := hall d (by simp)
      rw [leadingInt_digit a _ _ ha (by omega), leadingInt_digit b _ _ hb (by omega),
        leadingInt_digit c _ _ hc (by omega), leadingInt_digit d _ _ hd (by omega),
        leadingInt] at hq
      simp only [Option.some.injEq, Prod.mk.injEq, and_true] at hq
      refine ⟨q, by omega, h.symm, ?_⟩
      rw [← hq, fourDigits_of_digits a b c d ha hb hc hd]
      rfl
    · simp at h

theorem take_length_takeWhile (p : Nat → Bool) (l : GoString) :
    l.take (l.takeWhile p).length = l.takeWhile p := by
  induction l with
  | nil => rfl
  | cons a t ih =>
    rw [List.takeWhile_cons]
    split
    · rw [List.length_cons, List.take_succ_cons, ih]
    · rfl

theorem all_takeWhile (p : Nat → Bool) (l : GoString) : (l.takeWhile p).all p = true := by
  induction l with
  | nil => rfl
  | cons a t ih =>
    rw [List.takeWhile_cons]
    split
    · rename_i h
      rw [List.all_cons, h, ih]
      rfl
    · rfl

theorem fraction_inv (v rest : GoString) (nsec : Nat)
    (h : (if decide (v.length ≥ 2) && commaOrPeriod (v.getD 0 0) && isDigit v 1
          then (parseNanoseconds v (fracLen v)).map (fun ns => (ns, v.drop (fracLen v)))
          else some (0, v)) = some (nsec, rest)) :
    ∃ frac, isFraction frac = true ∧ v = frac ++ rest := by
  split_ifs at h with hc
  · simp only [Option.map_eq_some', Prod.mk.injEq] at h
    obtain ⟨ns, _, _, hrest⟩ := h
    refine ⟨v.take (fracLen v), ?_, by rw [← hrest, List.take_append_drop]⟩
    simp only [Bool.and_eq_true, decide_eq_true_eq] at hc
    obtain ⟨⟨hl, hsep⟩, hdig⟩ := hc
    have b1 := isDigit_bound v 1 hdig
    match v, hl, hsep, b1 with
    | x :: y :: t, _, hsep, b1 =>
      simp only [List.getD_cons_zero, List.getD_cons_succ] at hsep b1
      have e : (x :: y :: t).take (fracLen (x :: y :: t))
          = x :: y :: t.takeWhile (fun c => decide (48 ≤ c) && decide (c ≤ 57)) := by
        unfold fracLen
        rw [show ∀ k, 2 + k = k + 1 + 1 from fun k => by omega, List.take_succ_cons,
          List.take_succ_cons]
        simp only [List.drop_succ_cons, List.drop_zero]
        rw [take_length_takeWhile]
      rw [e]
      unfold isFraction
      have hy : isDigitByte y = true := by
        unfold isDigitByte
        simp [b1.1, b1.2]
      have hall := all_takeWhile isDigitByte t
      unfold isDigitByte at hall hy
      simp only [hsep, List.isEmpty_cons, Bool.not_false, Bool.and_true, Bool.true_and,
        List.all_cons, Bool.and_eq_true]
      exact ⟨hy, hall⟩
  · simp only [Option.some.injEq, Prod.mk.injEq] at h
    exact ⟨[], rfl, by rw [h.2]; rfl⟩

theorem twoDigits_pair (a b n : Nat) (r : GoString) (h : [a, b] = twoDigits n ++ r) :
    [a, b] = twoDigits n := by
  unfold twoDigits at h ⊢
  simp only [List.cons_append, List.nil_append, List.cons.injEq] at h
  obtain ⟨h1, h2, h3⟩ := h
  rw [h1, h2]

theorem zone_inv (v : GoString) (off : Int)
    (h : (if v.head? = some 90 then some ((0 : Int), v.drop 1) else parseColonTZ v)
          = some (off, [])) :
    ∃ z : Zone, z.valid ∧ v = z.text ∧ off = z.seconds := by
  split_ifs at h with hz
  · simp only [Option.some.injEq, Prod.mk.injEq] at h
    refine ⟨Zone.utc, trivial, ?_, h.1.symm⟩
    match v, hz, h with
    | a :: t, hz, h =>
      simp only [List.head?_cons, Option.some.injEq] at hz
      simp only [List.drop_succ_cons, List.drop_zero] at h
      rw [hz, h.2]
      rfl
  · unfold parseColonTZ at h
    by_cases hl : v.length < 6
    · rw [if_pos hl] at h
      simp at h
    by_cases h3 : v.getD 3 0 ≠ 58
    · rw [if_neg hl, if_pos h3] at h
      simp at h
    rw [if_neg hl, if_neg h3] at h
    cases hhr : getnum ((v.take 3).drop 1) true with
    | none =>
      rw [hhr] at h
      simp at h
    | some p1 =>
      obtain ⟨hr, r1⟩ := p1
      cases hmm : getnum ((v.take 6).drop 4) true with
      | none =>
        rw [hhr, hmm] at h
        simp at h
      | some p2 =>
        obtain ⟨mm, r2⟩ := p2
        rw [hhr, hmm] at h
        dsimp only at h
        by_cases c1 : hr > 24
        · rw [if_pos c1] at h
          simp at h
        by_cases c2 : mm > 60
        · rw [if_neg c1, if_pos c2] at h
          simp at h
        rw [if_neg c1, if_neg c2] at h
        match v, hl, h3, hhr, hmm, h with
        | [], hl, _, _, _, _ => simp at hl
        | [_], hl, _, _, _, _ => simp at hl
        | [_, _], hl, _, _, _, _ => simp at hl
        | [_, _, _], hl, _, _, _, _ => simp at hl
        | [_, _, _, _], hl, _, _, _, _ => simp at hl
        | [_, _, _, _, _], hl, _, _, _, _ => simp at hl
        | s :: a :: b :: c :: d :: e :: t, _, h3, hhr, hmm, h =>
          simp only [List.getD_cons_zero, List.getD_cons_succ, ne_eq, not_not] at h3
          simp only [List.getD_cons_zero, List.drop_succ_cons, List.drop_zero] at h
          have e1 := twoDigits_pair a b hr r1 (getnum_fixed_inv _ _ _ hhr)
          have e2 := twoDigits_pair d e mm r2 (getnum_fixed_inv _ _ _ hmm)
          have e3 : [s, a, b, c, d, e] = [s] ++ [a, b] ++ [c] ++ [d, e] := rfl
          by_cases s1 : s = 43
          · rw [if_pos s1] at h
            simp only [Option.some.injEq, Prod.mk.injEq] at h
            refine ⟨Zone.offset false hr mm, ⟨by omega, by omega⟩, ?_, ?_⟩
            · rw [h.2, e3, e1, e2, s1, h3]
              rfl
            · rw [← h.1]
              simp [Zone.seconds]
          by_cases s2 : s = 45
          · rw [if_neg s1, if_pos s2] at h
            simp only [Option.some.injEq, Prod.mk.injEq] at h
            refine ⟨Zone.offset true hr mm, ⟨by omega, by omega⟩, ?_, ?_⟩
            · rw [h.2, e3, e1, e2, s2, h3]
              rfl
            · rw [← h.1]
              simp [Zone.seconds]
          rw [if_neg s1, if_neg s2] at h
          simp at h

theorem parseLayout_inv (value : GoString) (p : Parsed) (h : parseLayout value = some p) :
    ∃ st : Stamp, value = st.text
      ∧ p.year = (st.year : Int) ∧ p.month = st.month ∧ p.day = st.day ∧ p.hour = st.hour
      ∧ p.min = st.min ∧ p.sec = st.sec ∧ p.zoneOffset = st.zone.seconds
      ∧ st.year ≤ 9999 ∧ 1 ≤ st.month ∧ st.month ≤ 12 ∧ st.hour < 24 ∧ st.min < 60
      ∧ st.sec < 60 ∧ (st.shortHour = true → st.hour < 10) ∧ isFraction st.frac = true
      ∧ st.zone.valid := by
  unfold parseLayout at h
  split at h
  · simp at h
  rename_i c0
  split at h
  · simp at h
  rename_i year hyear
  split at h
  · simp at h
  rename_i v1 hv1
  split at h
  · simp at h
  rename_i month v2 hmonth
  split at h
  · simp at h
  rename_i cmonth
  split at h
  · simp at h
  rename_i v3 hv3
  split at h
  · simp at h
  rename_i day v4 hday
  split at h
  · simp at h
  rename_i v5 hv5
  split at h
  · simp at h
  rename_i hour v6 hhour
  split at h
  · simp at h
  rename_i chour
  split at h
  · simp at h
  rename_i v7 hv7
  split at h
  · simp at h
  rename_i min v8 hmin
  split at h
  · simp at h
  rename_i cmin
  split at h
  · simp at h
  rename_i v9 hv9
  split at h
  · simp at h
  rename_i sec v10 hsec
  split at h
  · simp at h
  rename_i csec
  split at h
  · simp at h
  rename_i nsec v11 hnsec
  split at h
  · simp at h
  rename_i zoneOffset v12 hzone
  split at h
  · simp at h
  rename_i cend
  simp only [Option.some.injEq] at h
  subst h
  simp only [Bool.or_eq_true, decide_eq_true_eq, Bool.not_eq_true', not_or, not_lt,
    Bool.not_eq_false] at c0
  obtain ⟨y, hy, ey, e0⟩ := atoi_year_inv value year c0.1 c0.2 hyear
  have e1 := skip_byte_inv _ _ 45 hv1
  have e2 := getnum_fixed_inv _ _ _ hmonth
  have e3 := skip_byte_inv _ _ 45 hv3
  have e4 := getnum_fixed_inv _ _ _ hday
  have e5 := skip_byte_inv _ _ 84 hv5
  have e6 := getnum_free_inv _ _ _ hhour
  have e7 := skip_byte_inv _ _ 58 hv7
  have e8 := getnum_fixed_inv _ _ _ hmin
  have e9 := skip_byte_inv _ _ 58 hv9
  have e10 := getnum_fixed_inv _ _ _ hsec
  obtain ⟨frac, hfrac, e11⟩ := fraction_inv _ _ _ hnsec
  have hnil : v12 = [] := by
    cases v12 with
    | nil => rfl
    | cons a t => simp at cend
  subst hnil
  obtain ⟨z, hzv, e12, hzs⟩ := zone_inv _ _ hzone
  simp only [Bool.or_eq_true, decide_eq_true_eq, not_or, not_le, not_lt] at cmonth
  simp only [not_le] at chour cmin csec
  have etext : ∀ hourText : GoString, v5 = hourText ++ v6 →
      value = fourDigits y ++ str "-" ++ twoDigits month ++ str "-" ++ twoDigits day
        ++ str "T" ++ hourText ++ str ":" ++ twoDigits min ++ str ":" ++ twoDigits sec
        ++ frac ++ z.text := by
    intro hourText eh
    rw [e0, e1, e2, e3, e4, e5, eh, e7, e8, e9, e10, e11, e12]
    simp only [List.append_assoc]
    rfl
  have hm1 : 1 ≤ month := by omega
  rcases e6 with e6 | ⟨e6, hlt⟩
  · refine ⟨⟨y, month, day, hour, false, min, sec, frac, z⟩, ?_, ey, rfl, rfl, rfl, rfl, rfl,
      hzs, hy, hm1, cmonth.2, chour, cmin, csec, ?_, hfrac, hzv⟩
    · exact etext _ e6
    · intro hc
      simp at hc
  · refine ⟨⟨y, month, day, hour, true, min, sec, frac, z⟩, ?_, ey, rfl, rfl, rfl, rfl, rfl,
      hzs, hy, hm1, cmonth.2, chour, cmin, csec, fun _ => hlt, hfrac, hzv⟩
    exact etext [48 + hour] e6

/-! ## C7: every timestamp is read, as the instant it denotes -/

theorem isDigit_cons_zero (c : Nat) (t : GoString) :
    isDigit (c :: t) 0 = (decide (48 ≤ c) && decide (c ≤ 57)) := by
  simp [isDigit]

theorem isDigit_cons_one (a c : Nat) (t : GoString) :
    isDigit (a :: c :: t) 1 = (decide (48 ≤ c) && decide (c ≤ 57)) := by
  simp [isDigit]

theorem getnum_twoDigits (n : Nat) (rest : GoString) (fixed : Bool) (h : n < 100) :
    getnum (twoDigits n ++ rest) fixed = some (n, rest) := by
  unfold getnum twoDigits
  have h0 : isDigit ((48 + n / 10) :: (48 + n % 10) :: rest) 0 = true := by
    rw [isDigit_cons_zero]
    simp only [Bool.and_eq_true, decide_eq_true_eq]
    omega
  have h1 : isDigit ((48 + n / 10) :: (48 + n % 10) :: rest) 1 = true := by
    rw [isDigit_cons_one]
    simp only [Bool.and_eq_true, decide_eq_true_eq]
    omega
  have e : (48 + n / 10 - 48) * 10 + (48 + n % 10 - 48) = n := by omega
  simp only [List.cons_append, List.nil_append, h0, h1, Bool.not_true, Bool.false_eq_true,
    if_false, List.getD_cons_zero, List.getD_cons_succ, List.drop_succ_cons, List.drop_zero, e]

theorem getnum_oneDigit (n : Nat) (rest : GoString) (h : n < 10) :
    getnum ((48 + n) :: 58 :: rest) false = some (n, 58 :: rest) := by
  unfold getnum
  have h0 : isDigit ((48 + n) :: 58 :: rest) 0 = true := by
    rw [isDigit_cons_zero]
    simp only [Bool.and_eq_true, decide_eq_true_eq]
    omega
  have h1 : isDigit ((48 + n) :: 58 :: rest) 1 = false := by
    rw [isDigit_cons_one]
    decide
  have e : 48 + n - 48 = n := by omega
  simp only [h0, h1, Bool.not_true, Bool.not_false, Bool.false_eq_true, if_false, if_true,
    List.getD_cons_zero, List.drop_succ_cons, List.drop_zero, e]

theorem skip_byte (c : Nat) (rest : GoString) : skip (c :: rest) [c] = some rest := by
  simp [skip, List.isPrefixOf]

theorem leadingInt_digits : ∀ (l : GoString) (m x : Nat), (∀ c ∈ l, 48 ≤ c ∧ c ≤ 57) →
    x < 10 ^ m → m + l.length ≤ 17 → ∃ q, leadingInt l x = some (q, []) := by
  intro l
  induction l with
  | nil => intro m x _ _ _; exact ⟨x, rfl⟩
  | cons a t ih =>
    intro m x hall hx hm
    have ha := hall a (List.mem_cons_self _ _)
    have hp : 10 ^ m ≤ 10 ^ 17 := Nat.pow_le_pow_right (by omega) (by omega)
    have hp2 : (10 : Nat) ^ 17 = 100000000000000000 := by norm_num
    rw [leadingInt_digit a t x ha (by omega)]
    refine ih (m + 1) _ (fun c hc => hall c (List.mem_cons_of_mem _ hc)) ?_ ?_
    · rw [pow_succ]
      omega
    · rw [List.length_cons] at hm
      omega

theorem atoi_digits (l : GoString) (hall : ∀ c ∈ l, 48 ≤ c ∧ c ≤ 57) (hl : l.length ≤ 9) :
    ∃ q : Nat, atoi l = some (q : Int) := by
  obtain ⟨q, hq⟩ := leadingInt_digits l 0 0 hall (by norm_num) (by omega)
  refine ⟨q, ?_⟩
  unfold atoi
  have n1 : ¬ (l.head? = some 45) := by
    cases l with
    | nil => simp
    | cons a t =>
      have := hall a (List.mem_cons_self _ _)
      simp only [List.head?_cons, Option.some.injEq]
      omega
  have n2 : ¬ (l.head? = some 43) := by
    cases l with
    | nil => simp
    | cons a t =>
      have := hall a (List.mem_cons_self _ _)
      simp only [List.head?_cons, Option.some.injEq]
      omega
  simp only [n1, n2, or_self, if_false, decide_False, hq, Bool.false_eq_true]

theorem atoi_fourDigits (y : Nat) (h : y ≤ 9999) : atoi (fourDigits y) = some (y : Int) := by
  unfold atoi fourDigits
  have n1 : ¬ (48 + y / 1000 = 45) := by omega
  have n2 : ¬ (48 + y / 1000 = 43) := by omega
  simp only [List.head?_cons, Option.some.injEq, n1, n2, or_self, if_false, decide_False]
  rw [leadingInt_digit _ _ _ (by omega) (by omega), leadingInt_digit _ _ _ (by omega) (by omega),
    leadingInt_digit _ _ _ (by omega) (by omega), leadingInt_digit _ _ _ (by omega) (by omega),
    leadingInt]
  have e : (((0 * 10 + (48 + y / 1000) - 48) * 10 + (48 + y / 100 % 10) - 48) * 10
      + (48 + y / 10 % 10) - 48) * 10 + (48 + y % 10) - 48 = y := by omega
  simp only [e, Bool.false_eq_true, if_false]

theorem takeWhile_append_stop (p : Nat → Bool) (l : GoString) (c : Nat) (t : GoString)
    (hall : l.all p = true) (hc : p c = false) : (l ++ c :: t).takeWhile p = l := by
  induction l with
  | nil => simp [List.takeWhile, hc]
  | cons a u ih =>
    simp only [List.all_cons, Bool.and_eq_true] at hall
    simp only [List.cons_append, List.takeWhile_cons, hall.1, if_true, ih hall.2]

theorem Zone_text_head (z : Zone) :
    ∃ c t, z.text = c :: t ∧ isDigitByte c = false ∧ commaOrPeriod c = false := by
  cases z with
  | utc => exact ⟨90, [], rfl, by decide, by decide⟩
  | offset negative hours minutes =>
    cases negative
    · exact ⟨43, _, rfl, by decide, by decide⟩
    · exact ⟨45, _, rfl, by decide, by decide⟩

theorem fraction_text (frac ztext : GoString) (hf : isFraction frac = true)
    (hz : ∃ c t, ztext = c :: t ∧ isDigitByte c = false ∧ commaOrPeriod c = false) :
    ∃ ns, (if decide ((frac ++ ztext).length ≥ 2) && commaOrPeriod ((frac ++ ztext).getD 0 0)
              && isDigit (frac ++ ztext) 1
          then (parseNanoseconds (frac ++ ztext) (fracLen (frac ++ ztext))).map
                (fun ns => (ns, (frac ++ ztext).drop (fracLen (frac ++ ztext))))
          else some (0, frac ++ ztext)) = some (ns, ztext) := by
  obtain ⟨c, t, rfl, hcd, hcs⟩ := hz
  match frac, hf with
  | [], _ =>
    refine ⟨0, ?_⟩
    simp only [List.nil_append, List.getD_cons_zero, hcs, Bool.and_false, Bool.false_and,
      Bool.false_eq_true, if_false]
  | [_], hf => simp [isFraction] at hf
  | sep :: d :: ds, hf =>
    simp only [isFraction, List.isEmpty_cons, Bool.not_false, Bool.and_true, List.all_cons,
      Bool.and_eq_true] at hf
    obtain ⟨hsep, hd, hds⟩ := hf
    have hd2 : 48 ≤ d ∧ d ≤ 57 := by
      simpa [isDigitByte] using hd
    have hcond : (decide ((sep :: d :: ds ++ c :: t).length ≥ 2)
        && commaOrPeriod ((sep :: d :: ds ++ c :: t).getD 0 0)
        && isDigit (sep :: d :: ds ++ c :: t) 1) = true := by
      simp only [List.cons_append, isDigit_cons_one, List.getD_cons_zero, hsep,
        List.length_cons, Bool.and_eq_true, decide_eq_true_eq, Bool.true_and, and_true]
      omega
    have hlen : fracLen (sep :: d :: ds ++ c :: t) = 2 + ds.length := by
      unfold fracLen
      simp only [List.cons_append, List.drop_succ_cons, List.drop_zero]
      rw [takeWhile_append_stop (fun c => decide (48 ≤ c) && decide (c ≤ 57)) ds c t hds hcd]
    have hdrop : (sep :: d :: ds ++ c :: t).drop (2 + ds.length) = c :: t := by
      rw [show 2 + ds.length = (sep :: d :: ds).length by simp; omega]
      exact List.drop_left _ _
    rw [if_pos hcond, hlen, hdrop]
    unfold parseNanoseconds
    have hsep2 : commaOrPeriod ((sep :: d :: ds ++ c :: t).getD 0 0) = true := hsep
    simp only [hsep2, Bool.not_true, Bool.false_eq_true, if_false]
    have hdig : ∀ x ∈ d :: ds, 48 ≤ x ∧ x ≤ 57 := by
      intro x hx
      rcases List.mem_cons.1 hx with rfl | hx
      · exact hd2
      · have := List.all_eq_true.1 hds x hx
        simpa [isDigitByte] using this
    generalize hk : (if 2 + ds.length > 10 then 10 else 2 + ds.length) = k
    have hk1 : k ≤ 10 ∧ k ≤ 2 + ds.length := by
      split_ifs at hk <;> omega
    have etake : ((sep :: d :: ds ++ c :: t).take k).drop 1 = (d :: ds).take (k - 1) := by
      have e1 : sep :: d :: ds ++ c :: t = (sep :: d :: ds) ++ c :: t := rfl
      rw [e1, List.take_append_of_le_length (by simp; omega)]
      cases k with
      | zero => rfl
      | succ j => simp
    rw [etake]
    obtain ⟨q, hq⟩ := atoi_digits ((d :: ds).take (k - 1))
      (fun x hx => hdig x (List.mem_of_mem_take hx))
      (by rw [List.length_take]; omega)
    rw [hq]
    have hn : ¬ ((q : Int) < 0) := by omega
    simp only [hn, if_false, Option.map_some']
    exact ⟨_, rfl⟩

theorem zone_text (z : Zone) (hz : z.valid) :
    (if z.text.head? = some 90 then some ((0 : Int), z.text.drop 1) else parseColonTZ z.text)
      = some (z.seconds, []) := by
  cases z with
  | utc => rfl
  | offset negative hours minutes =>
    obtain ⟨h1, h2⟩ := hz
    have etext : (Zone.offset negative hours minutes).text
        = (if negative then 45 else 43) :: (twoDigits hours ++ 58 :: twoDigits minutes) := by
      cases negative <;> rfl
    rw [etext]
    have hne : ¬ ((if negative then 45 else 43 : Nat) = 90) := by
      cases negative <;> decide
    simp only [List.head?_cons, Option.some.injEq, hne, if_false]
    unfold parseColonTZ
    have g1 : getnum ((((if negative then 45 else 43) ::
        (twoDigits hours ++ 58 :: twoDigits minutes)).take 3).drop 1) true
        = some (hours, []) := by
      have := getnum_twoDigits hours [] true (by omega)
      simpa [twoDigits] using this
    have g2 : getnum ((((if negative then 45 else 43) ::
        (twoDigits hours ++ 58 :: twoDigits minutes)).take 6).drop 4) true
        = some (minutes, []) := by
      have := getnum_twoDigits minutes [] true (by omega)
      simpa [twoDigits] using this
    rw [g1, g2]
    have c1 : ¬ (hours > 24) := by omega
    have c2 : ¬ (minutes > 60) := by omega
    cases negative <;>
      simp [twoDigits, c1, c2, Zone.seconds]

theorem daysIn_le (m : Nat) (year : Int) : daysIn m year ≤ 31 := by
  unfold daysIn daysBefore
  split_ifs
  · omega
  · by_cases hm : m ≤ 13
    · interval_cases m <;> simp
    · have e1 : [0, 31, 59, 90, 120, 151, 181, 212, 243, 273, 304, 334, 365].getD m 0 = 0 := by
        apply List.getD_eq_default
        simp only [List.length_cons, List.length_nil]
        omega
      rw [e1]
      omega

theorem parseLayout_text (st : Stamp) (hv : st.valid) :
    ∃ ns, parseLayout st.text
      = some ⟨st.year, st.month, st.day, st.hour, st.min, st.sec, ns, st.zone.seconds⟩ := by
  obtain ⟨hy, ⟨hm1, hm2, hd1, hd2, hh, hmi, hs⟩, hshort, hfrac, hzone⟩ := hv
  have hd3 := daysIn_le st.month st.year
  obtain ⟨ns, hns⟩ := fraction_text st.frac st.zone.text hfrac (Zone_text_head st.zone)
  have hz := zone_text st.zone hzone
  refine ⟨ns, ?_⟩
  have etext : st.text = fourDigits st.year ++ (45 :: (twoDigits st.month ++ (45 ::
      (twoDigits st.day ++ (84 :: ((if st.shortHour then [48 + st.hour] else twoDigits st.hour)
        ++ (58 :: (twoDigits st.min ++ (58 :: (twoDigits st.sec
          ++ (st.frac ++ st.zone.text))))))))))) := by
    unfold Stamp.text
    simp only [List.append_assoc]
    rfl
  rw [etext]
  generalize st.frac ++ st.zone.text = tail at hns
  generalize st.zone.text = ztext at hns hz
  have f0 : ∀ rest, (decide ((fourDigits st.year ++ rest).length < 4)
      || !isDigit (fourDigits st.year ++ rest) 0) = false := by
    intro rest
    unfold fourDigits
    simp only [List.cons_append, List.nil_append, isDigit_cons_zero, List.length_cons,
      Bool.or_eq_false_iff, decide_eq_false_iff_not, Bool.not_eq_false', Bool.and_eq_true,
      decide_eq_true_eq]
    omega
  have f1 : ∀ rest, (fourDigits st.year ++ rest).take 4 = fourDigits st.year := by
    intro rest
    rfl
  have f2 : ∀ rest, (fourDigits st.year ++ rest).drop 4 = rest := by
    intro rest
    rfl
  have f3 := atoi_fourDigits st.year hy
  have f4 : ∀ rest, getnum ((if st.shortHour then [48 + st.hour] else twoDigits st.hour)
      ++ 58 :: rest) false = some (st.hour, 58 :: rest) := by
    intro rest
    cases hsh : st.shortHour
    · exact getnum_twoDigits _ _ _ (by omega)
    · exact getnum_oneDigit _ _ (hshort hsh)
  have s45 : str "-" = [45] := rfl
  have s84 : str "T" = [84] := rfl
  have s58 : str ":" = [58] := rfl
  have cm : (decide (st.month ≤ 0) || decide (12 < st.month)) = false := by
    simp only [Bool.or_eq_false_iff, decide_eq_false_iff_not]
    omega
  have ch : ¬ (24 ≤ st.hour) := by omega
  have cmi : ¬ (60 ≤ st.min) := by omega
  have cs : ¬ (60 ≤ st.sec) := by omega
  unfold parseLayout
  simp only [f0, f1, f2, f3, s45, s84, s58, skip_byte,
    getnum_twoDigits st.month _ true (by omega), getnum_twoDigits st.day _ true (by omega),
    f4, getnum_twoDigits st.min _ true (by omega), getnum_twoDigits st.sec _ true (by omega),
    cm, ch, cmi, cs, Bool.false_eq_true, if_false, hns, hz, List.length_nil, ne_eq,
    not_true_eq_false]

theorem timeParseRFC3339_text (st : Stamp) (hv : st.valid) :
    ∃ ns, timeParseRFC3339 st.text = some ⟨st.unixSec, ns⟩ := by
  obtain ⟨ns, hns⟩ := parseLayout_text st hv
  refine ⟨ns, ?_⟩
  obtain ⟨hy, ⟨hm1, hm2, hd1, hd2, hh, hmi, hs⟩, hshort, hfrac, hzone⟩ := hv
  unfold timeParseRFC3339
  rw [hns]
  have c : (decide (st.day < 1) || decide (st.day > daysIn st.month (st.year : Int))) = false := by
    simp only [Bool.or_eq_false_iff, decide_eq_false_iff_not]
    omega
  simp only [c, Bool.false_eq_true, if_false]
  rfl

theorem timeParseRFC3339_inv (s : GoString) (t : Time) (h : timeParseRFC3339 s = some t) :
    ∃ st : Stamp, st.valid ∧ s = st.text ∧ t.unixSec = st.unixSec := by
  unfold timeParseRFC3339 at h
  split at h
  · simp at h
  rename_i p hp
  split at h
  · simp at h
  rename_i hday
  simp only [Option.some.injEq] at h
  subst h
  obtain ⟨st, e, ey, em, ed, eh, emi, es, ez, hy, hm1, hm2, hh, hmi, hs, hshort, hfrac, hzone⟩ :=
    parseLayout_inv s p hp
  simp only [Bool.or_eq_true, decide_eq_true_eq, not_or, not_lt] at hday
  rw [ey, em, ed] at hday
  refine ⟨st, ⟨hy, ⟨hm1, hm2, by omega, by omega, hh, hmi, hs⟩, hshort, hfrac, hzone⟩, e, ?_⟩
  unfold Stamp.unixSec
  rw [← ey, ← em, ← ed, ← eh, ← emi, ← es, ← ez]

/-- C7, as the code has it: let `s` be the text of a timestamp (`Stamp.text` of a
`Stamp` that is `valid`: year `0000` to `9999`, a date of the calendar, a time of day,
an optional fractional second, and the zone `Z` or a signed offset) or, which gives
the same strings, let `time.Parse(time.RFC3339, s)` succeed. Then `s` is the text of a valid
timestamp `st`; `time.Parse` returns the instant that `st` denotes (its local time
read as UTC, less the offset of its zone); and `formatBuildTime s` is the date and
time of day of that instant plus 8 hours (valid calendar fields `Y M D hh mm ss` with
`Date Y M D hh mm ss` equal to the instant plus `8*60*60`), written as year
(zero-padded to four digits), `-`, month, `-`, day, blank, hour, `:`, minute, `:`,
second, each with two digits, and ` CST`. The year is written with exactly four
digits when it is from 0 to 9999. -/
theorem formatBuildTime_timestamp (s : GoString)
    (h : (∃ st : Stamp, st.valid ∧ s = st.text) ∨ (timeParseRFC3339 s).isSome = true) :
    ∃ st : Stamp, st.valid ∧ s = st.text
      ∧ (∃ nsec, timeParseRFC3339 s = some ⟨st.unixSec, nsec⟩)
      ∧ ∃ (Y : Int) (M D hh mm ss : Nat),
          validCivil Y M D hh mm ss
            ∧ Date Y M D hh mm ss = st.unixSec + 8 * 60 * 60
            ∧ formatBuildTime s =
                appendInt Y 4 ++ str "-" ++ twoDigits M ++ str "-" ++ twoDigits D ++ str " "
                  ++ twoDigits hh ++ str ":" ++ twoDigits mm ++ str ":" ++ twoDigits ss
                  ++ str " CST"
            ∧ (0 ≤ Y → Y ≤ 9999 → appendInt Y 4 = fourDigits Y.toNat) := by
  have hst : ∃ st : Stamp, st.valid ∧ s = st.text := by
    rcases h with h | h
    · exact h
    · obtain ⟨t, ht⟩ := Option.isSome_iff_exists.1 h
      obtain ⟨st, hv, e, _⟩ := timeParseRFC3339_inv s t ht
      exact ⟨st, hv, e⟩
  obtain ⟨st, hv, rfl⟩ := hst
  obtain ⟨nsec, hp⟩ := timeParseRFC3339_text st hv
  exact ⟨st, hv, rfl, ⟨nsec, hp⟩, formatBuildTime_of_parsed st.text ⟨st.unixSec, nsec⟩ hp⟩

theorem stampZ_valid : stampZ.valid :=
  ⟨by decide, ⟨by decide, by decide, by decide, by decide, by decide, by decide, by decide⟩,
    by decide, by decide, trivial⟩

set_option maxRecDepth 100000 in
/-- C7, witness: the two inputs of `TestFormatBuildTime` that parse. The first is the
text of the timestamp `stampZ`, which denotes the Unix time 1733567400. -/
theorem formatBuildTime_timestamp_witness :
    ((∃ st : Stamp, st.valid ∧ str "2024-12-07T10:30:00Z" = st.text)
        ∨ (timeParseRFC3339 (str "2024-12-07T10:30:00Z")).isSome = true)
      ∧ (∃ st : Stamp, st.valid ∧ str "2024-12-07T10:30:00Z" = st.text
          ∧ (∃ nsec, timeParseRFC3339 (str "2024-12-07T10:30:00Z") = some ⟨st.unixSec, nsec⟩)
          ∧ ∃ (Y : Int) (M D hh mm ss : Nat),
              validCivil Y M D hh mm ss
                ∧ Date Y M D hh mm ss = st.unixSec + 8 * 60 * 60
                ∧ formatBuildTime (str "2024-12-07T10:30:00Z") =
                    appendInt Y 4 ++ str "-" ++ twoDigits M ++ str "-" ++ twoDigits D
                      ++ str " " ++ twoDigits hh ++ str ":" ++ twoDigits mm ++ str ":"
                      ++ twoDigits ss ++ str " CST"
                ∧ (0 ≤ Y → Y ≤ 9999 → appendInt Y 4 = fourDigits Y.toNat))
      ∧ stampZ.text = str "2024-12-07T10:30:00Z"
      ∧ stampZ.unixSec = 1733567400
      ∧ timeParseRFC3339 (str "2024-12-07T10:30:00Z") = some ⟨1733567400, 0⟩
      ∧ formatBuildTime (str "2024-12-07T10:30:00Z") = str "2024-12-07 18:30:00 CST"
      ∧ stampOffset.text = str "2024-01-15T08:00:00+00:00"
      ∧ formatBuildTime (str "2024-01-15T08:00:00+00:00") = str "2024-01-15 16:00:00 CST" :=
  ⟨Or.inr (by decide),
    formatBuildTime_timestamp (str "2024-12-07T10:30:00Z")
      (Or.inl ⟨stampZ, stampZ_valid, by decide⟩),
    by decide, by decide, by decide, by decide, by decide, by decide⟩

set_option maxRecDepth 100000 in
/-- C7, counterexample: `9999-12-31T23:59:59Z` parses as an RFC 3339 timestamp; its
instant at UTC+8 lies in the year 10000, and `formatBuildTime` writes that year with
five digits, so that the result has 24 bytes and not the 23 of
`YYYY-MM-DD HH:MM:SS CST`. -/
theorem formatBuildTime_five_digit_year :
    timeParseRFC3339 (str "9999-12-31T23:59:59Z") = some ⟨253402300799, 0⟩
      ∧ formatBuildTime (str "9999-12-31T23:59:59Z") = str "10000-01-01 07:59:59 CST"
      ∧ (formatBuildTime (str "9999-12-31T23:59:59Z")).length = 24
      ∧ (str "YYYY-MM-DD HH:MM:SS CST").length = 23 := by
  decide

/-! ## The trimming loops run to the end -/

theorem leadingSpace_spec (s e : GoString) (h : leadingSpace s = some e) :
    e ≠ [] ∧ ∃ t, s = e ++ t := by
  have hmem : e ∈ spaceEncodings := List.mem_of_find?_eq_some h
  have hpre : e.isPrefixOf s = true := by
    have := List.find?_some h
    simpa using this
  rw [List.isPrefixOf_iff_prefix] at hpre
  obtain ⟨t, rfl⟩ := hpre
  exact ⟨spaceEncodings_ne_nil e hmem, t, rfl⟩

/-- After `s.length` rounds no white space is left at the front: the fuel of
`TrimLeftSpace` is enough. -/
theorem trimLeftLoop_trimmed :
    ∀ (n : Nat) (s : GoString), s.length ≤ n → leadingSpace (trimLeftLoop n s) = none := by
  intro n
  induction n with
  | zero =>
    intro s h
    have : s = [] := List.length_eq_zero.mp (by omega)
    subst this
    decide
  | succ n ih =>
    intro s h
    unfold trimLeftLoop
    cases hls : leadingSpace s with
    | none => simpa using hls
    | some e =>
      simp only
      obtain ⟨hne, t, rfl⟩ := leadingSpace_spec s e hls
      apply ih
      have : 0 < e.length := List.length_pos.mpr hne
      simp only [List.length_append] at h
      simp only [List.drop_left]
      omega

theorem trailingSpace_spec (s e : GoString) (h : trailingSpace s = some e) :
    e ≠ [] ∧ ∃ t, s = t ++ e := by
  have hmem : e ∈ spaceEncodings := List.mem_of_find?_eq_some h
  have hsuf : e.isSuffixOf s = true := by
    have := List.find?_some h
    simpa using this
  rw [List.isSuffixOf_iff_suffix] at hsuf
  obtain ⟨t, rfl⟩ := hsuf
  exact ⟨spaceEncodings_ne_nil e hmem, t, rfl⟩

/-- After `s.length` rounds no white space is left at the end: the fuel of
`TrimRightSpace` is enough. -/
theorem trimRightLoop_trimmed :
    ∀ (n : Nat) (s : GoString), s.length ≤ n → trailingSpace (trimRightLoop n s) = none := by
  intro n
  induction n with
  | zero =>
    intro s h
    have : s = [] := List.length_eq_zero.mp (by omega)
    subst this
    decide
  | succ n ih =>
    intro s h
    unfold trimRightLoop
    cases hls : trailingSpace s with
    | none => simpa using hls
    | some e =>
      simp only
      obtain ⟨hne, t, rfl⟩ := trailingSpace_spec s e hls
      apply ih
      have : 0 < e.length := List.length_pos.mpr hne
      simp only [List.length_append] at h
      simp only [List.length_append, Nat.add_sub_cancel, List.take_left, List.length_take]
      omega

/-! ## C8: input that does not parse -/

/-- C8: when `time.Parse(time.RFC3339, s)` returns an error, `formatBuildTime`
returns `s` itself (its only result is a string, it has no error result). -/
theorem formatBuildTime_of_parse_error (s : GoString) (h : timeParseRFC3339 s = none) :
    formatBuildTime s = s := by
  unfold formatBuildTime
  rw [h]

/-- C8, witness: `"not-a-time"` and the empty string. -/
theorem formatBuildTime_of_parse_error_witness :
    formatBuildTime (str "not-a-time") = str "not-a-time" ∧ formatBuildTime (str "") = str "" :=
  ⟨formatBuildTime_of_parse_error (str "not-a-time") (by decide),
    formatBuildTime_of_parse_error (str "") (by decide)⟩

/-! ## C9: the JSON text -/

set_option maxRecDepth 100000 in
/-- The text of `PrintVersionJSON` for the state of `TestPrintVersionJSON` parses,
and gives the six fields. -/
theorem PrintVersionJSON_testState :
    jsonUnmarshal (PrintVersionJSON testState) =
      some [(str "appRawName", str "myapp"), (str "appProject", str "251207-myapp"),
        (str "appVersion", str "v1.0.0"), (str "gitCommit", str "abc1234"),
        (str "buildTime", str "2024-12-07 18:30:00 CST"),
        (str "developer", str "http://github.com/testuser")] := by
  decide

set_option maxRecDepth 100000 in
/-- C9, failing input: with `AppVersion` set to `v1"0` (a double quote inside) the
text that `PrintVersionJSON` writes holds the line `"appVersion": "v1"0",` and is
not JSON: unmarshalling it is an error. -/
theorem PrintVersionJSON_quote_not_json :
    PrintVersionJSON { testState with AppVersion := str "v1\"0" } =
        str ("\x7b\n  \"appRawName\": \"myapp\",\n  \"appProject\": \"251207-myapp\",\n"
          ++ "  \"appVersion\": \"v1\"0\",\n  \"gitCommit\": \"abc1234\",\n"
          ++ "  \"buildTime\": \"2024-12-07 18:30:00 CST\",\n"
          ++ "  \"developer\": \"http://github.com/testuser\"\n\x7d\n")
      ∧ jsonUnmarshal (PrintVersionJSON { testState with AppVersion := str "v1\"0" }) = none := by
  decide

/-! ## C10: the action of the command -/

/-- C10: `action` writes the text of `PrintVersionJSON` when the flag `json` is
set (whatever `short` is), else `GetVersion()` followed by one newline when the
flag `short` is set, else the text of `PrintBuildInfo`; it returns no error. -/
theorem action_output (c : GoString → Bool) (goVersion : GoString) (st : State) :
    (c (str "json") = true → (action c goVersion st).1 = PrintVersionJSON st)
      ∧ (c (str "json") = false → c (str "short") = true →
          (action c goVersion st).1 = GetVersion st ++ [10])
      ∧ (c (str "json") = false → c (str "short") = false →
          (action c goVersion st).1 = PrintBuildInfo goVersion st)
      ∧ (action c goVersion st).2 = none := by
  refine ⟨fun hj => ?_, fun hj hs => ?_, fun hj hs => ?_, rfl⟩
  · simp [action, hj]
  · simp only [action, hj, hs, if_true, if_false, Bool.false_eq_true]
    rfl
  · simp [action, hj, hs]

/-- C10, witness: both flags set, only `short` set, and none set, in the state of
`TestAction`. -/
theorem action_output_witness :
    (action (fun _ => true) (str "go1.22") testState).1 = PrintVersionJSON testState
      ∧ (action (fun f => f == str "short") (str "go1.22") testState).1 = str "v1.0.0\n"
      ∧ (action (fun _ => false) (str "go1.22") testState).1
          = PrintBuildInfo (str "go1.22") testState
      ∧ (action (fun _ => false) (str "go1.22") testState).2 = none :=
  ⟨(action_output (fun _ => true) (str "go1.22") testState).1 rfl,
    ((action_output (fun f => f == str "short") (str "go1.22") testState).2.1
      (by decide) (by decide)).trans (by decide),
    (action_output (fun _ => false) (str "go1.22") testState).2.2.1 rfl rfl,
    (action_output (fun _ => false) (str "go1.22") testState).2.2.2⟩

/-! ## `initFromBuildInfo` field by field -/

theorem applySetting_eq (st : State) (s : BuildSetting) :
    applySetting st s =
      { st with GitCommit := stepCommit st.GitCommit s,
                BuildTime := stepBuildTime st.BuildTime s } := by
  have n1 : ¬ str "vcs.revision" = str "vcs.modified" := by decide
  have n2 : ¬ str "vcs.time" = str "vcs.modified" := by decide
  have n3 : ¬ str "vcs.time" = str "vcs.revision" := by decide
  have n4 : ¬ str "vcs.modified" = str "vcs.revision" := by decide
  have n5 : ¬ str "vcs.modified" = str "vcs.time" := by decide
  have n6 : ¬ str "vcs.revision" = str "vcs.time" := by decide
  unfold applySetting stepCommit stepBuildTime truncRevision dirty
  by_cases k1 : s.Key = str "vcs.revision"
  · simp only [k1, n1, n6, if_true, if_false]
    split_ifs <;> rfl
  · by_cases k2 : s.Key = str "vcs.time"
    · simp only [k2, n2, n3, if_true, if_false]
      split_ifs <;> rfl
    · by_cases k3 : s.Key = str "vcs.modified"
      · simp only [k3, n4, n5, if_true, if_false]
        split_ifs <;> rfl
      · simp only [k1, k2, k3, if_false]

theorem foldl_applySetting_eq (l : List BuildSetting) : ∀ st : State,
    l.foldl applySetting st =
      { st with GitCommit := l.foldl stepCommit st.GitCommit,
                BuildTime := l.foldl stepBuildTime st.BuildTime } := by
  induction l with
  | nil => intro st; rfl
  | cons s l ih =>
    intro st
    simp only [List.foldl_cons]
    rw [ih, applySetting_eq]

theorem State.eq_of_fields (a b : State) (h1 : a.AppRawName = b.AppRawName)
    (h2 : a.AppProject = b.AppProject) (h3 : a.AppVersion = b.AppVersion)
    (h4 : a.GitCommit = b.GitCommit) (h5 : a.BuildTime = b.BuildTime)
    (h6 : a.Developer = b.Developer) : a = b := by
  cases a
  cases b
  simp only [State.mk.injEq]
  exact ⟨h1, h2, h3, h4, h5, h6⟩

theorem fromModulePath_AppProject (info : BuildInfo) (st : State) :
    (fromModulePath info st).AppProject = resolveProject info st.AppProject := by
  unfold fromModulePath resolveProject
  dsimp only
  by_cases hp : info.Main.Path = []
  · simp [hp]
  · have hb : (info.Main.Path != []) = true := by simpa using hp
    cases hk : isKnown st.AppProject <;> simp only [hb, hk, if_true, Bool.not_false,
      Bool.not_true, Bool.false_eq_true, if_false, Bool.true_and, Bool.and_false,
      Bool.and_true] <;> split_ifs <;> rfl

theorem fromModulePath_Developer (info : BuildInfo) (st : State) :
    (fromModulePath info st).Developer = resolveDeveloper info st.Developer := by
  unfold fromModulePath resolveDeveloper
  dsimp only
  by_cases hp : info.Main.Path = []
  · simp [hp]
  · have hb : (info.Main.Path != []) = true := by simpa using hp
    cases hk : isKnown st.AppProject <;> cases hd : isKnown st.Developer <;>
      simp only [hb, hk, hd, if_true, Bool.not_false, Bool.not_true, Bool.false_eq_true,
        if_false, Bool.true_and, Bool.false_and, Bool.and_false, Bool.and_true] <;>
      split_ifs <;> rfl

theorem fromModuleVersion_AppVersion (info : BuildInfo) (st : State) :
    (fromModuleVersion info st).AppVersion = resolveVersion info st.AppVersion := by
  unfold fromModuleVersion resolveVersion
  split_ifs <;> rfl

theorem fromProject_AppRawName (st : State) :
    (fromProject st).AppRawName = resolveRawName st.AppProject st.AppRawName := by
  unfold fromProject resolveRawName
  split_ifs <;> rfl

/-- The six fields after `initFromBuildInfo`, each as a function of what it was
before. -/
theorem initFromBuildInfo_some (info : BuildInfo) (st : State) :
    initFromBuildInfo (some info) st =
      { AppRawName := resolveRawName (resolveProject info st.AppProject) st.AppRawName,
        AppProject := resolveProject info st.AppProject,
        AppVersion := resolveVersion info st.AppVersion,
        GitCommit := info.Settings.foldl stepCommit st.GitCommit,
        BuildTime := info.Settings.foldl stepBuildTime st.BuildTime,
        Developer := resolveDeveloper info st.Developer } := by
  simp only [initFromBuildInfo]
  obtain ⟨p1, p2, p3, p4⟩ := fromModulePath_frame info st
  obtain ⟨v1, v2, v3, v4, v5⟩ := fromModuleVersion_frame info (fromModulePath info st)
  obtain ⟨r2, r3, r4, r5, r6⟩ :=
    fromProject_frame
      (info.Settings.foldl applySetting (fromModuleVersion info (fromModulePath info st)))
  have e := foldl_applySetting_eq info.Settings (fromModuleVersion info (fromModulePath info st))
  apply State.eq_of_fields
  · rw [fromProject_AppRawName, e]
    dsimp only
    rw [v2, v1, p1, fromModulePath_AppProject]
  · rw [r2, e]
    dsimp only
    rw [v2, fromModulePath_AppProject]
  · rw [r3, e]
    dsimp only
    rw [fromModuleVersion_AppVersion, p2]
  · rw [r4, e]
    dsimp only
    rw [v3, p3]
  · rw [r5, e]
    dsimp only
    rw [v4, p4]
  · rw [r6, e]
    dsimp only
    rw [v5, fromModulePath_Developer]

/-- Rounds that do nothing can be left out of a fold. -/
theorem foldl_filter_of_noop {α β : Type} (f : α → β → α) (p : β → Bool)
    (h : ∀ a b, p b = false → f a b = a) (l : List β) :
    ∀ a : α, l.foldl f a = (l.filter p).foldl f a := by
  induction l with
  | nil => intro a; rfl
  | cons b l ih =>
    intro a
    cases hb : p b with
    | false => rw [List.filter_cons_of_neg (by simp [hb]), List.foldl_cons, h a b hb, ih]
    | true => rw [List.filter_cons_of_pos hb, List.foldl_cons, List.foldl_cons, ih]

theorem stepCommit_noop (c : GoString) (s : BuildSetting) (h : isCommitKey s = false) :
    stepCommit c s = c := by
  simp only [isCommitKey, isRevisionKey, isModifiedKey, Bool.or_eq_false_iff, beq_eq_false_iff_ne,
    ne_eq] at h
  simp [stepCommit, h.1, h.2]

theorem stepBuildTime_noop (bt : GoString) (s : BuildSetting) (h : isTimeKey s = false) :
    stepBuildTime bt s = bt := by
  simp only [isTimeKey, beq_eq_false_iff_ne, ne_eq] at h
  simp [stepBuildTime, h]

theorem foldl_stepCommit_filter (l : List BuildSetting) (c : GoString) :
    l.foldl stepCommit c = (l.filter isCommitKey).foldl stepCommit c :=
  foldl_filter_of_noop stepCommit isCommitKey stepCommit_noop l c

theorem foldl_stepBuildTime_filter (l : List BuildSetting) (bt : GoString) :
    l.foldl stepBuildTime bt = (l.filter isTimeKey).foldl stepBuildTime bt :=
  foldl_filter_of_noop stepBuildTime isTimeKey stepBuildTime_noop l bt

/-! ## C11: the order of the settings -/

theorem foldl_stepCommit_known (l : List BuildSetting) (c : GoString)
    (h : isKnown c = true) :
    l.foldl stepCommit c =
      if l.any isModifiedTrue && !HasSuffix c dirty then c ++ dirty else c := by
  have e := foldl_applySetting_GitCommit_known l ⟨[], [], [], c, [], []⟩ h
  rw [foldl_applySetting_eq] at e
  exact e

theorem any_eq_of_perm {α : Type} (p : α → Bool) {l₁ l₂ : List α} (h : l₁.Perm l₂) :
    l₁.any p = l₂.any p := by
  rw [Bool.eq_iff_iff]
  simp only [List.any_eq_true]
  constructor
  · rintro ⟨x, hx, hp⟩
    exact ⟨x, h.mem_iff.mp hx, hp⟩
  · rintro ⟨x, hx, hp⟩
    exact ⟨x, h.mem_iff.mpr hx, hp⟩

theorem eq_of_perm_of_length_le_one {α : Type} {l₁ l₂ : List α} (h : l₁.Perm l₂)
    (hl : l₁.length ≤ 1) : l₁ = l₂ := by
  match l₁, hl, h with
  | [], _, h => exact h.nil_eq
  | [a], _, h => exact List.singleton_perm.mp h
  | _ :: _ :: _, hl, _ => simp at hl

/-- C11, as the code has it: two settings lists that are permutations of each other
and hold each of the keys `vcs.revision`, `vcs.time`, `vcs.modified` at most once
give the same six fields, provided that `GitCommit` is known beforehand or that the
`vcs.revision` and `vcs.modified` entries stand in the same order in both lists. -/
theorem initFromBuildInfo_perm (st : State) (m : Module) (l₁ l₂ : List BuildSetting)
    (hp : l₁.Perm l₂)
    (_hr : (l₁.filter isRevisionKey).length ≤ 1)
    (ht : (l₁.filter isTimeKey).length ≤ 1)
    (_hm : (l₁.filter isModifiedKey).length ≤ 1)
    (ho : isKnown st.GitCommit = true ∨ l₁.filter isCommitKey = l₂.filter isCommitKey) :
    initFromBuildInfo (some ⟨m, l₁⟩) st = initFromBuildInfo (some ⟨m, l₂⟩) st := by
  rw [initFromBuildInfo_some, initFromBuildInfo_some]
  have hc : l₁.foldl stepCommit st.GitCommit = l₂.foldl stepCommit st.GitCommit := by
    rcases ho with hk | hf
    · rw [foldl_stepCommit_known l₁ _ hk, foldl_stepCommit_known l₂ _ hk,
        any_eq_of_perm isModifiedTrue hp]
    · rw [foldl_stepCommit_filter l₁, foldl_stepCommit_filter l₂, hf]
  have hb : l₁.foldl stepBuildTime st.BuildTime = l₂.foldl stepBuildTime st.BuildTime := by
    rw [foldl_stepBuildTime_filter l₁, foldl_stepBuildTime_filter l₂,
      eq_of_perm_of_length_le_one (hp.filter isTimeKey) ht]
  apply State.eq_of_fields
  · rfl
  · rfl
  · rfl
  · exact hc
  · exact hb
  · rfl

/-- C11, witness: a known commit, the settings of `sampleInfo` and their reverse. -/
theorem initFromBuildInfo_perm_witness :
    initFromBuildInfo (some ⟨sampleInfo.Main, sampleInfo.Settings⟩) testState
      = initFromBuildInfo (some ⟨sampleInfo.Main, sampleInfo.Settings.reverse⟩) testState :=
  initFromBuildInfo_perm testState sampleInfo.Main sampleInfo.Settings
    sampleInfo.Settings.reverse (List.reverse_perm _).symm (by decide) (by decide) (by decide)
    (Or.inl (by decide))

/-- C11, counterexample: from the state in which nothing is set, the settings
`vcs.revision`, `vcs.modified=true` give the commit `0123456-dirty`, and the same
two settings in the other order give `0123456`. -/
theorem initFromBuildInfo_order_matters :
    revisionFirst.Perm modifiedFirst
      ∧ (revisionFirst.filter isRevisionKey).length ≤ 1
      ∧ (revisionFirst.filter isTimeKey).length ≤ 1
      ∧ (revisionFirst.filter isModifiedKey).length ≤ 1
      ∧ (initFromBuildInfo (some ⟨sampleInfo.Main, revisionFirst⟩) unknownState).GitCommit
          = str "0123456-dirty"
      ∧ (initFromBuildInfo (some ⟨sampleInfo.Main, modifiedFirst⟩) unknownState).GitCommit
          = str "0123456"
      ∧ initFromBuildInfo (some ⟨sampleInfo.Main, revisionFirst⟩) unknownState
          ≠ initFromBuildInfo (some ⟨sampleInfo.Main, modifiedFirst⟩) unknownState := by
  refine ⟨List.Perm.swap _ _ _, by decide, by decide, by decide, by decide, by decide, ?_⟩
  decide

/-! ## C12: the project name -/

theorem Split_ne_nil (s : GoString) (sep : Nat) : Split s sep ≠ [] := by
  cases s with
  | nil => simp [Split]
  | cons c t =>
    rw [Split]
    split_ifs
    · simp
    · split <;> simp

theorem Split_of_not_mem (x : GoString) (sep : Nat) (h : sep ∉ x) : Split x sep = [x] := by
  induction x with
  | nil => rfl
  | cons c t ih =>
    have hc : ¬ c = sep := fun e => h (by simp [e])
    have ht : sep ∉ t := fun e => h (List.mem_cons_of_mem _ e)
    rw [Split, if_neg hc, ih ht]

theorem Split_append_sep (sep : Nat) (x : GoString) (h : sep ∉ x) (pre : GoString) :
    Split (pre ++ sep :: x) sep = Split pre sep ++ [x] := by
  induction pre with
  | nil => simp [Split, Split_of_not_mem x sep h]
  | cons c t ih =>
    rw [List.cons_append, Split, Split, ih]
    split_ifs
    · rfl
    · cases hs : Split t sep with
      | nil => exact absurd hs (Split_ne_nil t sep)
      | cons a r => rfl

/-- The text behind the last `/` of a path. -/
theorem afterLastSlash_spec (s : GoString) :
    slash ∉ (s.reverse.takeWhile (fun c => c != slash)).reverse
      ∧ (s = (s.reverse.takeWhile (fun c => c != slash)).reverse
          ∨ ∃ pre, s = pre ++ slash :: (s.reverse.takeWhile (fun c => c != slash)).reverse) := by
  constructor
  · intro hmem
    have := List.mem_takeWhile_imp (List.mem_reverse.mp hmem)
    simp at this
  · have e := List.takeWhile_append_dropWhile (fun c => c != slash) s.reverse
    cases hd : s.reverse.dropWhile (fun c => c != slash) with
    | nil =>
      left
      rw [hd, List.append_nil] at e
      rw [e, List.reverse_reverse]
    | cons d ds =>
      right
      have hnot := List.head?_dropWhile_not (fun c => c != slash) s.reverse
      rw [hd] at hnot
      simp only [List.head?_cons, bne_iff_ne, ne_eq, Bool.not_eq_true, Bool.not_not] at hnot
      have hds : d = slash := by simpa using hnot
      refine ⟨ds.reverse, ?_⟩
      have e2 := congrArg List.reverse e
      rw [List.reverse_reverse, hd, List.reverse_append, List.reverse_cons, hds] at e2
      exact e2.symm.trans (by simp)

/-- For a path that is not empty and does not end in `/`, `path.Base` is the last
element of the path split on `/`. -/
theorem Base_eq_last_of_Split (p : GoString) (hne : p ≠ [])
    (hl : p.getLast? ≠ some slash) : (Split p slash).getLast? = some (Base p) := by
  obtain ⟨c, hc⟩ : ∃ c, p.reverse.head? = some c := by
    cases hr : p.reverse with
    | nil => exact absurd (List.reverse_eq_nil_iff.mp hr) hne
    | cons c t => exact ⟨c, rfl⟩
  have hcs : c ≠ slash := by
    rw [List.head?_reverse] at hc
    intro e
    exact hl (by rw [hc, e])
  obtain ⟨t, ht⟩ : ∃ t, p.reverse = c :: t := by
    cases hr : p.reverse with
    | nil => rw [hr] at hc; simp at hc
    | cons c' t => rw [hr] at hc; simp at hc; exact ⟨t, by rw [hc]⟩
  have hstrip : (p.reverse.dropWhile (fun c => c == slash)).reverse = p := by
    rw [ht, List.dropWhile_cons_of_neg (by simpa using hcs), ← ht, List.reverse_reverse]
  have hx : (p.reverse.takeWhile (fun c => c != slash)).reverse ≠ [] := by
    rw [ht, List.takeWhile_cons_of_pos (by simpa using hcs)]
    simp
  have hB : Base p = (p.reverse.takeWhile (fun c => c != slash)).reverse := by
    unfold Base
    simp only [hne, if_false, hstrip, hx]
  obtain ⟨hno, hdec⟩ := afterLastSlash_spec p
  rw [hB]
  generalize (p.reverse.takeWhile (fun c => c != slash)).reverse = x at *
  rcases hdec with h1 | ⟨pre, h1⟩
  · rw [h1, Split_of_not_mem x slash hno]
    rfl
  · rw [h1, Split_append_sep slash x hno pre, List.getLast?_concat]

/-- C12, as the code has it: when `AppProject` is unknown before
`initFromBuildInfo` runs and the module path `p` is not empty, `AppProject` is
`path.Base(p)` afterwards, which is the last element of `p` split on `/` whenever
`p` does not end in `/`; when `p` is empty, `AppProject` is unchanged. -/
theorem initFromBuildInfo_AppProject (info : BuildInfo) (st : State)
    (h : isKnown st.AppProject = false) :
    (info.Main.Path ≠ [] →
        (initFromBuildInfo (some info) st).AppProject = Base info.Main.Path)
      ∧ (info.Main.Path ≠ [] → info.Main.Path.getLast? ≠ some slash →
          (Split info.Main.Path slash).getLast?
            = some (initFromBuildInfo (some info) st).AppProject)
      ∧ (info.Main.Path = [] →
          (initFromBuildInfo (some info) st).AppProject = st.AppProject) := by
  rw [initFromBuildInfo_some]
  dsimp only
  unfold resolveProject
  refine ⟨fun hp => ?_, fun hp hl => ?_, fun hp => ?_⟩
  · simp [hp, h]
  · have : (info.Main.Path != [] && !isKnown st.AppProject) = true := by simp [hp, h]
    rw [if_pos this]
    exact Base_eq_last_of_Split _ hp hl
  · simp [hp]

/-- C12, witness: the module path of `sampleInfo`. -/
theorem initFromBuildInfo_AppProject_witness :
    (initFromBuildInfo (some sampleInfo) unknownState).AppProject
        = str "251207-go-pkg-version"
      ∧ (Split sampleInfo.Main.Path slash).getLast?
          = some (initFromBuildInfo (some sampleInfo) unknownState).AppProject
      ∧ (initFromBuildInfo (some ⟨⟨[], []⟩, []⟩) unknownState).AppProject
          = unknownState.AppProject := by
  have h1 := initFromBuildInfo_AppProject sampleInfo unknownState (by decide)
  have h2 := initFromBuildInfo_AppProject ⟨⟨[], []⟩, []⟩ unknownState (by decide)
  exact ⟨(h1.1 (by decide)).trans (by decide), h1.2.1 (by decide) (by decide), h2.2.2 rfl⟩

/-- C12, counterexample: with an empty module path the unknown `AppProject` stays
`"Unknown"`, while the last element of the empty path split on `/` is the empty
string; with the module path `a/b/` `AppProject` becomes `b`, while the last element
of the split path is the empty string. -/
theorem initFromBuildInfo_AppProject_not_last :
    isKnown unknownState.AppProject = false
      ∧ (initFromBuildInfo (some ⟨⟨str "", str ""⟩, []⟩) unknownState).AppProject
          = str "Unknown"
      ∧ (Split (str "") slash).getLast? = some (str "")
      ∧ (initFromBuildInfo (some ⟨⟨str "a/b/", str ""⟩, []⟩) unknownState).AppProject
          = str "b"
      ∧ (Split (str "a/b/") slash).getLast? = some (str "") := by
  decide

/-! ## C13: the developer -/

/-- C13: when `Developer` is unknown before `initFromBuildInfo` runs and the
module path split on `/` starts with the two segments `s0`, `s1`, `Developer` is
`http://s0/s1` afterwards; when `Developer` is known before, or the split path has
fewer than two segments, `Developer` is unchanged. -/
theorem initFromBuildInfo_Developer (info : BuildInfo) (st : State) :
    (∀ (s0 s1 : GoString) (rest : List GoString),
        isKnown st.Developer = false → Split info.Main.Path slash = s0 :: s1 :: rest →
        (initFromBuildInfo (some info) st).Developer = str "http://" ++ s0 ++ str "/" ++ s1)
      ∧ (isKnown st.Developer = true ∨ (Split info.Main.Path slash).length < 2 →
          (initFromBuildInfo (some info) st).Developer = st.Developer) := by
  rw [initFromBuildInfo_some]
  dsimp only
  unfold resolveDeveloper
  constructor
  · intro s0 s1 rest hk hs
    have hp : info.Main.Path ≠ [] := by
      intro e
      rw [e] at hs
      simp [Split] at hs
    have hb : (info.Main.Path != []) = true := by simpa using hp
    simp [hb, hk, hs]
  · intro h
    rcases h with hk | hl
    · simp [hk]
    · have : ¬ (Split info.Main.Path slash).length ≥ 2 := by omega
      simp [this]

/-- C13, witness: the module path of `sampleInfo`, with `Developer` unknown and
with `Developer` known. -/
theorem initFromBuildInfo_Developer_witness :
    (initFromBuildInfo (some sampleInfo) unknownState).Developer
        = str "http://github.com/lwmacct"
      ∧ (initFromBuildInfo (some sampleInfo) testState).Developer = testState.Developer :=
  ⟨((initFromBuildInfo_Developer sampleInfo unknownState).1 (str "github.com") (str "lwmacct")
      [str "251207-go-pkg-version"] (by decide) (by decide)).trans (by decide),
    (initFromBuildInfo_Developer sampleInfo testState).2 (Or.inl (by decide))⟩

/-! ## C14: the short revision -/

theorem filter_isCommitKey_of_no_modified (l : List BuildSetting)
    (h : ∀ s ∈ l, s.Key ≠ str "vcs.modified") :
    l.filter isCommitKey = l.filter isRevisionKey := by
  apply List.filter_congr
  intro s hs
  have : isModifiedKey s = false := by
    simp only [isModifiedKey, beq_eq_false_iff_ne, ne_eq]
    exact h s hs
  simp [isCommitKey, this]

/-- C14: when the settings hold exactly one `vcs.revision` entry, with the value
`v` not empty, and no `vcs.modified` entry, and `GitCommit` is unknown before
`initFromBuildInfo` runs, `GitCommit` is afterwards the first 7 bytes of `v` when
`v` is longer than 7 and all of `v` otherwise: a prefix of `v` of length at most
7. -/
theorem initFromBuildInfo_GitCommit_truncated (info : BuildInfo) (st : State) (v : GoString)
    (h1 : info.Settings.filter isRevisionKey = [⟨str "vcs.revision", v⟩])
    (hv : v ≠ [])
    (h3 : ∀ s ∈ info.Settings, s.Key ≠ str "vcs.modified")
    (hk : isKnown st.GitCommit = false) :
    (initFromBuildInfo (some info) st).GitCommit = (if v.length > 7 then v.take 7 else v)
      ∧ (initFromBuildInfo (some info) st).GitCommit <+: v
      ∧ (initFromBuildInfo (some info) st).GitCommit.length ≤ 7 := by
  rw [initFromBuildInfo_some]
  dsimp only
  rw [foldl_stepCommit_filter, filter_isCommitKey_of_no_modified _ h3, h1]
  have e : [(⟨str "vcs.revision", v⟩ : BuildSetting)].foldl stepCommit st.GitCommit
      = if v.length > 7 then v.take 7 else v := by
    simp [stepCommit, truncRevision, hk, hv]
  rw [e]
  split_ifs with hl
  · exact ⟨rfl, List.take_prefix 7 v, by simp⟩
  · exact ⟨rfl, List.prefix_refl v, by omega⟩

/-- C14, witness: the settings of the tool chain for a clean work tree. -/
theorem initFromBuildInfo_GitCommit_truncated_witness :
    (initFromBuildInfo
        (some ⟨sampleInfo.Main,
          [⟨str "vcs", str "git"⟩, ⟨str "vcs.revision", str "0123456789abcdef"⟩,
            ⟨str "vcs.time", str "2024-12-07T10:30:00Z"⟩]⟩) unknownState).GitCommit
      = str "0123456" :=
  ((initFromBuildInfo_GitCommit_truncated
      ⟨sampleInfo.Main,
        [⟨str "vcs", str "git"⟩, ⟨str "vcs.revision", str "0123456789abcdef"⟩,
          ⟨str "vcs.time", str "2024-12-07T10:30:00Z"⟩]⟩ unknownState (str "0123456789abcdef")
      (by decide) (by decide) (by decide) (by decide)).1).trans (by decide)

/-! ## C15: the version -/

/-- C15: when `AppVersion` is unknown before `initFromBuildInfo` runs and the
module version `m` is neither empty nor `"(devel)"`, `AppVersion` is `m` afterwards;
in every other case `AppVersion` is unchanged. -/
theorem initFromBuildInfo_AppVersion (info : BuildInfo) (st : State) :
    (isKnown st.AppVersion = false → info.Main.Version ≠ [] →
        info.Main.Version ≠ str "(devel)" →
        (initFromBuildInfo (some info) st).AppVersion = info.Main.Version)
      ∧ (isKnown st.AppVersion = true ∨ info.Main.Version = []
            ∨ info.Main.Version = str "(devel)" →
          (initFromBuildInfo (some info) st).AppVersion = st.AppVersion) := by
  rw [initFromBuildInfo_some]
  dsimp only
  unfold resolveVersion
  constructor
  · intro hk h1 h2
    simp [hk, h1, h2]
  · intro h
    rcases h with hk | h1 | h2
    · simp [hk]
    · simp [h1]
    · simp [h2]

/-- C15, witness: the module version `v1.2.3` with the version unknown, and the
placeholder `(devel)`. -/
theorem initFromBuildInfo_AppVersion_witness :
    (initFromBuildInfo (some ⟨⟨str "example.com/m", str "v1.2.3"⟩, []⟩) unknownState).AppVersion
        = str "v1.2.3"
      ∧ (initFromBuildInfo (some sampleInfo) unknownState).AppVersion
          = unknownState.AppVersion :=
  ⟨(initFromBuildInfo_AppVersion ⟨⟨str "example.com/m", str "v1.2.3"⟩, []⟩ unknownState).1
      (by decide) (by decide) (by decide),
    (initFromBuildInfo_AppVersion sampleInfo unknownState).2 (Or.inr (Or.inr (by decide)))⟩

/-! ## C16: the raw name -/

/-- C16: after `initFromBuildInfo` has run with a build info, `AppRawName` is the
resolved `AppProject` with the date prefix removed (its first 7 bytes, when these
are digits or hyphens) if `AppRawName` was unknown before and the resolved
`AppProject` is known; if `AppRawName` was known before or the resolved
`AppProject` is unknown, `AppRawName` is unchanged. -/
theorem initFromBuildInfo_AppRawName (info : BuildInfo) (st : State) :
    (isKnown st.AppRawName = false →
        isKnown (initFromBuildInfo (some info) st).AppProject = true →
        (initFromBuildInfo (some info) st).AppRawName
            = datePrefix.ReplaceAllString (initFromBuildInfo (some info) st).AppProject []
          ∧ (initFromBuildInfo (some info) st).AppRawName
            = if hasDatePrefix (initFromBuildInfo (some info) st).AppProject
              then (initFromBuildInfo (some info) st).AppProject.drop 7
              else (initFromBuildInfo (some info) st).AppProject)
      ∧ (isKnown st.AppRawName = true
            ∨ isKnown (initFromBuildInfo (some info) st).AppProject = false →
          (initFromBuildInfo (some info) st).AppRawName = st.AppRawName) := by
  rw [initFromBuildInfo_some]
  dsimp only
  unfold resolveRawName
  constructor
  · intro hk hp
    have e : (!isKnown st.AppRawName && isKnown (resolveProject info st.AppProject)) = true := by
      simp [hk, hp]
    rw [if_pos e]
    exact ⟨rfl, datePrefix_ReplaceAllString_eq _⟩
  · intro h
    rcases h with hk | hp
    · simp [hk]
    · simp [hp]

/-- C16, witness: the project `251207-go-pkg-version` gives the raw name
`go-pkg-version`; a known raw name is kept. -/
theorem initFromBuildInfo_AppRawName_witness :
    (initFromBuildInfo (some sampleInfo) unknownState).AppRawName = str "go-pkg-version"
      ∧ (initFromBuildInfo (some sampleInfo) testState).AppRawName = testState.AppRawName :=
  ⟨(((initFromBuildInfo_AppRawName sampleInfo unknownState).1 (by decide) (by decide)).1).trans
      (by decide),
    (initFromBuildInfo_AppRawName sampleInfo testState).2 (Or.inl (by decide))⟩

/-! ## C18: settings with other keys -/

theorem applySetting_noop (st : State) (s : BuildSetting) (h : isRecognized s = false) :
    applySetting st s = st := by
  simp only [isRecognized, isRevisionKey, isTimeKey, isModifiedKey, Bool.or_eq_false_iff,
    beq_eq_false_iff_ne, ne_eq] at h
  simp [applySetting, h.1.1, h.1.2, h.2]

theorem initFromBuildInfo_filter_recognized (st : State) (m : Module)
    (l : List BuildSetting) :
    initFromBuildInfo (some ⟨m, l⟩) st
      = initFromBuildInfo (some ⟨m, l.filter isRecognized⟩) st := by
  simp only [initFromBuildInfo]
  rw [foldl_filter_of_noop applySetting isRecognized applySetting_noop l]
  rfl

/-- C18: settings whose key is none of `vcs.revision`, `vcs.time`, `vcs.modified`
do not count: two settings lists with the same entries of these three keys, in the
same order, give the same six fields; in particular an entry with another key can be
inserted or removed anywhere, and all such entries can be removed at once. -/
theorem initFromBuildInfo_ignores_unrecognized (st : State) (m : Module) :
    (∀ l l' : List BuildSetting, l.filter isRecognized = l'.filter isRecognized →
        initFromBuildInfo (some ⟨m, l⟩) st = initFromBuildInfo (some ⟨m, l'⟩) st)
      ∧ (∀ (front back : List BuildSetting) (x : BuildSetting),
          x.Key ≠ str "vcs.revision" → x.Key ≠ str "vcs.time" → x.Key ≠ str "vcs.modified" →
          initFromBuildInfo (some ⟨m, front ++ x :: back⟩) st
            = initFromBuildInfo (some ⟨m, front ++ back⟩) st)
      ∧ (∀ l : List BuildSetting,
          initFromBuildInfo (some ⟨m, l⟩) st
            = initFromBuildInfo (some ⟨m, l.filter isRecognized⟩) st) := by
  have key : ∀ l l' : List BuildSetting, l.filter isRecognized = l'.filter isRecognized →
      initFromBuildInfo (some ⟨m, l⟩) st = initFromBuildInfo (some ⟨m, l'⟩) st := by
    intro l l' h
    rw [initFromBuildInfo_filter_recognized st m l, initFromBuildInfo_filter_recognized st m l', h]
  refine ⟨key, ?_, initFromBuildInfo_filter_recognized st m⟩
  intro front back x h1 h2 h3
  apply key
  have hx : isRecognized x = false := by
    simp [isRecognized, isRevisionKey, isTimeKey, isModifiedKey, h1, h2, h3]
  rw [List.filter_append, List.filter_append, List.filter_cons_of_neg (by simp [hx])]

/-- C18, witness: the entry `vcs=git` of `sampleInfo` removed, and an entry
`GOOS=linux` inserted. -/
theorem initFromBuildInfo_ignores_unrecognized_witness :
    initFromBuildInfo (some ⟨sampleInfo.Main, sampleInfo.Settings⟩) unknownState
        = initFromBuildInfo (some ⟨sampleInfo.Main, sampleInfo.Settings.drop 1⟩) unknownState
      ∧ initFromBuildInfo
          (some ⟨sampleInfo.Main, revisionFirst.take 1 ++ ⟨str "GOOS", str "linux"⟩
            :: revisionFirst.drop 1⟩) unknownState
        = initFromBuildInfo
          (some ⟨sampleInfo.Main, revisionFirst.take 1 ++ revisionFirst.drop 1⟩) unknownState :=
  ⟨(initFromBuildInfo_ignores_unrecognized unknownState sampleInfo.Main).1 _ _ (by decide),
    (initFromBuildInfo_ignores_unrecognized unknownState sampleInfo.Main).2.1 _ _ _
      (by decide) (by decide) (by decide)⟩

/-! ## C19: a commit that is known beforehand -/

/-- C19: when `GitCommit` is known before `initFromBuildInfo` runs, with the value
`c`, it is `c ++ "-dirty"` afterwards if the settings hold an entry `vcs.modified`
with the value `"true"` and `c` does not end in `-dirty`, and `c` in every other case;
`c` is always a prefix of the result, no `vcs.revision` entry replaces it. -/
theorem initFromBuildInfo_GitCommit_known (info : BuildInfo) (st : State)
    (h : isKnown st.GitCommit = true) :
    ((∃ s ∈ info.Settings, s.Key = str "vcs.modified" ∧ s.Value = str "true")
          ∧ HasSuffix st.GitCommit (str "-dirty") = false →
        (initFromBuildInfo (some info) st).GitCommit = st.GitCommit ++ str "-dirty")
      ∧ (¬ ((∃ s ∈ info.Settings, s.Key = str "vcs.modified" ∧ s.Value = str "true")
            ∧ HasSuffix st.GitCommit (str "-dirty") = false) →
          (initFromBuildInfo (some info) st).GitCommit = st.GitCommit)
      ∧ st.GitCommit <+: (initFromBuildInfo (some info) st).GitCommit := by
  rw [initFromBuildInfo_some]
  dsimp only
  rw [foldl_stepCommit_known _ _ h]
  have hany : info.Settings.any isModifiedTrue = true ↔
      ∃ s ∈ info.Settings, s.Key = str "vcs.modified" ∧ s.Value = str "true" := by
    simp [List.any_eq_true, isModifiedTrue]
  refine ⟨fun hc => ?_, fun hc => ?_, ?_⟩
  · have : (info.Settings.any isModifiedTrue && !HasSuffix st.GitCommit dirty) = true := by
      simp only [Bool.and_eq_true, Bool.not_eq_true']
      exact ⟨hany.mpr hc.1, hc.2⟩
    rw [if_pos this]
    rfl
  · have : ¬ (info.Settings.any isModifiedTrue && !HasSuffix st.GitCommit dirty) = true := by
      simp only [Bool.and_eq_true, Bool.not_eq_true']
      intro hh
      exact hc ⟨hany.mp hh.1, hh.2⟩
    rw [if_neg this]
  · split_ifs
    · exact List.prefix_append _ _
    · exact List.prefix_refl _

/-- C19, witness: the commit `abc1234` of `testState` and the settings of
`sampleInfo`, which hold `vcs.modified=true` and a `vcs.revision`. -/
theorem initFromBuildInfo_GitCommit_known_witness :
    (initFromBuildInfo (some sampleInfo) testState).GitCommit = str "abc1234-dirty" :=
  ((initFromBuildInfo_GitCommit_known sampleInfo testState (by decide)).1
    ⟨⟨⟨str "vcs.modified", str "true"⟩, by decide, rfl, rfl⟩, by decide⟩).trans (by decide)

/-! ## C20: running `initFromBuildInfo` again -/

/-- A function that replaces its argument by a constant under a condition, and
keeps it otherwise, does nothing when it is applied again. -/
theorem ite_const_idem {α : Type} (c : α → Bool) (k a : α) :
    (if c (if c a then k else a) then k else (if c a then k else a))
      = (if c a then k else a) := by
  cases h : c a with
  | true =>
    simp only [if_true]
    split_ifs <;> rfl
  | false => simp [h]

theorem resolveProject_idem (info : BuildInfo) (x : GoString) :
    resolveProject info (resolveProject info x) = resolveProject info x :=
  ite_const_idem (fun x => info.Main.Path != [] && !isKnown x) (Base info.Main.Path) x

theorem resolveDeveloper_idem (info : BuildInfo) (x : GoString) :
    resolveDeveloper info (resolveDeveloper info x) = resolveDeveloper info x :=
  ite_const_idem
    (fun x => info.Main.Path != [] && !isKnown x
      && decide ((Split info.Main.Path slash).length ≥ 2))
    (str "http://" ++ (Split info.Main.Path slash).getD 0 [] ++ str "/"
      ++ (Split info.Main.Path slash).getD 1 []) x

theorem resolveVersion_idem (info : BuildInfo) (x : GoString) :
    resolveVersion info (resolveVersion info x) = resolveVersion info x :=
  ite_const_idem
    (fun x => !isKnown x && info.Main.Version != [] && info.Main.Version != str "(devel)")
    info.Main.Version x

theorem resolveRawName_idem (project x : GoString) :
    resolveRawName project (resolveRawName project x) = resolveRawName project x :=
  ite_const_idem (fun x => !isKnown x && isKnown project)
    (datePrefix.ReplaceAllString project []) x

theorem stepBuildTime_idem (bt : GoString) (s : BuildSetting) :
    stepBuildTime (stepBuildTime bt s) s = stepBuildTime bt s := by
  unfold stepBuildTime
  by_cases hk : s.Key = str "vcs.time"
  · simp only [hk, if_true]
    exact ite_const_idem (fun x => !isKnown x && s.Value != []) (formatBuildTime s.Value) bt
  · simp only [hk, if_false]

theorem stepCommit_revision_idem (c : GoString) (s : BuildSetting)
    (hs : isRevisionKey s = true) : stepCommit (stepCommit c s) s = stepCommit c s := by
  have hk : s.Key = str "vcs.revision" := by simpa [isRevisionKey] using hs
  unfold stepCommit
  simp only [hk, if_true]
  exact ite_const_idem (fun x => !isKnown x && s.Value != []) (truncRevision s.Value) c

theorem stepCommit_revision_known (c : GoString) (s : BuildSetting)
    (hs : isRevisionKey s = true) (hc : isKnown c = true) : stepCommit c s = c := by
  have hk : s.Key = str "vcs.revision" := by simpa [isRevisionKey] using hs
  simp [stepCommit, hk, hc]

theorem stepCommit_modified_unknown (c : GoString) (s : BuildSetting)
    (hs : isModifiedKey s = true) (hc : isKnown c = false) : stepCommit c s = c := by
  have hk : s.Key = str "vcs.modified" := by simpa [isModifiedKey] using hs
  have n4 : ¬ str "vcs.modified" = str "vcs.revision" := by decide
  simp [stepCommit, hk, hc, n4]

/-- From a known commit the loop gives a known commit, and running it again changes
nothing. -/
theorem foldl_stepCommit_known_idem (l : List BuildSetting) (c : GoString)
    (h : isKnown c = true) :
    isKnown (l.foldl stepCommit c) = true
      ∧ l.foldl stepCommit (l.foldl stepCommit c) = l.foldl stepCommit c := by
  rw [foldl_stepCommit_known l c h]
  by_cases hc : (l.any isModifiedTrue && !HasSuffix c dirty) = true
  · rw [if_pos hc]
    have hk := isKnown_append_dirty c
    refine ⟨hk, ?_⟩
    rw [foldl_stepCommit_known l _ hk]
    simp [HasSuffix_append_self]
  · rw [if_neg hc]
    refine ⟨h, ?_⟩
    rw [foldl_stepCommit_known l _ h, if_neg hc]

/-- The entries for `GitCommit` in a settings list of the tool chain: none, a
revision, a modified flag, or a revision followed by a modified flag. -/
theorem commit_entries_shape (l : List BuildSetting)
    (hr : (l.filter isRevisionKey).length ≤ 1)
    (hm : (l.filter isModifiedKey).length ≤ 1)
    (ho : l.Pairwise (fun a b => ¬ (isModifiedKey a = true ∧ isRevisionKey b = true))) :
    l.filter isCommitKey = []
      ∨ (∃ r, l.filter isCommitKey = [r] ∧ isRevisionKey r = true)
      ∨ (∃ m, l.filter isCommitKey = [m] ∧ isModifiedKey m = true)
      ∨ (∃ r m, l.filter isCommitKey = [r, m] ∧ isRevisionKey r = true
          ∧ isModifiedKey m = true) := by
  have hall : ∀ s ∈ l.filter isCommitKey, isRevisionKey s = true ∨ isModifiedKey s = true := by
    intro s hs
    have := (List.mem_filter.mp hs).2
    simpa [isCommitKey] using this
  have hr2 : ((l.filter isCommitKey).filter isRevisionKey).length ≤ 1 := by
    rw [List.filter_filter]
    have : (fun a => isRevisionKey a && isCommitKey a) = isRevisionKey := by
      funext a
      simp only [isCommitKey]
      cases isRevisionKey a <;> simp
    rw [this]
    exact hr
  have hm2 : ((l.filter isCommitKey).filter isModifiedKey).length ≤ 1 := by
    rw [List.filter_filter]
    have : (fun a => isModifiedKey a && isCommitKey a) = isModifiedKey := by
      funext a
      simp only [isCommitKey]
      cases isModifiedKey a <;> simp
    rw [this]
    exact hm
  have ho2 := ho.filter isCommitKey
  generalize l.filter isCommitKey = f at hall hr2 hm2 ho2
  match f, hall, hr2, hm2, ho2 with
  | [], _, _, _, _ => exact Or.inl rfl
  | [a], hall, _, _, _ =>
    rcases hall a (by simp) with h | h
    · exact Or.inr (Or.inl ⟨a, rfl, h⟩)
    · exact Or.inr (Or.inr (Or.inl ⟨a, rfl, h⟩))
  | a :: b :: rest, hall, hr2, hm2, ho2 =>
    have ha := hall a (by simp)
    have hb := hall b (by simp)
    have hab : ¬ (isModifiedKey a = true ∧ isRevisionKey b = true) := by
      have := List.rel_of_pairwise_cons ho2 (List.mem_cons_self b rest)
      exact this
    rcases ha with ha | ha <;> rcases hb with hb | hb
    · exfalso
      simp [List.filter_cons, ha, hb] at hr2
    · cases rest with
      | nil => exact Or.inr (Or.inr (Or.inr ⟨a, b, rfl, ha, hb⟩))
      | cons c rest =>
        exfalso
        rcases hall c (by simp) with hc | hc
        · simp [List.filter_cons, ha, hc] at hr2
          split_ifs at hr2
        · simp [List.filter_cons, hb, hc] at hm2
          split_ifs at hm2 <;> simp at hm2
    · exact absurd ⟨ha, hb⟩ hab
    · exfalso
      simp [List.filter_cons, ha, hb] at hm2


theorem foldl_stepCommit_idem (l : List BuildSetting)
    (hr : (l.filter isRevisionKey).length ≤ 1)
    (hm : (l.filter isModifiedKey).length ≤ 1)
    (ho : l.Pairwise (fun a b => ¬ (isModifiedKey a = true ∧ isRevisionKey b = true)))
    (c : GoString) :
    l.foldl stepCommit (l.foldl stepCommit c) = l.foldl stepCommit c := by
  cases hk : isKnown c with
  | true => exact (foldl_stepCommit_known_idem l c hk).2
  | false =>
    rw [foldl_stepCommit_filter l c, foldl_stepCommit_filter l]
    rcases commit_entries_shape l hr hm ho with h | ⟨r, h, hrk⟩ | ⟨m, h, hmk⟩
      | ⟨r, m, h, hrk, hmk⟩
    · rw [h]
      rfl
    · rw [h]
      exact stepCommit_revision_idem c r hrk
    · rw [h]
      simp only [List.foldl_cons, List.foldl_nil]
      rw [stepCommit_modified_unknown c m hmk hk, stepCommit_modified_unknown c m hmk hk]
    · rw [h]
      simp only [List.foldl_cons, List.foldl_nil]
      cases hy : isKnown (stepCommit c r) with
      | true =>
        have := foldl_stepCommit_known_idem [m] (stepCommit c r) hy
        simp only [List.foldl_cons, List.foldl_nil] at this
        rw [stepCommit_revision_known _ r hrk this.1]
        exact this.2
      | false =>
        rw [stepCommit_modified_unknown _ m hmk hy, stepCommit_revision_idem c r hrk,
          stepCommit_modified_unknown _ m hmk hy]

theorem foldl_stepBuildTime_idem (l : List BuildSetting)
    (ht : (l.filter isTimeKey).length ≤ 1) (bt : GoString) :
    l.foldl stepBuildTime (l.foldl stepBuildTime bt) = l.foldl stepBuildTime bt := by
  rw [foldl_stepBuildTime_filter l bt, foldl_stepBuildTime_filter l]
  match hf : l.filter isTimeKey, ht with
  | [], _ => rfl
  | [t], _ => exact stepBuildTime_idem bt t
  | _ :: _ :: _, ht => simp at ht

/-- C20: when the settings hold each of `vcs.revision`, `vcs.time` and
`vcs.modified` at most once and no `vcs.modified` entry stands before a
`vcs.revision` entry, running `initFromBuildInfo` a second time with the same build
info leaves all six fields as they are after the first run. -/
theorem initFromBuildInfo_idempotent (info : BuildInfo) (st : State)
    (hr : (info.Settings.filter isRevisionKey).length ≤ 1)
    (ht : (info.Settings.filter isTimeKey).length ≤ 1)
    (hm : (info.Settings.filter isModifiedKey).length ≤ 1)
    (ho : info.Settings.Pairwise
      (fun a b => ¬ (isModifiedKey a = true ∧ isRevisionKey b = true))) :
    initFromBuildInfo (some info) (initFromBuildInfo (some info) st)
      = initFromBuildInfo (some info) st := by
  rw [initFromBuildInfo_some info st, initFromBuildInfo_some]
  dsimp only
  apply State.eq_of_fields
  · dsimp only
    rw [resolveProject_idem, resolveRawName_idem]
  · exact resolveProject_idem info _
  · exact resolveVersion_idem info _
  · exact foldl_stepCommit_idem _ hr hm ho _
  · exact foldl_stepBuildTime_idem _ ht _
  · exact resolveDeveloper_idem info _

/-- C20, witness: `sampleInfo`, run twice from the state in which nothing is set. -/
theorem initFromBuildInfo_idempotent_witness :
    initFromBuildInfo (some sampleInfo) (initFromBuildInfo (some sampleInfo) unknownState)
      = initFromBuildInfo (some sampleInfo) unknownState :=
  initFromBuildInfo_idempotent sampleInfo unknownState (by decide) (by decide) (by decide)
    (by decide)

/-! ## C17: the form of the resolved fields -/

theorem leadingSpace_none_of_head (b : Nat) (hb : notSpaceByte b = true) (s : GoString)
    (h : s.head? = some b) : leadingSpace s = none := by
  unfold leadingSpace
  rw [List.find?_eq_none]
  intro e hmem hpre
  have hpre : e.isPrefixOf s = true := by simpa using hpre
  rw [List.isPrefixOf_iff_prefix] at hpre
  obtain ⟨t, rfl⟩ := hpre
  have hne := spaceEncodings_ne_nil e hmem
  obtain ⟨a, r, rfl⟩ := List.exists_cons_of_ne_nil hne
  simp only [List.cons_append, List.head?_cons, Option.some.injEq] at h
  exact not_mem_of_notSpaceByte hb hmem (by simp [h])

theorem trimRightLoop_head (b : Nat) (hb : notSpaceByte b = true) :
    ∀ (n : Nat) (s : GoString), s.head? = some b → (trimRightLoop n s).head? = some b := by
  intro n
  induction n with
  | zero => intro s h; simpa [trimRightLoop] using h
  | succ n ih =>
    intro s h
    unfold trimRightLoop
    cases hls : trailingSpace s with
    | none => simpa using h
    | some e =>
      simp only
      apply ih
      have hmem : e ∈ spaceEncodings := List.mem_of_find?_eq_some hls
      obtain ⟨_, t, rfl⟩ := trailingSpace_spec s e hls
      simp only [List.length_append, Nat.add_sub_cancel, List.take_left]
      cases t with
      | nil =>
        exfalso
        rw [List.nil_append] at h
        exact not_mem_of_notSpaceByte hb hmem (List.mem_of_mem_head? h)
      | cons a t =>
        simpa using h

/-- Trimming keeps the first byte of a string when that byte belongs to no white
space. -/
theorem TrimSpace_head (b : Nat) (hb : notSpaceByte b = true) (s : GoString)
    (h : s.head? = some b) : (TrimSpace s).head? = some b := by
  have h1 : TrimLeftSpace s = s := by
    unfold TrimLeftSpace
    cases hn : s.length with
    | zero => rfl
    | succ n =>
      unfold trimLeftLoop
      rw [leadingSpace_none_of_head b hb s h]
  unfold TrimSpace
  rw [h1]
  exact trimRightLoop_head b hb _ s h

/-- The value that the first block stores in `Developer` is a known value. -/
theorem isKnown_http (a b : GoString) :
    isKnown (str "http://" ++ a ++ str "/" ++ b) = true := by
  have h : (str "http://" ++ a ++ str "/" ++ b).head? = some 104 := by
    simp only [List.append_assoc]
    rfl
  have h2 := TrimSpace_head 104 (by decide) _ h
  unfold isKnown
  generalize TrimSpace (str "http://" ++ a ++ str "/" ++ b) = u at h2
  simp only [Bool.and_eq_true, bne_iff_ne, ne_eq]
  constructor
  · rintro rfl; simp at h2
  · rintro rfl; revert h2; decide

theorem stepCommit_cases (c : GoString) (s : BuildSetting) :
    stepCommit c s = c
      ∨ (s.Key = str "vcs.revision" ∧ stepCommit c s = truncRevision s.Value)
      ∨ isKnown (stepCommit c s) = true := by
  unfold stepCommit
  split_ifs with h1 h2 h3 h4
  · exact Or.inr (Or.inl ⟨h1, rfl⟩)
  · exact Or.inl rfl
  · exact Or.inr (Or.inr (isKnown_append_dirty c))
  · exact Or.inl rfl
  · exact Or.inl rfl

theorem foldl_stepCommit_wellFormed (L : List BuildSetting) :
    ∀ (l : List BuildSetting) (c : GoString), (∀ s ∈ l, s ∈ L) →
      (wellFormed c ∨ ∃ s ∈ L, s.Key = str "vcs.revision" ∧ c = truncRevision s.Value) →
      (wellFormed (l.foldl stepCommit c)
        ∨ ∃ s ∈ L, s.Key = str "vcs.revision"
            ∧ l.foldl stepCommit c = truncRevision s.Value) := by
  intro l
  induction l with
  | nil => intro c _ h; exact h
  | cons s l ih =>
    intro c hsub h
    simp only [List.foldl_cons]
    apply ih _ (fun t ht => hsub t (List.mem_cons_of_mem _ ht))
    rcases stepCommit_cases c s with e | ⟨hk, e⟩ | e
    · rw [e]; exact h
    · exact Or.inr ⟨s, hsub s (List.mem_cons_self _ _), hk, e⟩
    · exact Or.inl (Or.inl e)

theorem stepBuildTime_cases (bt : GoString) (s : BuildSetting) :
    stepBuildTime bt s = bt
      ∨ (s.Key = str "vcs.time" ∧ stepBuildTime bt s = formatBuildTime s.Value) := by
  unfold stepBuildTime
  split_ifs with h1 h2
  · exact Or.inr ⟨h1, rfl⟩
  · exact Or.inl rfl
  · exact Or.inl rfl

theorem foldl_stepBuildTime_wellFormed (L : List BuildSetting) :
    ∀ (l : List BuildSetting) (bt : GoString), (∀ s ∈ l, s ∈ L) →
      (wellFormed bt ∨ ∃ s ∈ L, s.Key = str "vcs.time" ∧ bt = formatBuildTime s.Value) →
      (wellFormed (l.foldl stepBuildTime bt)
        ∨ ∃ s ∈ L, s.Key = str "vcs.time"
            ∧ l.foldl stepBuildTime bt = formatBuildTime s.Value) := by
  intro l
  induction l with
  | nil => intro c _ h; exact h
  | cons s l ih =>
    intro c hsub h
    simp only [List.foldl_cons]
    apply ih _ (fun t ht => hsub t (List.mem_cons_of_mem _ ht))
    rcases stepBuildTime_cases c s with e | ⟨hk, e⟩
    · rw [e]; exact h
    · exact Or.inr ⟨s, hsub s (List.mem_cons_self _ _), hk, e⟩

/-- C17, as the code has it: when each of the six fields is known or exactly
`"Unknown"` before `initFromBuildInfo` runs, `Developer` is known or exactly
`"Unknown"` afterwards, and each of the other five fields is known, or exactly
`"Unknown"`, or the value that the function took from the build info and stored
without testing it: `path.Base` of the module path, the module version, the short
form of a `vcs.revision` value, the formatted value of a `vcs.time` entry, the
resolved project with the date prefix removed. -/
theorem initFromBuildInfo_wellFormed (info : Option BuildInfo) (st : State)
    (h1 : wellFormed st.AppRawName) (h2 : wellFormed st.AppProject)
    (h3 : wellFormed st.AppVersion) (h4 : wellFormed st.GitCommit)
    (h5 : wellFormed st.BuildTime) (h6 : wellFormed st.Developer) :
    wellFormed (initFromBuildInfo info st).Developer
      ∧ (wellFormed (initFromBuildInfo info st).AppProject
          ∨ ∃ i, info = some i ∧ (initFromBuildInfo info st).AppProject = Base i.Main.Path)
      ∧ (wellFormed (initFromBuildInfo info st).AppVersion
          ∨ ∃ i, info = some i ∧ (initFromBuildInfo info st).AppVersion = i.Main.Version)
      ∧ (wellFormed (initFromBuildInfo info st).GitCommit
          ∨ ∃ i s, info = some i ∧ s ∈ i.Settings ∧ s.Key = str "vcs.revision"
              ∧ (initFromBuildInfo info st).GitCommit = truncRevision s.Value)
      ∧ (wellFormed (initFromBuildInfo info st).BuildTime
          ∨ ∃ i s, info = some i ∧ s ∈ i.Settings ∧ s.Key = str "vcs.time"
              ∧ (initFromBuildInfo info st).BuildTime = formatBuildTime s.Value)
      ∧ (wellFormed (initFromBuildInfo info st).AppRawName
          ∨ (initFromBuildInfo info st).AppRawName
              = datePrefix.ReplaceAllString (initFromBuildInfo info st).AppProject []) := by
  cases info with
  | none => exact ⟨h6, Or.inl h2, Or.inl h3, Or.inl h4, Or.inl h5, Or.inl h1⟩
  | some i =>
    rw [initFromBuildInfo_some]
    dsimp only
    refine ⟨?_, ?_, ?_, ?_, ?_, ?_⟩
    · unfold resolveDeveloper
      split_ifs
      · exact Or.inl (isKnown_http _ _)
      · exact h6
    · unfold resolveProject
      split_ifs
      · exact Or.inr ⟨i, rfl, rfl⟩
      · exact Or.inl h2
    · unfold resolveVersion
      split_ifs
      · exact Or.inr ⟨i, rfl, rfl⟩
      · exact Or.inl h3
    · rcases foldl_stepCommit_wellFormed i.Settings i.Settings st.GitCommit (fun _ h => h)
          (Or.inl h4) with h | ⟨s, hs, hk, e⟩
      · exact Or.inl h
      · exact Or.inr ⟨i, s, rfl, hs, hk, e⟩
    · rcases foldl_stepBuildTime_wellFormed i.Settings i.Settings st.BuildTime (fun _ h => h)
          (Or.inl h5) with h | ⟨s, hs, hk, e⟩
      · exact Or.inl h
      · exact Or.inr ⟨i, s, rfl, hs, hk, e⟩
    · unfold resolveRawName
      split_ifs
      · exact Or.inr rfl
      · exact Or.inl h1

/-- C17, witness: `sampleInfo` from the state in which nothing is set; here all six
fields are known afterwards. -/
theorem initFromBuildInfo_wellFormed_witness :
    wellFormed (initFromBuildInfo (some sampleInfo) unknownState).Developer
      ∧ isKnown (initFromBuildInfo (some sampleInfo) unknownState).AppProject = true
      ∧ isKnown (initFromBuildInfo (some sampleInfo) unknownState).GitCommit = true
      ∧ isKnown (initFromBuildInfo (some sampleInfo) unknownState).BuildTime = true
      ∧ isKnown (initFromBuildInfo (some sampleInfo) unknownState).AppRawName = true :=
  ⟨(initFromBuildInfo_wellFormed (some sampleInfo) unknownState (Or.inr rfl) (Or.inr rfl)
      (Or.inr rfl) (Or.inr rfl) (Or.inr rfl) (Or.inr rfl)).1,
    by decide, by decide, by decide, by decide⟩

/-- C17, counterexample: from the state in which every field is exactly `"Unknown"`,
the module path `github.com/u/251207-` gives the project `251207-` and the raw name
`""`, which is neither known nor `"Unknown"`. -/
theorem initFromBuildInfo_empty_raw_name :
    unknownState = ⟨str "Unknown", str "Unknown", str "Unknown", str "Unknown",
        str "Unknown", str "Unknown"⟩
      ∧ (initFromBuildInfo (some ⟨⟨str "github.com/u/251207-", str ""⟩, []⟩)
          unknownState).AppProject = str "251207-"
      ∧ (initFromBuildInfo (some ⟨⟨str "github.com/u/251207-", str ""⟩, []⟩)
          unknownState).AppRawName = str ""
      ∧ isKnown (initFromBuildInfo (some ⟨⟨str "github.com/u/251207-", str ""⟩, []⟩)
          unknownState).AppRawName = false
      ∧ (initFromBuildInfo (some ⟨⟨str "github.com/u/251207-", str ""⟩, []⟩)
          unknownState).AppRawName ≠ str "Unknown" := by
  decide

end Version
